import Mathlib

/-!
Flashcard deck (main.go): a shallow embedding and its verified properties

The Go program keeps one `Deck` value and mutates it through methods.  Every
method is embedded here as a pure function that takes the deck and returns the
Go return values together with the deck afterwards.

Modelling conventions

* `reader` is the standard input still to be read, as the list of its complete
  lines (a line is what `ReadString` returns for one newline-terminated
  chunk), and `pending` is the input after the last line break.  With no
  complete line left `ReadString` fails with `io.EOF`; it hands out what is
  pending with that error, and `ReadInputLineAndLog` drops it.
* `trace` is the history of the calls on standard output and standard input, in
  the order in which they were made: the strings handed to `fmt.Println`,
  which `printlnAndLog` alone calls, and what `ReadString` returned.  Each
  string printed is written followed by a line break (`stdoutText`).
* Go `int` is the 64-bit signed integer.  `Mistakes` is an `Int` and
  `Mistakes++` wraps (`wrapInt`), because a counter equal to the largest `int`
  can be loaded from a file.  `numCards` counts the elements of a slice, whose
  length the address space keeps far below `2^63`; its `++` and `--` are plain
  integer steps.
* A run-time panic (index out of range, `Intn` with a non-positive bound) is
  the result `none` of a function returning `Option`.
* Files are abstracted to what the JSON codec makes of them: a list of
  `Flashcard` records.
* Go strings are modelled by Lean strings, that is by texts, compared verbatim;
  every line read goes through `TrimSpace` before it is used, as in
  `ReadInputLineAndLog`.  A Go string is a sequence of bytes and need not be a
  text.  The difference shows in the JSON codec, which is the identity on
  texts only (`stringValue_text`), so `exportToFile` and `importFromFile` are
  embedded a second time over byte strings, with the codec, in `Raw`.  On
  texts the two embeddings agree (`raw_export_sim`, `raw_import_sim`).
* `main` takes the world outside the program as an `Env`: the text of an
  `error`, the outcome of opening, decoding and writing files, and the random
  draws.  Its loop is given `stdin.length + 1` turns, which `main_returns`
  shows to be enough.
-/

namespace Flashcards

/-! ## Data model -/

/-- Go `type Flashcard struct`. -/
structure Flashcard where
  Term : String
  Definition : String
  Mistakes : Int
deriving DecidableEq, Repr

/-- A call on standard output or standard input: `fmt.Println(str)`; a `ReadString` that
returned the complete line `line`; a `ReadString` that met the end of the input and returned
what was left of it together with `io.EOF`. -/
inductive Event where
  | printed (str : String)
  | read (line : String)
  | readEOF (left : String)
deriving DecidableEq, Repr

/-- Go `type Deck struct`, together with the two streams its methods use.  `reader` holds the
complete lines of standard input not yet read and `pending` the input after the last line
break, which `ReadString` hands out only together with `io.EOF`.  `trace` holds the calls made
so far on standard output and standard input, in their order. -/
structure Deck where
  flashcards : List Flashcard
  numCards : Int
  log : List String
  reader : List String
  pending : String
  trace : List Event
deriving DecidableEq, Repr

/-- Go `error` values the program can meet: end of input, the `*strconv.NumError` of `Atoi`
for the input it was given (`outOfRange` tells `ErrRange` from `ErrSyntax`), and a failure of
the file system or the JSON codec. -/
inductive GoError where
  | EOF
  | NumError (input : String) (outOfRange : Bool)
  | FileError (msg : String)
deriving DecidableEq, Repr

/-- Two's complement wrap of a mathematical integer into the range of Go `int` (64 bits). -/
def wrapInt (x : Int) : Int := (x + 2 ^ 63) % 2 ^ 64 - 2 ^ 63

/-- Largest Go `int`. -/
def maxInt : Int := 2 ^ 63 - 1

/-- Smallest Go `int`. -/
def minInt : Int := -(2 ^ 63)

/-- Go `NewDeck`: no cards, zero count, empty log, reading the given standard input, which
consists of the complete lines `stdin` and the text `pending` after the last line break;
nothing has been printed. -/
def NewDeck (stdin : List String) (pending : String) : Deck :=
  { flashcards := [], numCards := 0, log := [], reader := stdin, pending := pending,
    trace := [] }

/-- Go `printlnAndLog`: `fmt.Println(str)`, then `str` is appended to the transcript. -/
def printlnAndLog (d : Deck) (str : String) : Deck :=
  { d with trace := d.trace ++ [Event.printed str], log := d.log ++ [str] }

/-- Code points for which Go `unicode.IsSpace` holds. -/
def isSpace (c : Char) : Bool :=
  let n := c.toNat
  n == 9 || n == 10 || n == 11 || n == 12 || n == 13 || n == 32 || n == 0x85 || n == 0xA0 ||
  n == 0x1680 || (0x2000 ≤ n && n ≤ 0x200A) || n == 0x2028 || n == 0x2029 || n == 0x202F ||
  n == 0x205F || n == 0x3000

/-- Go `strings.TrimSpace`: leading and trailing white space removed. -/
def TrimSpace (s : String) : String :=
  String.mk ((s.data.dropWhile isSpace).reverse.dropWhile isSpace).reverse

/-- Go `ReadInputLineAndLog`.  With no complete line left `ReadString` returns what is pending
together with `io.EOF`, and the function returns `("", err)`: the pending input is used up
and nothing is logged.  Otherwise the line is trimmed and appended to the transcript. -/
def ReadInputLineAndLog (d : Deck) : (String × Option GoError) × Deck :=
  match d.reader with
  | [] =>
    (("", some GoError.EOF),
      { d with pending := "", trace := d.trace ++ [Event.readEOF d.pending] })
  | line :: rest =>
    let str := TrimSpace line
    ((str, none),
      { d with reader := rest, trace := d.trace ++ [Event.read line], log := d.log ++ [str] })

/-- Go `hasDuplicatedDefinition`, the `range` loop from position `idx` on. -/
def hasDuplicatedDefinition.scan (definition : String) : List Flashcard → Nat → Bool × Nat
  | [], _ => (false, 0)
  | f :: rest, idx =>
    if definition = f.Definition then (true, idx)
    else hasDuplicatedDefinition.scan definition rest (idx + 1)

/-- Go `hasDuplicatedDefinition`. -/
def hasDuplicatedDefinition (d : Deck) (definition : String) : Bool × Nat :=
  hasDuplicatedDefinition.scan definition d.flashcards 0

/-! ## addFlashcard -/

/-- The inner `range` loop of the first `for` of `addFlashcard`: does a card carry this term? -/
def termDuplicated (cards : List Flashcard) (term : String) : Bool :=
  match cards with
  | [] => false
  | f :: rest => if f.Term = term then true else termDuplicated rest term

/-- The inner `range` loop of the second `for` of `addFlashcard`. -/
def definitionDuplicated (cards : List Flashcard) (definition : String) : Bool :=
  match cards with
  | [] => false
  | f :: rest => if f.Definition = definition then true else definitionDuplicated rest definition

/-- First `for` of `addFlashcard`, run on a deck whose `reader` is `lines`: read a line, and
while a card carries it as its term print the complaint and read again. -/
def addFlashcard.readTerm (d : Deck) : List String → (String × Option GoError) × Deck
  | [] =>
    (("", some GoError.EOF),
      { d with reader := [], pending := "", trace := d.trace ++ [Event.readEOF d.pending] })
  | line :: rest =>
    let term := TrimSpace line
    let d1 : Deck :=
      { d with reader := rest, trace := d.trace ++ [Event.read line], log := d.log ++ [term] }
    if termDuplicated d1.flashcards term then
      addFlashcard.readTerm
        (printlnAndLog d1 ("The card \"" ++ term ++ "\" already exists. Try again:")) rest
    else ((term, none), d1)

/-- Second `for` of `addFlashcard`, run on a deck whose `reader` is `lines`. -/
def addFlashcard.readDefinition (d : Deck) : List String → (String × Option GoError) × Deck
  | [] =>
    (("", some GoError.EOF),
      { d with reader := [], pending := "", trace := d.trace ++ [Event.readEOF d.pending] })
  | line :: rest =>
    let definition := TrimSpace line
    let d1 : Deck :=
      { d with reader := rest, trace := d.trace ++ [Event.read line],
               log := d.log ++ [definition] }
    if definitionDuplicated d1.flashcards definition then
      addFlashcard.readDefinition
        (printlnAndLog d1 ("The definition \"" ++ definition ++ "\" already exists. Try again:"))
        rest
    else ((definition, none), d1)

/-- Go `addFlashcard`. -/
def addFlashcard (d : Deck) : (Int × Option GoError) × Deck :=
  let d0 := printlnAndLog d "The card:"
  match addFlashcard.readTerm d0 d0.reader with
  | ((_, some err), d1) => ((0, some err), d1)
  | ((term, none), d1) =>
    let d2 := printlnAndLog d1 "The definition of the card:"
    match addFlashcard.readDefinition d2 d2.reader with
    | ((_, some err), d3) => ((0, some err), d3)
    | ((definition, none), d3) =>
      let d4 : Deck :=
        { d3 with flashcards := d3.flashcards ++ [⟨term, definition, 0⟩],
                  numCards := d3.numCards + 1 }
      ((1, none),
        printlnAndLog d4 ("The pair (\"" ++ term ++ "\":\"" ++ definition ++ "\") has been added."))

/-- Transcript entries produced by input lines that `addFlashcard` rejects as terms: each
line as read, followed by the complaint. -/
def termRejections : List String → List String
  | [] => []
  | line :: rest =>
    TrimSpace line :: ("The card \"" ++ TrimSpace line ++ "\" already exists. Try again:") ::
      termRejections rest

/-- Transcript entries produced by input lines that `addFlashcard` rejects as definitions. -/
def definitionRejections : List String → List String
  | [] => []
  | line :: rest =>
    TrimSpace line ::
      ("The definition \"" ++ TrimSpace line ++ "\" already exists. Try again:") ::
      definitionRejections rest

/-- The calls that `addFlashcard` makes for input lines that it rejects as terms: the read
of each line, followed by the print of the complaint. -/
def termRejectionEvents : List String → List Event
  | [] => []
  | line :: rest =>
    Event.read line ::
      Event.printed ("The card \"" ++ TrimSpace line ++ "\" already exists. Try again:") ::
      termRejectionEvents rest

/-- The calls that `addFlashcard` makes for input lines that it rejects as definitions. -/
def definitionRejectionEvents : List String → List Event
  | [] => []
  | line :: rest =>
    Event.read line ::
      Event.printed ("The definition \"" ++ TrimSpace line ++ "\" already exists. Try again:") ::
      definitionRejectionEvents rest

/-- The input of `addFlashcard` splits into rejected term lines, an accepted term line,
rejected definition lines, an accepted definition line and what is left unread. -/
def AddInput (d : Deck) (pre : List String) (tl : String) (mid : List String) (dl : String)
    (rest : List String) : Prop :=
  d.reader = pre ++ tl :: (mid ++ dl :: rest) ∧
  (∀ l ∈ pre, ∃ c ∈ d.flashcards, c.Term = TrimSpace l) ∧
  (∀ c ∈ d.flashcards, c.Term ≠ TrimSpace tl) ∧
  (∀ l ∈ mid, ∃ c ∈ d.flashcards, c.Definition = TrimSpace l) ∧
  (∀ c ∈ d.flashcards, c.Definition ≠ TrimSpace dl)

/-! ## removeFlashcard -/

/-- The `range` loop of `removeFlashcard` from position `idx` on: the index of the first card
whose term is `card`. -/
def removeFlashcard.find (card : String) : List Flashcard → Nat → Option Nat
  | [], _ => none
  | flashcard :: rest, idx =>
    if card = flashcard.Term then some idx else removeFlashcard.find card rest (idx + 1)

/-- Go `removeFlashcard`.  `append(d.flashcards[:idx], d.flashcards[idx+1:]...)` is the cards
before `idx` followed by the cards after it. -/
def removeFlashcard (d : Deck) : (Bool × Option GoError) × Deck :=
  let d0 := printlnAndLog d "Which card?"
  match ReadInputLineAndLog d0 with
  | ((_, some err), d1) => ((false, some err), d1)
  | ((card, none), d1) =>
    match removeFlashcard.find card d1.flashcards 0 with
    | some idx =>
      let d2 : Deck :=
        { d1 with flashcards := d1.flashcards.take idx ++ d1.flashcards.drop (idx + 1),
                  numCards := d1.numCards - 1 }
      ((true, none), printlnAndLog d2 "The card has been removed.")
    | none =>
      ((false, none),
        printlnAndLog d1 ("Can\x27t remove \"" ++ card ++ "\": there is no such card."))

/-! ## exportToFile and importFromFile -/

/-- What `os.Open` followed by the JSON decoder makes of the named file: it cannot be opened,
it does not decode to a list of records, or it decodes to the list `rs`. -/
inductive FileContent where
  | missing
  | malformed (err : GoError)
  | records (rs : List Flashcard)
deriving DecidableEq, Repr

/-- Go `exportToFile`.  `writeErr` is the outcome of `os.WriteFile`.  The second component is
the record list serialised into the file when the write succeeds: `json.MarshalIndent` is
handed `d.flashcards`, whose strings are texts here, and texts pass through the codec as they
are (`Raw.exportToFile` has the codec for byte strings). -/
def exportToFile (d : Deck) (writeErr : Option GoError) :
    (Option GoError × Deck) × Option (List Flashcard) :=
  match writeErr with
  | some err => ((some err, d), none)
  | none =>
    ((none, printlnAndLog d (toString d.numCards ++ " cards have been saved.\n")),
      some d.flashcards)

/-- The Go map `existingFlashcards`, as a lookup function. -/
abbrev TermIndex := String → Option Nat

/-- First loop of `importFromFile` from position `i` on: `existingFlashcards[f.Term] = i`. -/
def importFromFile.index : List Flashcard → Nat → TermIndex → TermIndex
  | [], _, m => m
  | f :: rest, i, m =>
    importFromFile.index rest (i + 1) (fun k => if k = f.Term then some i else m k)

/-- Second loop of `importFromFile`: a record whose term is in the map overwrites the
definition of the card at the mapped index, any other record is appended and counted. -/
def importFromFile.merge (m : TermIndex) : List Flashcard → Deck → Option Deck
  | [], d => some d
  | f :: rest, d =>
    match m f.Term with
    | some idx =>
      match d.flashcards[idx]? with
      | none => none
      | some c =>
        importFromFile.merge m rest
          { d with flashcards := d.flashcards.set idx { c with Definition := f.Definition } }
    | none =>
      importFromFile.merge m rest
        { d with flashcards := d.flashcards ++ [f], numCards := d.numCards + 1 }

/-- Go `importFromFile`, given what the named file holds. -/
def importFromFile (d : Deck) (file : FileContent) : Option (Option GoError × Deck) :=
  match file with
  | FileContent.missing => some (none, printlnAndLog d "File not found.")
  | FileContent.malformed err => some (some err, d)
  | FileContent.records rs =>
    match importFromFile.merge (importFromFile.index d.flashcards 0 (fun _ => none)) rs d with
    | none => none
    | some d1 => some (none, printlnAndLog d1 (toString rs.length ++ " cards have been loaded"))

/-! ## checkAnswer and askFlashcardAnswers -/

/-- Go `checkAnswer`; `none` is the index-out-of-range panic. -/
def checkAnswer (d : Deck) (idx : Nat) : Option ((Int × Option GoError) × Deck) :=
  match d.flashcards[idx]? with
  | none => none
  | some card =>
    let d0 := printlnAndLog d ("Print the definition of \"" ++ card.Term ++ "\":")
    match ReadInputLineAndLog d0 with
    | ((_, some err), d1) => some ((0, some err), d1)
    | ((answer, none), d1) =>
      let fd := card.Definition
      if answer = fd then some ((1, none), printlnAndLog d1 "Correct!")
      else
        let d2 : Deck :=
          { d1 with flashcards :=
              d1.flashcards.set idx { card with Mistakes := wrapInt (card.Mistakes + 1) } }
        let wrongStr := "Wrong. The right answer is \"" ++ fd ++ "\""
        match hasDuplicatedDefinition d2 answer with
        | (true, dupIdx) =>
          match d2.flashcards[dupIdx]? with
          | none => none
          | some dup =>
            some ((1, none),
              printlnAndLog d2
                (wrongStr ++ ", but your definition is correct for \"" ++ dup.Term ++ "\"."))
        | (false, _) => some ((1, none), printlnAndLog d2 wrongStr)

/-- Go `strconv.Atoi` on a 64-bit platform: an optional sign, then one or more decimal
digits, the value within the range of `int`. -/
def Atoi (s : String) : Except GoError Int :=
  let digits : List Char :=
    match s.data with
    | '-' :: t => t
    | '+' :: t => t
    | cs => cs
  let negative : Bool :=
    match s.data with
    | '-' :: _ => true
    | _ => false
  if digits = [] ∨ ¬ digits.all Char.isDigit then Except.error (GoError.NumError s false)
  else
    let n : Nat := digits.foldl (fun acc c => 10 * acc + (c.toNat - 48)) 0
    let v : Int := if negative then -(n : Int) else (n : Int)
    if v < minInt ∨ maxInt < v then Except.error (GoError.NumError s true) else Except.ok v

/-- Go `r.Intn(n)`: a panic for `n <= 0`, otherwise a number in `[0, n)`; `raw` is the value
the generator draws. -/
def Intn (raw : Nat) (n : Int) : Option Nat :=
  if n ≤ 0 then none else some (raw % n.toNat)

/-- The `for i := 0; i < numAsk; i++` loop of `askFlashcardAnswers`, at round `i` with `k`
rounds to go; `rnd i` is what the generator draws in round `i`. -/
def askFlashcardAnswers.rounds (rnd : Nat → Nat) :
    Nat → Nat → Deck → Option ((Int × Option GoError) × Deck)
  | _, 0, d => some ((1, none), d)
  | i, k + 1, d =>
    match Intn (rnd i) d.numCards with
    | none => none
    | some idx =>
      match checkAnswer d idx with
      | none => none
      | some ((_, some err), d1) => some ((0, some err), d1)
      | some ((_, none), d1) => askFlashcardAnswers.rounds rnd (i + 1) k d1

/-- Go `askFlashcardAnswers`; `rnd` stands for the time-seeded generator. -/
def askFlashcardAnswers (rnd : Nat → Nat) (d : Deck) : Option ((Int × Option GoError) × Deck) :=
  let d0 := printlnAndLog d "How many times to ask?"
  match ReadInputLineAndLog d0 with
  | ((_, some err), d1) => some ((0, some err), d1)
  | ((numAskStr, none), d1) =>
    match Atoi numAskStr with
    | Except.error err => some ((0, some err), d1)
    | Except.ok numAsk =>
      if d1.numCards = 0 then
        some ((0, none),
          printlnAndLog d1
            "There are not currently no flashcards. First add some and try again.")
      else askFlashcardAnswers.rounds rnd 0 numAsk.toNat d1

/-! ## resetStats and findHardestCards -/

/-- Go `resetStats`. -/
def resetStats (d : Deck) : Deck :=
  printlnAndLog { d with flashcards := d.flashcards.map (fun f => { f with Mistakes := 0 }) }
    "Card statistics have been reset."

/-- One iteration of the `range` loop of `findHardestCards` on the pair
`(hardestCards, maxMistakes)`. -/
def findHardestCards.step (acc : List String × Int) (fc : Flashcard) : List String × Int :=
  if 0 < fc.Mistakes ∧ acc.2 ≤ fc.Mistakes then
    if acc.2 < fc.Mistakes then ([fc.Term], fc.Mistakes) else (acc.1 ++ [fc.Term], acc.2)
  else acc

/-- The scan of `findHardestCards`: `(hardestCards, maxMistakes)` after the loop. -/
def findHardestCards.scan (cards : List Flashcard) : List String × Int :=
  cards.foldl findHardestCards.step ([], 0)

/-- Go `findHardestCards`: the scan, then the report by the number of terms collected. -/
def findHardestCards (d : Deck) : Deck :=
  match findHardestCards.scan d.flashcards with
  | ([], _) => printlnAndLog d "There are no cards with errors."
  | ([term], maxMistakes) =>
    printlnAndLog d
      ("The hardest card is \"" ++ term ++ "\". You have " ++ toString maxMistakes ++
        " errors answering it.")
  | (hardestCards, maxMistakes) =>
    printlnAndLog d
      ("The hardest cards are \"" ++ String.intercalate "\", \"" hardestCards ++
        "\". You have " ++ toString maxMistakes ++ " errors answering it.")

/-! ## Auxiliary functions for stating the import theorems -/

/-- The card at `idx`, when there is one, gets the definition `definition`. -/
def overwriteAt (cs : List Flashcard) (idx : Nat) (definition : String) : List Flashcard :=
  match cs[idx]? with
  | none => cs
  | some c => cs.set idx { c with Definition := definition }

/-- The overwrites that the records `rs` cause in the cards `cs` under the term map `m`. -/
def overwriteDefinitions (m : TermIndex) : List Flashcard → List Flashcard → List Flashcard
  | [], cs => cs
  | r :: rs, cs =>
    match m r.Term with
    | some idx => overwriteDefinitions m rs (overwriteAt cs idx r.Definition)
    | none => overwriteDefinitions m rs cs

/-! ## Auxiliary functions for stating the quiz theorems -/

/-- Sum of the mistake counters of the cards, as a mathematical integer. -/
def sumMistakes : List Flashcard → Int
  | [] => 0
  | c :: cs => c.Mistakes + sumMistakes cs

/-- Number of rounds, from round `i` on, whose answer (the line read, trimmed) differs from
the definition of the card picked in that round. -/
def wrongAnswers (cards : List Flashcard) (rnd : Nat → Nat) : Nat → List String → Nat
  | _, [] => 0
  | i, a :: rest =>
    (match cards[rnd i % cards.length]? with
      | some c => if TrimSpace a = c.Definition then 0 else 1
      | none => 0) + wrongAnswers cards rnd (i + 1) rest

/-- The cards after one quiz round on the card `card` at `idx` answered with the line `a`. -/
def answered (cards : List Flashcard) (idx : Nat) (card : Flashcard) (a : String) :
    List Flashcard :=
  if TrimSpace a = card.Definition then cards
  else cards.set idx { card with Mistakes := wrapInt (card.Mistakes + 1) }

/-! ## The uniqueness invariant -/

/-- No two cards share a term and no two cards share a definition. -/
def UniqueCards (cards : List Flashcard) : Prop :=
  (cards.map Flashcard.Term).Nodup ∧ (cards.map Flashcard.Definition).Nodup

/-! ## writeToLogFile and main -/

/-- What lies outside the program.  `errorText` is how `%s` prints an `error`.  `openFile`
is what `os.Open` and the JSON decoder make of a file name, `writeFile` the outcome of
`os.WriteFile`, `writeLog` the outcome of `os.Create` followed by the `Fprintln` loop, and
`rnd` the draws of the generator seeded from the clock; each may depend on the moment of the
call, which the deck at that moment stands for. -/
structure Env where
  errorText : GoError → String
  openFile : Deck → String → FileContent
  writeFile : Deck → String → Option GoError
  writeLog : Deck → String → Option GoError
  rnd : Deck → Nat → Nat

/-- Go `writeToLogFile`. -/
def writeToLogFile (env : Env) (d : Deck) : Option GoError × Deck :=
  let d0 := printlnAndLog d "File name:"
  match ReadInputLineAndLog d0 with
  | ((_, some err), d1) => (some err, d1)
  | ((filename, none), d1) =>
    match env.writeLog d1 filename with
    | some err => (some err, d1)
    | none => (none, printlnAndLog d1 "The log has been saved.")

/-- `case "add"` of the switch in `main`: the deck afterwards and whether the loop goes on
(`true`) or `main` returns (`false`). -/
def main.onAdd (env : Env) (d : Deck) : Option (Deck × Bool) :=
  match addFlashcard d with
  | ((_, some err), d1) =>
    some (printlnAndLog d1 ("Error reading flashcard: " ++ env.errorText err), false)
  | ((_, none), d1) => some (d1, true)

/-- `case "remove"` of the switch in `main`. -/
def main.onRemove (env : Env) (d : Deck) : Option (Deck × Bool) :=
  match removeFlashcard d with
  | ((_, some err), d1) =>
    some (printlnAndLog d1 ("Error removing flashcard: " ++ env.errorText err), false)
  | ((_, none), d1) => some (d1, true)

/-- The file-name prompt of `case "import"` and `case "export"`: the name read (empty when
the read fails) and the deck; a read error is reported and nothing else is done about it. -/
def main.readFilename (env : Env) (d : Deck) : String × Deck :=
  let d0 := printlnAndLog d "File name:"
  match ReadInputLineAndLog d0 with
  | ((filename, some err), d1) =>
    (filename, printlnAndLog d1 ("Error reading filename: " ++ env.errorText err))
  | ((filename, none), d1) => (filename, d1)

/-- `case "import"` of the switch in `main`; `none` is a panic. -/
def main.onImport (env : Env) (d : Deck) : Option (Deck × Bool) :=
  match main.readFilename env d with
  | (filename, d2) =>
    match importFromFile d2 (env.openFile d2 filename) with
    | none => none
    | some (some e, d3) =>
      some (printlnAndLog d3
        ("Error importing flashcards from file: " ++ env.errorText e), false)
    | some (none, d3) => some (d3, true)

/-- `case "export"` of the switch in `main`. -/
def main.onExport (env : Env) (d : Deck) : Option (Deck × Bool) :=
  match main.readFilename env d with
  | (filename, d2) =>
    match exportToFile d2 (env.writeFile d2 filename) with
    | ((some e, d3), _) =>
      some (printlnAndLog d3
        ("Error exporting flashcards to file: " ++ env.errorText e), false)
    | ((none, d3), _) => some (d3, true)

/-- `case "ask"` of the switch in `main`; `none` is a panic. -/
def main.onAsk (env : Env) (d : Deck) : Option (Deck × Bool) :=
  match askFlashcardAnswers (env.rnd d) d with
  | none => none
  | some ((_, some err), d1) =>
    some (printlnAndLog d1
      ("Error asking for Flashcard answers: " ++ env.errorText err), false)
  | some ((_, none), d1) => some (d1, true)

/-- `case "log"` of the switch in `main`. -/
def main.onLog (env : Env) (d : Deck) : Option (Deck × Bool) :=
  match writeToLogFile env d with
  | (some err, d1) =>
    some (printlnAndLog d1 ("Error writing log to file: " ++ env.errorText err), false)
  | (none, d1) => some (d1, true)

/-- `case "exit"` of the switch in `main`; `exportTo` is the `-export_to` flag. -/
def main.onExit (env : Env) (exportTo : String) (d : Deck) : Option (Deck × Bool) :=
  let d0 := printlnAndLog d "Bye bye!"
  if exportTo = "" then some (d0, false)
  else
    match exportToFile d0 (env.writeFile d0 exportTo) with
    | ((some e, d1), _) =>
      some (printlnAndLog d1
        ("Error exporting flashcards to file: " ++ env.errorText e), false)
    | ((none, d1), _) => some (d1, false)

/-- The `switch action` of `main`: the deck afterwards and whether the loop goes on (`true`)
or `main` returns (`false`); `none` is a panic. -/
def main.command (env : Env) (exportTo : String) (action : String) (d : Deck) :
    Option (Deck × Bool) :=
  if action = "add" then main.onAdd env d
  else if action = "remove" then main.onRemove env d
  else if action = "import" then main.onImport env d
  else if action = "export" then main.onExport env d
  else if action = "ask" then main.onAsk env d
  else if action = "log" then main.onLog env d
  else if action = "hardest card" then some (findHardestCards d, true)
  else if action = "reset stats" then some (resetStats d, true)
  else if action = "exit" then main.onExit env exportTo d
  else some (printlnAndLog d ("Action " ++ action ++ " is not implemented. Try again."), true)

/-- The prompt of the command loop. -/
def actionPrompt : String :=
  "Input the action (add, remove, import, export, ask, exit, log, hardest card, reset stats):"

/-- One turn of the `for` loop of `main`: the prompt, the read of the action, the switch. -/
def main.turn (env : Env) (exportTo : String) (d : Deck) : Option (Deck × Bool) :=
  let d0 := printlnAndLog d actionPrompt
  match ReadInputLineAndLog d0 with
  | ((_, some err), d1) =>
    some (printlnAndLog d1 ("Error reading the action: " ++ env.errorText err), false)
  | ((action, none), d1) => main.command env exportTo action d1

/-- How a run of `main` ends: it returns with a final deck, it panics, or the turns allotted
to the loop are used up. -/
inductive Outcome where
  | returned (d : Deck)
  | panicked
  | unfinished
deriving DecidableEq, Repr

/-- The `for` loop of `main`, for at most the given number of turns. -/
def main.loop (env : Env) (exportTo : String) : Nat → Deck → Outcome
  | 0, _ => Outcome.unfinished
  | turns + 1, d =>
    match main.turn env exportTo d with
    | none => Outcome.panicked
    | some (d1, false) => Outcome.returned d1
    | some (d1, true) => main.loop env exportTo turns d1

/-- Go `main` with the flags `-import_from` and `-export_to` and the standard input made of
the complete lines `stdin` and the text `pending` after the last line break.  Every turn that
goes on has read a line, so `stdin.length + 1` turns are enough. -/
def main (env : Env) (importFrom exportTo : String) (stdin : List String) (pending : String) :
    Outcome :=
  let deck := NewDeck stdin pending
  if importFrom = "" then main.loop env exportTo (stdin.length + 1) deck
  else
    match importFromFile deck (env.openFile deck importFrom) with
    | none => Outcome.panicked
    | some (some e, d1) =>
      Outcome.returned
        (printlnAndLog d1 ("Error importing flashcards from file: " ++ env.errorText e))
    | some (none, d1) => main.loop env exportTo (stdin.length + 1) d1

/-- An environment for concrete runs.  `io.EOF` prints as `EOF`; a `NumError` prints as
`strconv.Atoi: parsing "..."` followed by its reason, the input standing between the quotes as
it is (`strconv.Quote` changes an input only where it holds a quote, a backslash or a
character that is not printable); a file error prints as its text.  No file can be opened; a
write succeeds exactly under a non-empty name. -/
def plainEnv : Env where
  errorText := fun e =>
    match e with
    | GoError.EOF => "EOF"
    | GoError.NumError input outOfRange =>
      "strconv.Atoi: parsing \"" ++ input ++ "\": " ++
        (if outOfRange then "value out of range" else "invalid syntax")
    | GoError.FileError msg => msg
  openFile := fun _ _ => FileContent.missing
  writeFile := fun _ name =>
    if name = "" then some (GoError.FileError "open : no such file or directory") else none
  writeLog := fun _ name =>
    if name = "" then some (GoError.FileError "open : no such file or directory") else none
  rnd := fun _ i => i

/-! ## The transcript of an operation -/

/-- The transcript entry that a call leaves: the string printed; the line read, trimmed;
nothing for a read that met the end of the input. -/
def Event.entry : Event → Option String
  | Event.printed str => some str
  | Event.read line => some (TrimSpace line)
  | Event.readEOF _ => none

/-- The complete input line that a call consumed. -/
def Event.consumed : Event → Option String
  | Event.read line => some line
  | _ => none

/-- The string that a call wrote to standard output. -/
def Event.written : Event → Option String
  | Event.printed str => some str
  | _ => none

/-- The string printed or read by a call, what was read being trimmed: the entry that the
transcript would hold if every call left one. -/
def Event.text : Event → String
  | Event.printed str => str
  | Event.read line => TrimSpace line
  | Event.readEOF left => TrimSpace left

/-- `Logged d d1`: from `d` to `d1` calls on standard output and standard input have been
made; the transcript has grown at its end by exactly the entries of these calls, in the order
of the calls; the complete lines read are those taken from the front of the input.  The
pending input is untouched, or it has been used up after the last complete line. -/
def Logged (d d1 : Deck) : Prop :=
  ∃ events : List Event,
    d1.trace = d.trace ++ events ∧
    d1.log = d.log ++ events.filterMap Event.entry ∧
    d.reader = events.filterMap Event.consumed ++ d1.reader ∧
    (d1.pending = d.pending ∨ (d1.reader = [] ∧ d1.pending = ""))

/-- The text that standard output holds after the writes `out`: `fmt.Println` writes its
string and then a line break. -/
def stdoutText (out : List String) : List Char :=
  out.flatMap (fun str => str.data ++ ['\n'])

/-- The lines of a text: it is cut at every line break; what follows the last line break is a
line only when it is not empty. -/
def textLines : List Char → List (List Char)
  | [] => []
  | c :: cs =>
    if c = '\n' then [] :: textLines cs
    else
      match textLines cs with
      | [] => [[c]]
      | l :: ls => (c :: l) :: ls

/-! ## Messages of a wrong quiz round -/

/-- The report of a wrong answer: `fmt.Sprintf("Wrong. The right answer is \"%s\"", fd)`. -/
def wrongMessage (fd : String) : String :=
  "Wrong. The right answer is \"" ++ fd ++ "\""

/-- The note that `checkAnswer` adds when the answer is the definition of the card `term`. -/
def correctForNote (term : String) : String :=
  ", but your definition is correct for \"" ++ term ++ "\"."

/-! ## Reports of findHardestCards -/

/-- The cards that attain the positive maximum of the mistake counts, in deck order. -/
def hardestOf (cards : List Flashcard) : List Flashcard :=
  cards.filter (fun c => decide (0 < c.Mistakes ∧ ∀ c2 ∈ cards, c2.Mistakes ≤ c.Mistakes))

/-- The report when no card has mistakes. -/
def noErrorsMessage : String := "There are no cards with errors."

/-- The report that names one card. -/
def hardestCardMessage (term : String) (n : Int) : String :=
  "The hardest card is \"" ++ term ++ "\". You have " ++ toString n ++ " errors answering it."

/-- The report that names several cards, joined by `", "` between quotes. -/
def hardestCardsMessage (terms : List String) (n : Int) : String :=
  "The hardest cards are \"" ++ String.intercalate "\", \"" terms ++ "\". You have " ++
    toString n ++ " errors answering it."

/-! ## Reachable deck states -/

/-- Deck states that a run can reach from `NewDeck()`: by the operations of the deck, with any
input, any file contents, any outcome of a write and any random draws, by the single quiz
rounds inside `askFlashcardAnswers`, and by the prompts and reads of the command loop. -/
inductive Reachable : Deck → Prop where
  | init (stdin : List String) (pending : String) : Reachable (NewDeck stdin pending)
  | add {d : Deck} : Reachable d → Reachable (addFlashcard d).2
  | remove {d : Deck} : Reachable d → Reachable (removeFlashcard d).2
  | importFile {d : Deck} (file : FileContent) (e : Option GoError) (d1 : Deck) :
      Reachable d → importFromFile d file = some (e, d1) → Reachable d1
  | ask {d : Deck} (rnd : Nat → Nat) (r : Int × Option GoError) (d1 : Deck) :
      Reachable d → askFlashcardAnswers rnd d = some (r, d1) → Reachable d1
  | reset {d : Deck} : Reachable d → Reachable (resetStats d)
  | exportFile {d : Deck} (writeErr : Option GoError) :
      Reachable d → Reachable (exportToFile d writeErr).1.2
  | hardest {d : Deck} : Reachable d → Reachable (findHardestCards d)
  | check {d : Deck} (idx : Nat) (r : Int × Option GoError) (d1 : Deck) :
      Reachable d → checkAnswer d idx = some (r, d1) → Reachable d1
  | readLine {d : Deck} : Reachable d → Reachable (ReadInputLineAndLog d).2
  | println {d : Deck} (str : String) : Reachable d → Reachable (printlnAndLog d str)

/-- No counter can wrap: the unread input has at most `maxInt` lines, and every counter is
non-negative and stays at or below `maxInt` when one is added for each unread line. -/
def CountersBounded (d : Deck) : Prop :=
  (d.reader.length : Int) ≤ maxInt ∧
  ∀ c ∈ d.flashcards, 0 ≤ c.Mistakes ∧ c.Mistakes + (d.reader.length : Int) ≤ maxInt

/-- Deck states reachable from the empty deck by add, remove, ask, reset-stats and import (and
the prompts and reads of the command loop), where the input has at most `maxInt` lines and
every imported record has a mistake count `m` with `0 <= m` and `m` plus the number of unread
input lines at most `maxInt`. -/
inductive ReachableBounded : Deck → Prop where
  | init (stdin : List String) (pending : String) (h : (stdin.length : Int) ≤ maxInt) :
      ReachableBounded (NewDeck stdin pending)
  | add {d : Deck} : ReachableBounded d → ReachableBounded (addFlashcard d).2
  | remove {d : Deck} : ReachableBounded d → ReachableBounded (removeFlashcard d).2
  | importFile {d : Deck} (file : FileContent) (e : Option GoError) (d1 : Deck) :
      ReachableBounded d →
      (∀ rs, file = FileContent.records rs →
        ∀ r ∈ rs, 0 ≤ r.Mistakes ∧ r.Mistakes + (d.reader.length : Int) ≤ maxInt) →
      importFromFile d file = some (e, d1) → ReachableBounded d1
  | ask {d : Deck} (rnd : Nat → Nat) (r : Int × Option GoError) (d1 : Deck) :
      ReachableBounded d → askFlashcardAnswers rnd d = some (r, d1) → ReachableBounded d1
  | reset {d : Deck} : ReachableBounded d → ReachableBounded (resetStats d)
  | readLine {d : Deck} : ReachableBounded d → ReachableBounded (ReadInputLineAndLog d).2
  | println {d : Deck} (str : String) :
      ReachableBounded d → ReachableBounded (printlnAndLog d str)

/-! ## Byte strings: export and import through the JSON codec -/

/-- One byte. -/
abbrev Byte := Fin 256

/-- A Go `string` as it is: a sequence of bytes, which need not be valid UTF-8. -/
abbrev GoString := List Byte

/-- Go `utf8.DecodeRuneInString`, as far as the JSON encoder uses it: the length of the UTF-8
sequence at the front of the bytes, or `none` where Go returns `(RuneError, 1)` because no
valid sequence starts there.  The second byte of a sequence is confined further after the
lead bytes `E0`, `ED`, `F0` and `F4` (no overlong forms, no surrogates, nothing above
`U+10FFFF`). -/
def utf8.runeLen : GoString → Option Nat
  | [] => none
  | b0 :: rest =>
    if b0 < 0x80 then some 1
    else if 0xC2 ≤ b0 ∧ b0 ≤ 0xDF then
      match rest with
      | b1 :: _ => if 0x80 ≤ b1 ∧ b1 ≤ 0xBF then some 2 else none
      | _ => none
    else if 0xE0 ≤ b0 ∧ b0 ≤ 0xEF then
      match rest with
      | b1 :: b2 :: _ =>
        if (if b0 = 0xE0 then 0xA0 else 0x80) ≤ b1 ∧ b1 ≤ (if b0 = 0xED then 0x9F else 0xBF) ∧
            0x80 ≤ b2 ∧ b2 ≤ 0xBF then some 3
        else none
      | _ => none
    else if 0xF0 ≤ b0 ∧ b0 ≤ 0xF4 then
      match rest with
      | b1 :: b2 :: b3 :: _ =>
        if (if b0 = 0xF0 then 0x90 else 0x80) ≤ b1 ∧ b1 ≤ (if b0 = 0xF4 then 0x8F else 0xBF) ∧
            0x80 ≤ b2 ∧ b2 ≤ 0xBF ∧ 0x80 ≤ b3 ∧ b3 ≤ 0xBF then some 4
        else none
      | _ => none
    else none

/-- Validity of the bytes as UTF-8 when the first `k` of them are the rest of a sequence
already recognised. -/
def utf8.validFrom : Nat → GoString → Bool
  | _, [] => true
  | k + 1, _ :: rest => utf8.validFrom k rest
  | 0, b :: rest =>
    match utf8.runeLen (b :: rest) with
    | some n => utf8.validFrom (n - 1) rest
    | none => false

/-- Go `utf8.ValidString`: the bytes consist of valid UTF-8 sequences only. -/
def utf8.ValidString (s : GoString) : Bool := utf8.validFrom 0 s

/-- Go `utf8.AppendRune` for a code point: its UTF-8 sequence of one to four bytes. -/
def utf8.AppendRune (r : Nat) : GoString :=
  if r < 0x80 then [Fin.ofNat r]
  else if r < 0x800 then [Fin.ofNat (0xC0 + r / 64), Fin.ofNat (0x80 + r % 64)]
  else if r < 0x10000 then
    [Fin.ofNat (0xE0 + r / 4096), Fin.ofNat (0x80 + r / 64 % 64), Fin.ofNat (0x80 + r % 64)]
  else
    [Fin.ofNat (0xF0 + r / 262144), Fin.ofNat (0x80 + r / 4096 % 64),
      Fin.ofNat (0x80 + r / 64 % 64), Fin.ofNat (0x80 + r % 64)]

/-- The bytes of a text: the UTF-8 sequences of its code points.  This is how the string
literals of the program and the output of `%d` are stored. -/
def bytes (s : String) : GoString := s.data.flatMap (fun c => utf8.AppendRune c.toNat)

/-- The JSON codec on a string whose first `k` bytes are the rest of a sequence already
recognised: see `json.stringValue`. -/
def json.coerceFrom : Nat → GoString → GoString
  | _, [] => []
  | k + 1, b :: rest => b :: json.coerceFrom k rest
  | 0, b :: rest =>
    match utf8.runeLen (b :: rest) with
    | some n => b :: json.coerceFrom (n - 1) rest
    | none => 0xEF :: 0xBF :: 0xBD :: json.coerceFrom 0 rest

/-- The string that the JSON decoder reads back from what `json.Marshal` writes for `s`.  The
encoder walks the string with `utf8.DecodeRuneInString`: a valid sequence is written as it is
or as an escape that denotes it, and each byte at which no valid sequence starts is written as
the escape of `U+FFFD`, whose UTF-8 sequence is `EF BF BD` ("String values encode as JSON
strings coerced to valid UTF-8, replacing invalid bytes with the Unicode replacement rune"). -/
def json.stringValue (s : GoString) : GoString := json.coerceFrom 0 s

namespace Raw

/-- Go `type Flashcard struct` with its strings as byte strings. -/
structure Flashcard where
  Term : GoString
  Definition : GoString
  Mistakes : Int
deriving DecidableEq, Repr

/-- The calls on standard output and standard input, as `Flashcards.Event`. -/
inductive Event where
  | printed (str : GoString)
  | read (line : GoString)
  | readEOF (left : GoString)
deriving DecidableEq, Repr

/-- Go `type Deck struct` with byte strings throughout; the fields are those of
`Flashcards.Deck`. -/
structure Deck where
  flashcards : List Flashcard
  numCards : Int
  log : List GoString
  reader : List GoString
  pending : GoString
  trace : List Event
deriving DecidableEq, Repr

/-- Go `NewDeck`. -/
def NewDeck (stdin : List GoString) (pending : GoString) : Deck :=
  { flashcards := [], numCards := 0, log := [], reader := stdin, pending := pending,
    trace := [] }

/-- Go `printlnAndLog`. -/
def printlnAndLog (d : Deck) (str : GoString) : Deck :=
  { d with trace := d.trace ++ [Event.printed str], log := d.log ++ [str] }

/-- What `os.Open` followed by the JSON decoder makes of the named file. -/
inductive FileContent where
  | missing
  | malformed (err : GoError)
  | records (rs : List Flashcard)
deriving DecidableEq, Repr

/-- The record that the JSON decoder reads back from what `json.MarshalIndent` writes for a
card: both strings pass through the codec, the integer is written in decimal and read back
exactly. -/
def Marshal (f : Flashcard) : Flashcard :=
  { Term := json.stringValue f.Term, Definition := json.stringValue f.Definition,
    Mistakes := f.Mistakes }

/-- Go `exportToFile`.  `writeErr` is the outcome of `os.WriteFile`.  The second component is
what the file written holds, as the JSON decoder reads it back: `json.MarshalIndent` is
handed `d.flashcards`. -/
def exportToFile (d : Deck) (writeErr : Option GoError) :
    (Option GoError × Deck) × Option (List Flashcard) :=
  match writeErr with
  | some err => ((some err, d), none)
  | none =>
    ((none, printlnAndLog d (bytes (toString d.numCards ++ " cards have been saved.\n"))),
      some (d.flashcards.map Marshal))

/-- The Go map `existingFlashcards`, as a lookup function. -/
abbrev TermIndex := GoString → Option Nat

/-- First loop of `importFromFile` from position `i` on: `existingFlashcards[f.Term] = i`. -/
def importFromFile.index : List Flashcard → Nat → TermIndex → TermIndex
  | [], _, m => m
  | f :: rest, i, m =>
    importFromFile.index rest (i + 1) (fun k => if k = f.Term then some i else m k)

/-- Second loop of `importFromFile`: a record whose term is in the map overwrites the
definition of the card at the mapped index, any other record is appended and counted. -/
def importFromFile.merge (m : TermIndex) : List Flashcard → Deck → Option Deck
  | [], d => some d
  | f :: rest, d =>
    match m f.Term with
    | some idx =>
      match d.flashcards[idx]? with
      | none => none
      | some c =>
        importFromFile.merge m rest
          { d with flashcards := d.flashcards.set idx { c with Definition := f.Definition } }
    | none =>
      importFromFile.merge m rest
        { d with flashcards := d.flashcards ++ [f], numCards := d.numCards + 1 }

/-- Go `importFromFile`, given what the named file holds. -/
def importFromFile (d : Deck) (file : FileContent) : Option (Option GoError × Deck) :=
  match file with
  | FileContent.missing => some (none, printlnAndLog d (bytes "File not found."))
  | FileContent.malformed err => some (some err, d)
  | FileContent.records rs =>
    match importFromFile.merge (importFromFile.index d.flashcards 0 (fun _ => none)) rs d with
    | none => none
    | some d1 =>
      some (none, printlnAndLog d1 (bytes (toString rs.length ++ " cards have been loaded")))

/-- A card of the main development, its texts stored as bytes. -/
def ofFlashcard (f : Flashcards.Flashcard) : Flashcard :=
  { Term := bytes f.Term, Definition := bytes f.Definition, Mistakes := f.Mistakes }

/-- A call of the main development, its text stored as bytes. -/
def ofEvent : Flashcards.Event → Event
  | Flashcards.Event.printed str => Event.printed (bytes str)
  | Flashcards.Event.read line => Event.read (bytes line)
  | Flashcards.Event.readEOF left => Event.readEOF (bytes left)

/-- A deck of the main development, its texts stored as bytes. -/
def ofDeck (d : Flashcards.Deck) : Deck :=
  { flashcards := d.flashcards.map ofFlashcard, numCards := d.numCards,
    log := d.log.map bytes, reader := d.reader.map bytes, pending := bytes d.pending,
    trace := d.trace.map ofEvent }

/-- A file of the main development, its texts stored as bytes. -/
def ofFile : Flashcards.FileContent → FileContent
  | Flashcards.FileContent.missing => FileContent.missing
  | Flashcards.FileContent.malformed err => FileContent.malformed err
  | Flashcards.FileContent.records rs => FileContent.records (rs.map ofFlashcard)

end Raw

/-! ## Theorems -/

/-! ### addFlashcard -/

theorem termDuplicated_iff (cards : List Flashcard) (term : String) :
    termDuplicated cards term = true ↔ ∃ c ∈ cards, c.Term = term := by
  induction cards with
  | nil => simp [termDuplicated]
  | cons f rest ih =>
    unfold termDuplicated
    by_cases h : f.Term = term
    · simp [h]
    · simp [h, ih]

theorem definitionDuplicated_iff (cards : List Flashcard) (definition : String) :
    definitionDuplicated cards definition = true ↔ ∃ c ∈ cards, c.Definition = definition := by
  induction cards with
  | nil => simp [definitionDuplicated]
  | cons f rest ih =>
    unfold definitionDuplicated
    by_cases h : f.Definition = definition
    · simp [h]
    · simp [h, ih]

/-- The first loop of `addFlashcard` as the source writes it: one `ReadInputLineAndLog`, the
error returned at once, a duplicate answered by the complaint and another turn. -/
theorem readTerm_unfold (d : Deck) :
    addFlashcard.readTerm d d.reader =
      match ReadInputLineAndLog d with
      | ((_, some err), d1) => (("", some err), d1)
      | ((term, none), d1) =>
        if termDuplicated d1.flashcards term then
          addFlashcard.readTerm
            (printlnAndLog d1 ("The card \"" ++ term ++ "\" already exists. Try again:"))
            (printlnAndLog d1 ("The card \"" ++ term ++ "\" already exists. Try again:")).reader
        else ((term, none), d1) := by
  obtain ⟨cards, n, lg, rd, pd, out⟩ := d
  cases rd with
  | nil => rfl
  | cons line rest => rfl

/-- The second loop of `addFlashcard` as the source writes it. -/
theorem readDefinition_unfold (d : Deck) :
    addFlashcard.readDefinition d d.reader =
      match ReadInputLineAndLog d with
      | ((_, some err), d1) => (("", some err), d1)
      | ((definition, none), d1) =>
        if definitionDuplicated d1.flashcards definition then
          addFlashcard.readDefinition
            (printlnAndLog d1
              ("The definition \"" ++ definition ++ "\" already exists. Try again:"))
            (printlnAndLog d1
              ("The definition \"" ++ definition ++ "\" already exists. Try again:")).reader
        else ((definition, none), d1) := by
  obtain ⟨cards, n, lg, rd, pd, out⟩ := d
  cases rd with
  | nil => rfl
  | cons line rest => rfl

/-- A list either satisfies `p` throughout or splits at its first element failing `p`. -/
theorem split_at_first_failure {α : Type} (p : α → Prop) (xs : List α) :
    (∀ x ∈ xs, p x) ∨ ∃ pre x rest, xs = pre ++ x :: rest ∧ (∀ y ∈ pre, p y) ∧ ¬ p x := by
  induction xs with
  | nil => left; simp
  | cons a as ih =>
    by_cases ha : p a
    · rcases ih with h | ⟨pre, x, rest, h1, h2, h3⟩
      · left
        intro x hx
        rcases List.mem_cons.1 hx with rfl | hx
        · exact ha
        · exact h x hx
      · right
        refine ⟨a :: pre, x, rest, by simp [h1], ?_, h3⟩
        intro y hy
        rcases List.mem_cons.1 hy with rfl | hy
        · exact ha
        · exact h2 y hy
    · right
      exact ⟨[], a, as, rfl, by simp, ha⟩

theorem readTerm_accepts (pre : List String) :
    ∀ (d : Deck) (tl : String) (rest : List String),
      (∀ l ∈ pre, termDuplicated d.flashcards (TrimSpace l) = true) →
      termDuplicated d.flashcards (TrimSpace tl) = false →
      addFlashcard.readTerm d (pre ++ tl :: rest) =
        ((TrimSpace tl, none),
          { d with reader := rest, log := d.log ++ termRejections pre ++ [TrimSpace tl],
                   trace := d.trace ++ termRejectionEvents pre ++ [Event.read tl] }) := by
  induction pre with
  | nil =>
    intro d tl rest _ h
    simp [addFlashcard.readTerm, h, termRejections, termRejectionEvents]
  | cons l ls ih =>
    intro d tl rest hpre h
    have hl : termDuplicated d.flashcards (TrimSpace l) = true := hpre l (by simp)
    have hls : ∀ x ∈ ls, termDuplicated d.flashcards (TrimSpace x) = true :=
      fun x hx => hpre x (by simp [hx])
    simp only [List.cons_append, addFlashcard.readTerm, hl, if_true, List.append_eq]
    rw [ih _ tl rest (by simpa [printlnAndLog] using hls) (by simpa [printlnAndLog] using h)]
    simp [printlnAndLog, termRejections, termRejectionEvents]

theorem readTerm_exhausted (lines : List String) :
    ∀ (d : Deck), (∀ l ∈ lines, termDuplicated d.flashcards (TrimSpace l) = true) →
      (addFlashcard.readTerm d lines).1 = ("", some GoError.EOF) ∧
      (addFlashcard.readTerm d lines).2.flashcards = d.flashcards ∧
      (addFlashcard.readTerm d lines).2.numCards = d.numCards := by
  induction lines with
  | nil => intro d _; simp [addFlashcard.readTerm]
  | cons l ls ih =>
    intro d h
    have hl : termDuplicated d.flashcards (TrimSpace l) = true := h l (by simp)
    have hls : ∀ x ∈ ls, termDuplicated d.flashcards (TrimSpace x) = true :=
      fun x hx => h x (by simp [hx])
    simp only [addFlashcard.readTerm, hl, if_true]
    exact ih _ (by simpa [printlnAndLog] using hls)

theorem readDefinition_accepts (pre : List String) :
    ∀ (d : Deck) (dl : String) (rest : List String),
      (∀ l ∈ pre, definitionDuplicated d.flashcards (TrimSpace l) = true) →
      definitionDuplicated d.flashcards (TrimSpace dl) = false →
      addFlashcard.readDefinition d (pre ++ dl :: rest) =
        ((TrimSpace dl, none),
          { d with reader := rest,
                   log := d.log ++ definitionRejections pre ++ [TrimSpace dl],
                   trace := d.trace ++ definitionRejectionEvents pre ++ [Event.read dl] }) := by
  induction pre with
  | nil =>
    intro d dl rest _ h
    simp [addFlashcard.readDefinition, h, definitionRejections, definitionRejectionEvents]
  | cons l ls ih =>
    intro d dl rest hpre h
    have hl : definitionDuplicated d.flashcards (TrimSpace l) = true := hpre l (by simp)
    have hls : ∀ x ∈ ls, definitionDuplicated d.flashcards (TrimSpace x) = true :=
      fun x hx => hpre x (by simp [hx])
    simp only [List.cons_append, addFlashcard.readDefinition, hl, if_true, List.append_eq]
    rw [ih _ dl rest (by simpa [printlnAndLog] using hls) (by simpa [printlnAndLog] using h)]
    simp [printlnAndLog, definitionRejections, definitionRejectionEvents]

theorem readDefinition_exhausted (lines : List String) :
    ∀ (d : Deck), (∀ l ∈ lines, definitionDuplicated d.flashcards (TrimSpace l) = true) →
      (addFlashcard.readDefinition d lines).1 = ("", some GoError.EOF) ∧
      (addFlashcard.readDefinition d lines).2.flashcards = d.flashcards ∧
      (addFlashcard.readDefinition d lines).2.numCards = d.numCards := by
  induction lines with
  | nil => intro d _; simp [addFlashcard.readDefinition]
  | cons l ls ih =>
    intro d h
    have hl : definitionDuplicated d.flashcards (TrimSpace l) = true := h l (by simp)
    have hls : ∀ x ∈ ls, definitionDuplicated d.flashcards (TrimSpace x) = true :=
      fun x hx => h x (by simp [hx])
    simp only [addFlashcard.readDefinition, hl, if_true]
    exact ih _ (by simpa [printlnAndLog] using hls)

theorem addFlashcard_success (d : Deck) (pre : List String) (tl : String) (mid : List String)
    (dl : String) (rest : List String) (h : AddInput d pre tl mid dl rest) :
    addFlashcard d =
      ((1, none),
        { flashcards := d.flashcards ++ [⟨TrimSpace tl, TrimSpace dl, 0⟩],
          numCards := d.numCards + 1,
          log := d.log ++ ["The card:"] ++ termRejections pre ++
            [TrimSpace tl, "The definition of the card:"] ++ definitionRejections mid ++
            [TrimSpace dl,
              "The pair (\"" ++ TrimSpace tl ++ "\":\"" ++ TrimSpace dl ++ "\") has been added."],
          reader := rest,
          pending := d.pending,
          trace := d.trace ++ [Event.printed "The card:"] ++ termRejectionEvents pre ++
            [Event.read tl, Event.printed "The definition of the card:"] ++
            definitionRejectionEvents mid ++
            [Event.read dl,
              Event.printed
                ("The pair (\"" ++ TrimSpace tl ++ "\":\"" ++ TrimSpace dl ++
                  "\") has been added.")] }) := by
  obtain ⟨hr, hpre, htl, hmid, hdl⟩ := h
  have h1 : ∀ l ∈ pre, termDuplicated (printlnAndLog d "The card:").flashcards (TrimSpace l)
      = true := fun l hl => (termDuplicated_iff _ _).2 (hpre l hl)
  have h2 : termDuplicated (printlnAndLog d "The card:").flashcards (TrimSpace tl) = false := by
    cases hc : termDuplicated (printlnAndLog d "The card:").flashcards (TrimSpace tl) with
    | false => rfl
    | true =>
      obtain ⟨c, hc1, hc2⟩ := (termDuplicated_iff _ _).1 hc
      exact absurd hc2 (htl c hc1)
  have h3 : ∀ l ∈ mid, definitionDuplicated d.flashcards (TrimSpace l) = true :=
    fun l hl => (definitionDuplicated_iff _ _).2 (hmid l hl)
  have h4 : definitionDuplicated d.flashcards (TrimSpace dl) = false := by
    cases hc : definitionDuplicated d.flashcards (TrimSpace dl) with
    | false => rfl
    | true =>
      obtain ⟨c, hc1, hc2⟩ := (definitionDuplicated_iff _ _).1 hc
      exact absurd hc2 (hdl c hc1)
  unfold addFlashcard
  have e0 : (printlnAndLog d "The card:").reader = pre ++ tl :: (mid ++ dl :: rest) := hr
  simp only [e0]
  rw [readTerm_accepts pre _ tl _ h1 h2]
  simp only [printlnAndLog]
  rw [readDefinition_accepts mid _ dl rest (by simpa using h3) (by simpa using h4)]
  simp

theorem addFlashcard_failure (d : Deck)
    (h : ¬ ∃ pre tl mid dl rest, AddInput d pre tl mid dl rest) :
    (addFlashcard d).1 = (0, some GoError.EOF) ∧
    (addFlashcard d).2.flashcards = d.flashcards ∧
    (addFlashcard d).2.numCards = d.numCards := by
  rcases split_at_first_failure (fun l => ∃ c ∈ d.flashcards, c.Term = TrimSpace l) d.reader
    with hall | ⟨pre, tl, rest1, hr, hpre, htl⟩
  · have hx := readTerm_exhausted d.reader (printlnAndLog d "The card:")
      (fun l hl => (termDuplicated_iff _ _).2 (hall l hl))
    unfold addFlashcard
    have e0 : (printlnAndLog d "The card:").reader = d.reader := rfl
    simp only [e0]
    rcases hres : addFlashcard.readTerm (printlnAndLog d "The card:") d.reader
      with ⟨⟨t, e⟩, d1⟩
    rw [hres] at hx
    obtain ⟨hx1, hx2, hx3⟩ := hx
    simp only [Prod.mk.injEq] at hx1
    obtain ⟨_, rfl⟩ := hx1
    simpa [printlnAndLog] using And.intro hx2 hx3
  · have htl2 : termDuplicated (printlnAndLog d "The card:").flashcards (TrimSpace tl)
        = false := by
      cases hc : termDuplicated (printlnAndLog d "The card:").flashcards (TrimSpace tl) with
      | false => rfl
      | true => exact absurd ((termDuplicated_iff _ _).1 hc) htl
    have hacc := readTerm_accepts pre (printlnAndLog d "The card:") tl rest1
      (fun l hl => (termDuplicated_iff _ _).2 (hpre l hl)) htl2
    rcases split_at_first_failure (fun l => ∃ c ∈ d.flashcards, c.Definition = TrimSpace l)
      rest1 with hall | ⟨mid, dl, rest, hr2, hmid, hdl⟩
    · unfold addFlashcard
      have e0 : (printlnAndLog d "The card:").reader = pre ++ tl :: rest1 := hr
      simp only [e0]
      rw [hacc]
      simp only [printlnAndLog]
      have hx := readDefinition_exhausted rest1
        { flashcards := d.flashcards, numCards := d.numCards,
          log := d.log ++ ["The card:"] ++ termRejections pre ++ [TrimSpace tl] ++
            ["The definition of the card:"],
          reader := rest1, pending := d.pending,
          trace := d.trace ++ [Event.printed "The card:"] ++ termRejectionEvents pre ++
            [Event.read tl] ++ [Event.printed "The definition of the card:"] }
        (fun l hl => (definitionDuplicated_iff _ _).2 (hall l hl))
      rcases hres : addFlashcard.readDefinition
        { flashcards := d.flashcards, numCards := d.numCards,
          log := d.log ++ ["The card:"] ++ termRejections pre ++ [TrimSpace tl] ++
            ["The definition of the card:"],
          reader := rest1, pending := d.pending,
          trace := d.trace ++ [Event.printed "The card:"] ++ termRejectionEvents pre ++
            [Event.read tl] ++ [Event.printed "The definition of the card:"] } rest1 with ⟨⟨t, e⟩, d3⟩
      rw [hres] at hx
      obtain ⟨hx1, hx2, hx3⟩ := hx
      simp only [Prod.mk.injEq] at hx1
      obtain ⟨_, rfl⟩ := hx1
      simpa using And.intro hx2 hx3
    · exfalso
      apply h
      refine ⟨pre, tl, mid, dl, rest, ?_, hpre, ?_, hmid, ?_⟩
      · rw [hr, hr2]
      · intro c hc hct
        exact htl ⟨c, hc, hct⟩
      · intro c hc hcd
        exact hdl ⟨c, hc, hcd⟩

/-- The cards after `addFlashcard`: the old cards, or the old cards and one fresh card. -/
theorem addFlashcard_cards (d : Deck) :
    ((addFlashcard d).2.flashcards = d.flashcards ∧
        (addFlashcard d).2.numCards = d.numCards) ∨
      ∃ term definition,
        (addFlashcard d).2.flashcards = d.flashcards ++ [⟨term, definition, 0⟩] ∧
        (addFlashcard d).2.numCards = d.numCards + 1 ∧
        ∀ c ∈ d.flashcards, c.Term ≠ term ∧ c.Definition ≠ definition := by
  by_cases h : ∃ pre tl mid dl rest, AddInput d pre tl mid dl rest
  · obtain ⟨pre, tl, mid, dl, rest, h⟩ := h
    right
    refine ⟨TrimSpace tl, TrimSpace dl, ?_, ?_, ?_⟩
    · rw [addFlashcard_success d pre tl mid dl rest h]
    · rw [addFlashcard_success d pre tl mid dl rest h]
    · intro c hc
      exact ⟨h.2.2.1 c hc, h.2.2.2.2 c hc⟩
  · left
    exact (addFlashcard_failure d h).2

/-- C1: `addFlashcard` inserts only a fresh pair.  When the input offers, after lines that
are terms of existing cards, a line that is no existing term, and later, after lines that are
definitions of existing cards, a line that is no existing definition, the call returns
`(1, nil)`, appends exactly the card (that term, that definition, 0 mistakes) at the end,
raises `numCards` by 1, and the transcript shows every rejected line followed by its
re-prompt.  When the input offers no such pair the call fails with the read error and the
cards and `numCards` are unchanged.  In every case the cards afterwards are the old cards, or
the old cards followed by one card whose term and definition equal those of no old card. -/
theorem addFlashcard_inserts_only_fresh_pair (d : Deck) :
    (∀ pre tl mid dl rest, AddInput d pre tl mid dl rest →
      addFlashcard d =
        ((1, none),
          { flashcards := d.flashcards ++ [⟨TrimSpace tl, TrimSpace dl, 0⟩],
            numCards := d.numCards + 1,
            log := d.log ++ ["The card:"] ++ termRejections pre ++
              [TrimSpace tl, "The definition of the card:"] ++ definitionRejections mid ++
              [TrimSpace dl,
                "The pair (\"" ++ TrimSpace tl ++ "\":\"" ++ TrimSpace dl ++
                  "\") has been added."],
            reader := rest,
            pending := d.pending,
            trace := d.trace ++ [Event.printed "The card:"] ++ termRejectionEvents pre ++
              [Event.read tl, Event.printed "The definition of the card:"] ++
              definitionRejectionEvents mid ++
              [Event.read dl,
                Event.printed
                  ("The pair (\"" ++ TrimSpace tl ++ "\":\"" ++ TrimSpace dl ++
                    "\") has been added.")] })) ∧
    ((¬ ∃ pre tl mid dl rest, AddInput d pre tl mid dl rest) →
      (addFlashcard d).1 = (0, some GoError.EOF) ∧
      (addFlashcard d).2.flashcards = d.flashcards ∧
      (addFlashcard d).2.numCards = d.numCards) ∧
    (((addFlashcard d).2.flashcards = d.flashcards ∧
        (addFlashcard d).2.numCards = d.numCards) ∨
      ∃ term definition,
        (addFlashcard d).2.flashcards = d.flashcards ++ [⟨term, definition, 0⟩] ∧
        (addFlashcard d).2.numCards = d.numCards + 1 ∧
        ∀ c ∈ d.flashcards, c.Term ≠ term ∧ c.Definition ≠ definition) := by
  exact ⟨fun pre tl mid dl rest h => addFlashcard_success d pre tl mid dl rest h,
    addFlashcard_failure d, addFlashcard_cards d⟩

/-- C1, the scenario of the specification: into the empty deck `sky`, `blue` is added; a
second call reading `sky`, `sea`, `blue`, `green` rejects `sky` and `blue` and leaves the
two cards `(sky, blue, 0)`, `(sea, green, 0)`. -/
theorem addFlashcard_scenario :
    (addFlashcard (NewDeck ["sky", "blue"] "")).2.flashcards = [⟨"sky", "blue", 0⟩] ∧
    (addFlashcard (NewDeck ["sky", "blue"] "")).2.numCards = 1 ∧
    addFlashcard ⟨[⟨"sky", "blue", 0⟩], 1, [], ["sky", "sea", "blue", "green"], "", []⟩ =
      ((1, none),
        ⟨[⟨"sky", "blue", 0⟩, ⟨"sea", "green", 0⟩], 2,
          ["The card:", "sky", "The card \"sky\" already exists. Try again:", "sea",
            "The definition of the card:", "blue",
            "The definition \"blue\" already exists. Try again:", "green",
            "The pair (\"sea\":\"green\") has been added."], [], "",
          [Event.printed "The card:", Event.read "sky",
            Event.printed "The card \"sky\" already exists. Try again:", Event.read "sea",
            Event.printed "The definition of the card:", Event.read "blue",
            Event.printed "The definition \"blue\" already exists. Try again:",
            Event.read "green", Event.printed "The pair (\"sea\":\"green\") has been added."]⟩) :=
  ⟨by decide, by decide,
    (addFlashcard_inserts_only_fresh_pair
      ⟨[⟨"sky", "blue", 0⟩], 1, [], ["sky", "sea", "blue", "green"], "", []⟩).1
      ["sky"] "sea" ["blue"] "green" []
      ⟨rfl, by decide, by decide, by decide, by decide⟩⟩

/-! ### removeFlashcard -/

theorem find_none (card : String) (cards : List Flashcard) :
    ∀ i, (∀ c ∈ cards, c.Term ≠ card) → removeFlashcard.find card cards i = none := by
  induction cards with
  | nil => intro i _; rfl
  | cons f rest ih =>
    intro i h
    have hf : ¬ card = f.Term := fun e => h f (by simp) e.symm
    simp only [removeFlashcard.find, hf, if_false]
    exact ih (i + 1) (fun c hc => h c (by simp [hc]))

theorem find_first (card : String) (cards : List Flashcard) :
    ∀ i, (∃ c ∈ cards, c.Term = card) →
      ∃ pre c post, cards = pre ++ c :: post ∧ c.Term = card ∧
        (∀ x ∈ pre, x.Term ≠ card) ∧
        removeFlashcard.find card cards i = some (i + pre.length) := by
  induction cards with
  | nil => intro i h; simp at h
  | cons f rest ih =>
    intro i h
    by_cases hf : card = f.Term
    · exact ⟨[], f, rest, rfl, hf.symm, by simp, by simp [removeFlashcard.find, hf]⟩
    · have h2 : ∃ c ∈ rest, c.Term = card := by
        obtain ⟨c, hc, hct⟩ := h
        rcases List.mem_cons.1 hc with rfl | hc
        · exact absurd hct.symm hf
        · exact ⟨c, hc, hct⟩
      obtain ⟨pre, c, post, h1, h3, h4, h5⟩ := ih (i + 1) h2
      refine ⟨f :: pre, c, post, by simp [h1], h3, ?_, ?_⟩
      · intro x hx
        rcases List.mem_cons.1 hx with rfl | hx
        · exact fun e => hf e.symm
        · exact h4 x hx
      · simp only [removeFlashcard.find, hf, if_false, h5, List.length_cons]
        congr 1
        omega

/-- C2: when the term read (the input line, trimmed) is the term of some card,
`removeFlashcard` returns `(true, nil)` and deletes the first card carrying that term: the
cards before it and the cards after it stay, in order; `len(flashcards)` and `numCards` both
drop by exactly 1. -/
theorem removeFlashcard_deletes_first_match (d : Deck) (line : String) (rest : List String)
    (hr : d.reader = line :: rest) (h : ∃ c ∈ d.flashcards, c.Term = TrimSpace line) :
    ∃ pre c post, d.flashcards = pre ++ c :: post ∧ c.Term = TrimSpace line ∧
      (∀ x ∈ pre, x.Term ≠ TrimSpace line) ∧
      removeFlashcard d =
        ((true, none),
          { flashcards := pre ++ post,
            numCards := d.numCards - 1,
            log := d.log ++ ["Which card?", TrimSpace line, "The card has been removed."],
            reader := rest,
            pending := d.pending,
            trace := d.trace ++ [Event.printed "Which card?", Event.read line,
              Event.printed "The card has been removed."] }) ∧
      (pre ++ post).length + 1 = d.flashcards.length := by
  obtain ⟨pre, c, post, h1, h2, h3, h4⟩ := find_first (TrimSpace line) d.flashcards 0 h
  refine ⟨pre, c, post, h1, h2, h3, ?_, by simp [h1]; omega⟩
  unfold removeFlashcard
  simp only [ReadInputLineAndLog, printlnAndLog, hr, h4]
  simp [h1]

/-- C2 at a concrete deck: of two cards with the term `a` the first is deleted. -/
theorem removeFlashcard_deletes_first_match_witness :
    (∃ pre c post,
      [(⟨"a", "x", 0⟩ : Flashcard), ⟨"b", "y", 1⟩, ⟨"a", "z", 2⟩] = pre ++ c :: post ∧
      c.Term = TrimSpace " a " ∧ (∀ x ∈ pre, x.Term ≠ TrimSpace " a ") ∧
      removeFlashcard ⟨[⟨"a", "x", 0⟩, ⟨"b", "y", 1⟩, ⟨"a", "z", 2⟩], 3, [], [" a "], "", []⟩ =
        ((true, none),
          { flashcards := pre ++ post,
            numCards := 3 - 1,
            log := [] ++ ["Which card?", TrimSpace " a ", "The card has been removed."],
            reader := [],
            pending := "",
            trace := [] ++ [Event.printed "Which card?", Event.read " a ",
              Event.printed "The card has been removed."] }) ∧
      (pre ++ post).length + 1 = 3) ∧
    removeFlashcard ⟨[⟨"a", "x", 0⟩, ⟨"b", "y", 1⟩, ⟨"a", "z", 2⟩], 3, [], [" a "], "", []⟩ =
      ((true, none),
        ⟨[⟨"b", "y", 1⟩, ⟨"a", "z", 2⟩], 2,
          ["Which card?", "a", "The card has been removed."], [], "",
          [Event.printed "Which card?", Event.read " a ",
            Event.printed "The card has been removed."]⟩) :=
  ⟨removeFlashcard_deletes_first_match
    ⟨[⟨"a", "x", 0⟩, ⟨"b", "y", 1⟩, ⟨"a", "z", 2⟩], 3, [], [" a "], "", []⟩ " a " [] rfl
    ⟨⟨"a", "x", 0⟩, by decide, by decide⟩, by decide⟩

/-- C3: when the term read (the input line, trimmed) is the term of no card,
`removeFlashcard` returns `(false, nil)`; the cards and `numCards` are exactly as before, only
the transcript grows. -/
theorem removeFlashcard_absent_term (d : Deck) (line : String) (rest : List String)
    (hr : d.reader = line :: rest) (h : ∀ c ∈ d.flashcards, c.Term ≠ TrimSpace line) :
    removeFlashcard d =
      ((false, none),
        { flashcards := d.flashcards,
          numCards := d.numCards,
          log := d.log ++ ["Which card?", TrimSpace line,
            "Can\x27t remove \"" ++ TrimSpace line ++ "\": there is no such card."],
          reader := rest,
          pending := d.pending,
          trace := d.trace ++ [Event.printed "Which card?", Event.read line,
            Event.printed
              ("Can\x27t remove \"" ++ TrimSpace line ++ "\": there is no such card.")] }) := by
  unfold removeFlashcard
  simp only [ReadInputLineAndLog, printlnAndLog, hr, find_none (TrimSpace line) d.flashcards 0 h]
  simp

/-- C3 at a concrete deck: removing `c` from the cards `a`, `b` changes no card. -/
theorem removeFlashcard_absent_term_witness :
    removeFlashcard ⟨[⟨"a", "x", 0⟩, ⟨"b", "y", 1⟩], 2, [], ["c", "more"], "", []⟩ =
      ((false, none),
        ⟨[⟨"a", "x", 0⟩, ⟨"b", "y", 1⟩], 2,
          ["Which card?", "c", "Can\x27t remove \"c\": there is no such card."], ["more"], "",
          [Event.printed "Which card?", Event.read "c",
            Event.printed "Can\x27t remove \"c\": there is no such card."]⟩) :=
  removeFlashcard_absent_term ⟨[⟨"a", "x", 0⟩, ⟨"b", "y", 1⟩], 2, [], ["c", "more"], "", []⟩ "c"
    ["more"] rfl (by decide)

/-! ### importFromFile -/

theorem overwriteAt_length (cs : List Flashcard) (idx : Nat) (df : String) :
    (overwriteAt cs idx df).length = cs.length := by
  unfold overwriteAt
  cases cs[idx]? <;> simp

theorem overwriteAt_get_self (cs : List Flashcard) (idx : Nat) (df : String) (c : Flashcard)
    (h : cs[idx]? = some c) :
    (overwriteAt cs idx df)[idx]? = some { c with Definition := df } := by
  have hlt : idx < cs.length := by
    obtain ⟨hlt, _⟩ := List.getElem?_eq_some.1 h
    exact hlt
  unfold overwriteAt
  simp only [h]
  exact List.getElem?_set_self hlt

theorem overwriteAt_get_other (cs : List Flashcard) (idx i : Nat) (df : String)
    (h : idx ≠ i) : (overwriteAt cs idx df)[i]? = cs[i]? := by
  unfold overwriteAt
  cases hc : cs[idx]? with
  | none => rfl
  | some c => exact List.getElem?_set_ne h

theorem overwriteDefinitions_length (m : TermIndex) (rs : List Flashcard) :
    ∀ cs, (overwriteDefinitions m rs cs).length = cs.length := by
  induction rs with
  | nil => intro cs; rfl
  | cons r rs ih =>
    intro cs
    unfold overwriteDefinitions
    cases m r.Term with
    | none => exact ih cs
    | some idx => simp only []; rw [ih, overwriteAt_length]

theorem overwriteDefinitions_append (m : TermIndex) (pre : List Flashcard) :
    ∀ post cs, overwriteDefinitions m (pre ++ post) cs =
      overwriteDefinitions m post (overwriteDefinitions m pre cs) := by
  induction pre with
  | nil => intro post cs; rfl
  | cons r rs ih =>
    intro post cs
    simp only [List.cons_append, overwriteDefinitions]
    cases m r.Term with
    | none => exact ih post cs
    | some idx => exact ih post _

theorem overwriteDefinitions_get (m : TermIndex) (rs : List Flashcard) :
    ∀ cs i c, cs[i]? = some c →
      ∃ c1, (overwriteDefinitions m rs cs)[i]? = some c1 ∧ c1.Term = c.Term ∧
        c1.Mistakes = c.Mistakes ∧
        (c1.Definition = c.Definition ∨
          ∃ r ∈ rs, m r.Term = some i ∧ c1.Definition = r.Definition) := by
  induction rs with
  | nil => intro cs i c h; exact ⟨c, h, rfl, rfl, Or.inl rfl⟩
  | cons r rs ih =>
    intro cs i c h
    unfold overwriteDefinitions
    cases hm : m r.Term with
    | none =>
      obtain ⟨c1, h1, h2, h3, h4⟩ := ih cs i c h
      refine ⟨c1, h1, h2, h3, ?_⟩
      rcases h4 with h4 | ⟨r1, hr1, h5, h6⟩
      · exact Or.inl h4
      · exact Or.inr ⟨r1, by simp [hr1], h5, h6⟩
    | some idx =>
      simp only []
      by_cases hi : idx = i
      · subst hi
        obtain ⟨c1, h1, h2, h3, h4⟩ :=
          ih _ idx _ (overwriteAt_get_self cs idx r.Definition c h)
        refine ⟨c1, h1, h2, h3, Or.inr ?_⟩
        rcases h4 with h4 | ⟨r1, hr1, h5, h6⟩
        · exact ⟨r, by simp, hm, h4⟩
        · exact ⟨r1, by simp [hr1], h5, h6⟩
      · obtain ⟨c1, h1, h2, h3, h4⟩ :=
          ih (overwriteAt cs idx r.Definition) i c
            (by rw [overwriteAt_get_other cs idx i r.Definition hi]; exact h)
        refine ⟨c1, h1, h2, h3, ?_⟩
        rcases h4 with h4 | ⟨r1, hr1, h5, h6⟩
        · exact Or.inl h4
        · exact Or.inr ⟨r1, by simp [hr1], h5, h6⟩

theorem overwriteDefinitions_get_unchanged (m : TermIndex) (rs : List Flashcard) (i : Nat)
    (hrs : ∀ r ∈ rs, m r.Term ≠ some i) :
    ∀ cs, (overwriteDefinitions m rs cs)[i]? = cs[i]? := by
  induction rs with
  | nil => intro cs; rfl
  | cons r rs ih =>
    intro cs
    have hr : m r.Term ≠ some i := hrs r (by simp)
    have ih2 := ih (fun x hx => hrs x (by simp [hx]))
    unfold overwriteDefinitions
    cases hm : m r.Term with
    | none => exact ih2 cs
    | some idx =>
      simp only []
      have hi : idx ≠ i := fun e => hr (by rw [hm, e])
      rw [ih2, overwriteAt_get_other cs idx i r.Definition hi]

theorem overwriteDefinitions_get_last (m : TermIndex) (pre post : List Flashcard)
    (r : Flashcard) (i : Nat) (hr : m r.Term = some i) (hpost : ∀ x ∈ post, m x.Term ≠ some i)
    (cs : List Flashcard) (c : Flashcard) (h : cs[i]? = some c) :
    (overwriteDefinitions m (pre ++ r :: post) cs)[i]? =
      some { c with Definition := r.Definition } := by
  obtain ⟨c1, h1, h2, h3, _⟩ := overwriteDefinitions_get m pre cs i c h
  rw [overwriteDefinitions_append]
  simp only [overwriteDefinitions, hr]
  rw [overwriteDefinitions_get_unchanged m post i hpost,
    overwriteAt_get_self _ i r.Definition c1 h1]
  cases c1
  cases c
  simp_all

theorem merge_eq (m : TermIndex) (rs : List Flashcard) :
    ∀ (cs app : List Flashcard) (nc : Int) (lg rd : List String) (pd : String)
      (out : List Event),
      (∀ k idx, m k = some idx → idx < cs.length) →
      importFromFile.merge m rs ⟨cs ++ app, nc, lg, rd, pd, out⟩ =
        some ⟨overwriteDefinitions m rs cs ++ (app ++ rs.filter (fun r => (m r.Term).isNone)),
          nc + ((rs.filter (fun r => (m r.Term).isNone)).length : Int), lg, rd, pd, out⟩ := by
  induction rs with
  | nil => intro cs app nc lg rd pd out _; simp [importFromFile.merge, overwriteDefinitions]
  | cons r rs ih =>
    intro cs app nc lg rd pd out hm
    unfold importFromFile.merge
    cases hr : m r.Term with
    | none =>
      simp only []
      have e : cs ++ app ++ [r] = cs ++ (app ++ [r]) := by simp
      rw [e, ih cs (app ++ [r]) (nc + 1) lg rd pd out hm]
      simp [overwriteDefinitions, hr]
      omega
    | some idx =>
      have hlt : idx < cs.length := hm _ _ hr
      have hget : (cs ++ app)[idx]? = some cs[idx] := by
        rw [List.getElem?_append_left hlt, List.getElem?_eq_getElem hlt]
      simp only [hget]
      rw [List.set_append_left idx _ hlt]
      rw [ih _ app nc lg rd pd out (by simpa using hm)]
      simp [overwriteDefinitions, hr, overwriteAt, List.getElem?_eq_getElem hlt]

/-- A list either has no element with `p` or splits at its last element with `p`. -/
theorem split_at_last {α : Type} (p : α → Prop) (xs : List α) :
    (∀ x ∈ xs, ¬ p x) ∨ ∃ pre x post, xs = pre ++ x :: post ∧ p x ∧ ∀ y ∈ post, ¬ p y := by
  induction xs with
  | nil => left; simp
  | cons a as ih =>
    rcases ih with h | ⟨pre, x, post, h1, h2, h3⟩
    · by_cases ha : p a
      · right
        exact ⟨[], a, as, rfl, ha, h⟩
      · left
        intro x hx
        rcases List.mem_cons.1 hx with rfl | hx
        · exact ha
        · exact h x hx
    · right
      exact ⟨a :: pre, x, post, by simp [h1], h2, h3⟩

theorem split_at_index {α : Type} (xs : List α) :
    ∀ (i : Nat) (c : α), xs[i]? = some c → ∃ pre post, xs = pre ++ c :: post ∧ pre.length = i := by
  induction xs with
  | nil => intro i c h; simp at h
  | cons a as ih =>
    intro i c h
    cases i with
    | zero =>
      simp at h
      exact ⟨[], as, by simp [h], rfl⟩
    | succ n =>
      simp at h
      obtain ⟨pre, post, h1, h2⟩ := ih n c h
      exact ⟨a :: pre, post, by simp [h1], by simp [h2]⟩

theorem get_at_split {α : Type} (pre post : List α) (c : α) :
    (pre ++ c :: post)[pre.length]? = some c := by
  rw [List.getElem?_append_right (Nat.le_refl _)]
  simp

theorem get_after_split {α : Type} (pre post : List α) (c : α) (n : Nat) :
    (pre ++ c :: post)[pre.length + 1 + n]? = post[n]? := by
  rw [List.getElem?_append_right (by omega)]
  have e : pre.length + 1 + n - pre.length = n + 1 := by omega
  rw [e]
  simp

theorem index_absent (k : String) (cards : List Flashcard) :
    ∀ (i : Nat) (m : TermIndex), (∀ c ∈ cards, c.Term ≠ k) →
      importFromFile.index cards i m k = m k := by
  induction cards with
  | nil => intro i m _; rfl
  | cons f rest ih =>
    intro i m h
    unfold importFromFile.index
    rw [ih (i + 1) _ (fun c hc => h c (by simp [hc]))]
    have hf : ¬ k = f.Term := fun e => h f (by simp) e.symm
    simp [hf]

theorem index_last (k : String) (pre : List Flashcard) :
    ∀ (c : Flashcard) (post : List Flashcard) (i : Nat) (m : TermIndex), c.Term = k →
      (∀ x ∈ post, x.Term ≠ k) →
      importFromFile.index (pre ++ c :: post) i m k = some (i + pre.length) := by
  induction pre with
  | nil =>
    intro c post i m hc hpost
    simp only [List.nil_append, importFromFile.index]
    rw [index_absent k post (i + 1) _ hpost]
    simp [hc]
  | cons f rest ih =>
    intro c post i m hc hpost
    simp only [List.cons_append, importFromFile.index, List.append_eq]
    rw [ih c post (i + 1) _ hc hpost]
    simp only [List.length_cons]
    congr 1
    omega

/-- The map built by `importFromFile` holds, for a term, the position of the last card that
carries it. -/
theorem index_some (cards : List Flashcard) (k : String) (idx : Nat)
    (h : importFromFile.index cards 0 (fun _ => none) k = some idx) :
    ∃ pre c post, cards = pre ++ c :: post ∧ c.Term = k ∧ (∀ x ∈ post, x.Term ≠ k) ∧
      idx = pre.length := by
  rcases split_at_last (fun c : Flashcard => c.Term = k) cards with hno | ⟨pre, c, post, h1, h2, h3⟩
  · rw [index_absent k cards 0 _ hno] at h
    simp at h
  · refine ⟨pre, c, post, h1, h2, h3, ?_⟩
    rw [h1, index_last k pre c post 0 _ h2 h3] at h
    simp at h
    omega

theorem index_none_iff (cards : List Flashcard) (k : String) :
    importFromFile.index cards 0 (fun _ => none) k = none ↔ ∀ c ∈ cards, c.Term ≠ k := by
  constructor
  · intro h
    rcases split_at_last (fun c : Flashcard => c.Term = k) cards with hno | ⟨pre, c, post, h1, h2, h3⟩
    · exact hno
    · rw [h1, index_last k pre c post 0 _ h2 h3] at h
      simp at h
  · intro h
    rw [index_absent k cards 0 _ h]

theorem index_lt (cards : List Flashcard) (k : String) (idx : Nat)
    (h : importFromFile.index cards 0 (fun _ => none) k = some idx) : idx < cards.length := by
  obtain ⟨pre, c, post, h1, _, _, h4⟩ := index_some cards k idx h
  rw [h1, h4]
  simp

/-- The deck after `importFromFile` reads the records `rs`. -/
theorem importFromFile_records (d : Deck) (rs : List Flashcard) :
    importFromFile d (FileContent.records rs) =
      some (none,
        { flashcards :=
            overwriteDefinitions (importFromFile.index d.flashcards 0 (fun _ => none)) rs
                d.flashcards ++
              rs.filter
                (fun r => (importFromFile.index d.flashcards 0 (fun _ => none) r.Term).isNone),
          numCards := d.numCards +
            ((rs.filter (fun r =>
              (importFromFile.index d.flashcards 0 (fun _ => none) r.Term).isNone)).length : Int),
          log := d.log ++ [toString rs.length ++ " cards have been loaded"],
          reader := d.reader,
          pending := d.pending,
          trace := d.trace ++
            [Event.printed (toString rs.length ++ " cards have been loaded")] }) := by
  have hm := merge_eq (importFromFile.index d.flashcards 0 (fun _ => none)) rs d.flashcards []
    d.numCards d.log d.reader d.pending d.trace (fun k idx h => index_lt d.flashcards k idx h)
  have hd : (⟨d.flashcards ++ [], d.numCards, d.log, d.reader, d.pending, d.trace⟩ : Deck) =
      d := by
    cases d
    simp
  rw [hd] at hm
  unfold importFromFile
  simp only [hm, printlnAndLog]
  simp

/-- C4, as amended: `importFromFile` leaves every card that was in the deck at its position,
with its term and its mistake count.  Its definition changes only if some incoming record has
the same term, and then it is the definition of such a record.  The map points at the last
card of each term: a card followed by no card of the same term takes the definition of the
last incoming record with its term, and a card followed by a card of the same term keeps its
definition. -/
theorem importFromFile_keeps_existing_cards (d : Deck) (rs : List Flashcard) :
    ∃ d1 : Deck, importFromFile d (FileContent.records rs) = some (none, d1) ∧
      ∀ (i : Nat) (c : Flashcard), d.flashcards[i]? = some c →
        ∃ c1 : Flashcard, d1.flashcards[i]? = some c1 ∧ c1.Term = c.Term ∧
          c1.Mistakes = c.Mistakes ∧
          (c1.Definition ≠ c.Definition →
            ∃ r ∈ rs, r.Term = c.Term ∧ c1.Definition = r.Definition) ∧
          ((∀ (j : Nat) (c2 : Flashcard), i < j → d.flashcards[j]? = some c2 →
              c2.Term ≠ c.Term) →
            ∀ (pre : List Flashcard) (r : Flashcard) (post : List Flashcard),
              rs = pre ++ r :: post → r.Term = c.Term →
              (∀ x ∈ post, x.Term ≠ c.Term) → c1.Definition = r.Definition) ∧
          ((∃ (j : Nat) (c2 : Flashcard), i < j ∧ d.flashcards[j]? = some c2 ∧
              c2.Term = c.Term) →
            c1.Definition = c.Definition) := by
  refine ⟨_, importFromFile_records d rs, ?_⟩
  intro i c hc
  have hlt : i < d.flashcards.length := (List.getElem?_eq_some.1 hc).1
  -- the position of `c` in the deck
  obtain ⟨before, after, hsplit, hlen⟩ := split_at_index d.flashcards i c hc
  -- what the map says about position `i`
  have hkey : ∀ k, importFromFile.index d.flashcards 0 (fun _ => none) k = some i →
      c.Term = k ∧ ∀ x ∈ after, x.Term ≠ k := by
    intro k hk
    obtain ⟨pre, c0, post, h1, h2, h3, h4⟩ := index_some d.flashcards k i hk
    have e := hsplit.symm.trans h1
    have hl : before.length = pre.length := by rw [hlen, h4]
    obtain ⟨e1, e2⟩ := List.append_inj e hl
    simp only [List.cons.injEq] at e2
    obtain ⟨e3, e4⟩ := e2
    subst e3 e4
    exact ⟨h2, h3⟩
  obtain ⟨c1, h1, h2, h3, h4⟩ :=
    overwriteDefinitions_get (importFromFile.index d.flashcards 0 (fun _ => none)) rs
      d.flashcards i c hc
  have hget : ∀ x, (overwriteDefinitions (importFromFile.index d.flashcards 0 (fun _ => none))
      rs d.flashcards)[i]? = some x →
      (overwriteDefinitions (importFromFile.index d.flashcards 0 (fun _ => none)) rs
          d.flashcards ++
        rs.filter
          (fun r => (importFromFile.index d.flashcards 0 (fun _ => none) r.Term).isNone))[i]?
        = some x := by
    intro x hx
    rw [List.getElem?_append_left (by rw [overwriteDefinitions_length]; exact hlt)]
    exact hx
  refine ⟨c1, hget c1 h1, h2, h3, ?_, ?_, ?_⟩
  · intro hne
    rcases h4 with h4 | ⟨r, hr, h5, h6⟩
    · exact absurd h4 hne
    · exact ⟨r, hr, (hkey r.Term h5).1.symm, h6⟩
  · intro hlast pre r post hrs hr hpost
    have hafter : ∀ x ∈ after, x.Term ≠ c.Term := by
      intro x hx
      obtain ⟨n, hn⟩ := List.mem_iff_getElem?.1 hx
      have h5 : d.flashcards[i + 1 + n]? = some x := by
        rw [hsplit, ← hlen, get_after_split]
        exact hn
      exact hlast (i + 1 + n) x (by omega) h5
    have hmap : importFromFile.index d.flashcards 0 (fun _ => none) c.Term = some i := by
      rw [hsplit, index_last c.Term before c after 0 _ rfl hafter, hlen]
      simp
    have h5 := overwriteDefinitions_get_last
      (importFromFile.index d.flashcards 0 (fun _ => none)) pre post r i
      (by rw [hr]; exact hmap)
      (fun x hx hx2 => hpost x hx (hkey x.Term hx2).1.symm) d.flashcards c hc
    rw [← hrs, h1] at h5
    simp only [Option.some.injEq] at h5
    rw [h5]
  · rintro ⟨j, c2, hj, hc2, hterm⟩
    have hno : ∀ r ∈ rs, importFromFile.index d.flashcards 0 (fun _ => none) r.Term ≠ some i := by
      intro r _ hr
      obtain ⟨e1, e2⟩ := hkey r.Term hr
      have h5 : after[j - (i + 1)]? = some c2 := by
        have e : j = before.length + 1 + (j - (i + 1)) := by omega
        rw [hsplit, e, get_after_split] at hc2
        exact hc2
      have h6 : c2 ∈ after := List.mem_iff_getElem?.2 ⟨_, h5⟩
      exact e2 c2 h6 (hterm.trans e1)
    have h5 := overwriteDefinitions_get_unchanged
      (importFromFile.index d.flashcards 0 (fun _ => none)) rs i hno d.flashcards
    rw [h1, hc] at h5
    simp only [Option.some.injEq] at h5
    rw [h5]

/-- C4 as amended, at a concrete deck: importing a record for the term `a` with mistake
count 7 changes the definition of the card `a` and neither its count 2 nor the card `b`. -/
theorem importFromFile_keeps_existing_cards_witness :
    importFromFile ⟨[⟨"a", "x", 2⟩, ⟨"b", "y", 1⟩], 2, [], [], "", []⟩
        (FileContent.records [⟨"a", "new", 7⟩]) =
      some (none, ⟨[⟨"a", "new", 2⟩, ⟨"b", "y", 1⟩], 2, ["1 cards have been loaded"], [], "",
        [Event.printed "1 cards have been loaded"]⟩) := by
  decide

/-- C4 as stated fails on a deck with a repeated term.  Importing two records with the new
term `a` into the empty deck gives two cards `a`; a further import of a record `a` with the
definition `z` then finds an incoming record with the term of the first card, and the first
card keeps its definition `x`: only the second card takes `z`. -/
theorem importFromFile_repeated_term_counterexample :
    importFromFile (NewDeck [] "") (FileContent.records [⟨"a", "x", 0⟩, ⟨"a", "y", 0⟩]) =
      some (none, ⟨[⟨"a", "x", 0⟩, ⟨"a", "y", 0⟩], 2, ["2 cards have been loaded"], [], "",
        [Event.printed "2 cards have been loaded"]⟩) ∧
    importFromFile ⟨[⟨"a", "x", 0⟩, ⟨"a", "y", 0⟩], 2, ["2 cards have been loaded"], [], "",
          [Event.printed "2 cards have been loaded"]⟩
        (FileContent.records [⟨"a", "z", 7⟩]) =
      some (none,
        ⟨[⟨"a", "x", 0⟩, ⟨"a", "z", 0⟩], 2,
          ["2 cards have been loaded", "1 cards have been loaded"], [], "",
          [Event.printed "2 cards have been loaded", Event.printed "1 cards have been loaded"]⟩) ∧
    ¬ (∀ (d1 : Deck), importFromFile ⟨[⟨"a", "x", 0⟩, ⟨"a", "y", 0⟩], 2,
          ["2 cards have been loaded"], [], "", [Event.printed "2 cards have been loaded"]⟩
          (FileContent.records [⟨"a", "z", 7⟩]) =
          some (none, d1) →
        ∀ (i : Nat) (c c1 : Flashcard),
          ([⟨"a", "x", 0⟩, ⟨"a", "y", 0⟩] : List Flashcard)[i]? = some c →
          d1.flashcards[i]? = some c1 →
          ∀ r ∈ ([⟨"a", "z", 7⟩] : List Flashcard), r.Term = c.Term →
            c1.Definition = r.Definition) := by
  refine ⟨by decide, by decide, ?_⟩
  intro h
  have h1 := h ⟨[⟨"a", "x", 0⟩, ⟨"a", "z", 0⟩], 2,
    ["2 cards have been loaded", "1 cards have been loaded"], [], "",
    [Event.printed "2 cards have been loaded", Event.printed "1 cards have been loaded"]⟩
    (by decide) 0
    ⟨"a", "x", 0⟩ ⟨"a", "x", 0⟩ (by decide) (by decide) ⟨"a", "z", 7⟩ (by decide) (by decide)
  exact absurd h1 (by decide)

/-- C5: after `importFromFile` the cards behind the pre-existing ones are exactly the incoming
records whose term is the term of no card of the deck, in file order and verbatim, and
`numCards` has grown by their number. -/
theorem importFromFile_appends_new_records (d : Deck) (rs : List Flashcard) :
    ∃ d1 : Deck, importFromFile d (FileContent.records rs) = some (none, d1) ∧
      d1.flashcards.length = d.flashcards.length +
        (rs.filter (fun r => decide (∀ c ∈ d.flashcards, c.Term ≠ r.Term))).length ∧
      d1.flashcards.drop d.flashcards.length =
        rs.filter (fun r => decide (∀ c ∈ d.flashcards, c.Term ≠ r.Term)) ∧
      d1.numCards = d.numCards +
        ((rs.filter (fun r => decide (∀ c ∈ d.flashcards, c.Term ≠ r.Term))).length : Int) := by
  have hf : (fun r : Flashcard =>
      (importFromFile.index d.flashcards 0 (fun _ => none) r.Term).isNone) =
      (fun r => decide (∀ c ∈ d.flashcards, c.Term ≠ r.Term)) := by
    funext r
    cases h : importFromFile.index d.flashcards 0 (fun _ => none) r.Term with
    | none =>
      have := (index_none_iff d.flashcards r.Term).1 h
      simp only [Option.isNone_none]
      exact (decide_eq_true this).symm
    | some idx =>
      have hne : ¬ ∀ c ∈ d.flashcards, c.Term ≠ r.Term := by
        intro hall
        rw [(index_none_iff d.flashcards r.Term).2 hall] at h
        simp at h
      simp only [Option.isNone_some]
      exact (decide_eq_false hne).symm
  refine ⟨_, importFromFile_records d rs, ?_, ?_, ?_⟩
  · simp only [List.length_append, overwriteDefinitions_length]
    rw [hf]
  · simp only []
    rw [List.drop_left' (overwriteDefinitions_length _ rs d.flashcards), hf]
  · simp only []
    rw [hf]

/-- C5 at a concrete deck: two records share the new term `c`; both are appended, in file
order, each with its own mistake count, and `numCards` grows by 2. -/
theorem importFromFile_appends_new_records_witness :
    importFromFile ⟨[⟨"a", "x", 2⟩], 1, [], [], "", []⟩
        (FileContent.records [⟨"c", "q", 5⟩, ⟨"a", "new", 7⟩, ⟨"c", "r", 6⟩]) =
      some (none,
        ⟨[⟨"a", "new", 2⟩, ⟨"c", "q", 5⟩, ⟨"c", "r", 6⟩], 3, ["3 cards have been loaded"], [],
          "", [Event.printed "3 cards have been loaded"]⟩) := by
  decide

/-! ### Export and import through the JSON codec -/

theorem coerceFrom_valid (s : GoString) :
    ∀ k, utf8.validFrom k s = true → json.coerceFrom k s = s := by
  induction s with
  | nil => intro k _; cases k <;> rfl
  | cons b rest ih =>
    intro k h
    cases k with
    | succ k =>
      simp only [utf8.validFrom] at h
      simp only [json.coerceFrom, ih k h]
    | zero =>
      simp only [utf8.validFrom] at h
      simp only [json.coerceFrom]
      cases hl : utf8.runeLen (b :: rest) with
      | none => rw [hl] at h; simp at h
      | some n =>
        rw [hl] at h
        simp only [] at h ⊢
        rw [ih _ h]

/-- The codec gives back a string of valid UTF-8 as it is. -/
theorem stringValue_valid (s : GoString) (h : utf8.ValidString s = true) :
    json.stringValue s = s :=
  coerceFrom_valid s 0 h

theorem char_range (c : Char) : c.toNat < 0xD800 ∨ (0xDFFF < c.toNat ∧ c.toNat < 0x110000) := by
  have h := c.valid
  unfold UInt32.isValidChar Nat.isValidChar at h
  exact h

theorem validFrom_appendRune (r : Nat) (hr : r < 0xD800 ∨ (0xDFFF < r ∧ r < 0x110000))
    (rest : GoString) :
    utf8.validFrom 0 (utf8.AppendRune r ++ rest) = utf8.validFrom 0 rest := by
  unfold utf8.AppendRune
  by_cases h1 : r < 0x80
  · have a0 : (Fin.ofNat r : Byte) < 0x80 := by
      simp [Fin.lt_def, Fin.ofNat]
      omega
    simp [h1, utf8.validFrom, utf8.runeLen, a0]
  · by_cases h2 : r < 0x800
    · have a0 : ¬ (Fin.ofNat (0xC0 + r / 64) : Byte) < 0x80 := by
        simp [Fin.lt_def, Fin.ofNat]
        omega
      have a1 : (0xC2 : Byte) ≤ Fin.ofNat (0xC0 + r / 64) ∧
          (Fin.ofNat (0xC0 + r / 64) : Byte) ≤ 0xDF := by
        simp [Fin.le_def, Fin.ofNat]
        omega
      have a2 : (0x80 : Byte) ≤ Fin.ofNat (0x80 + r % 64) ∧
          (Fin.ofNat (0x80 + r % 64) : Byte) ≤ 0xBF := by
        simp [Fin.le_def, Fin.ofNat]
        omega
      simp [h1, h2, utf8.validFrom, utf8.runeLen, a0, a1, a2]
    · by_cases h3 : r < 0x10000
      · have a0 : ¬ (Fin.ofNat (0xE0 + r / 4096) : Byte) < 0x80 := by
          simp [Fin.lt_def, Fin.ofNat]
          omega
        have a1 : ¬ ((0xC2 : Byte) ≤ Fin.ofNat (0xE0 + r / 4096) ∧
            (Fin.ofNat (0xE0 + r / 4096) : Byte) ≤ 0xDF) := by
          simp [Fin.le_def, Fin.ofNat]
          omega
        have a2 : (0xE0 : Byte) ≤ Fin.ofNat (0xE0 + r / 4096) ∧
            (Fin.ofNat (0xE0 + r / 4096) : Byte) ≤ 0xEF := by
          simp [Fin.le_def, Fin.ofNat]
          omega
        have a3 : (if (Fin.ofNat (0xE0 + r / 4096) : Byte) = 0xE0 then (0xA0 : Byte) else 0x80) ≤
              Fin.ofNat (0x80 + r / 64 % 64) ∧
            (Fin.ofNat (0x80 + r / 64 % 64) : Byte) ≤
              (if (Fin.ofNat (0xE0 + r / 4096) : Byte) = 0xED then (0x9F : Byte) else 0xBF) ∧
            (0x80 : Byte) ≤ Fin.ofNat (0x80 + r % 64) ∧
            (Fin.ofNat (0x80 + r % 64) : Byte) ≤ 0xBF := by
          split_ifs with e1 e2 e2 <;>
            simp [Fin.le_def, Fin.ofNat, Fin.ext_iff] at * <;> omega
        simp [h1, h2, h3, utf8.validFrom, utf8.runeLen, a0, a1, a2, a3]
      · have a0 : ¬ (Fin.ofNat (0xF0 + r / 262144) : Byte) < 0x80 := by
          simp [Fin.lt_def, Fin.ofNat]
          omega
        have a1 : ¬ ((0xC2 : Byte) ≤ Fin.ofNat (0xF0 + r / 262144) ∧
            (Fin.ofNat (0xF0 + r / 262144) : Byte) ≤ 0xDF) := by
          simp [Fin.le_def, Fin.ofNat]
          omega
        have a2 : ¬ ((0xE0 : Byte) ≤ Fin.ofNat (0xF0 + r / 262144) ∧
            (Fin.ofNat (0xF0 + r / 262144) : Byte) ≤ 0xEF) := by
          simp [Fin.le_def, Fin.ofNat]
          omega
        have a3 : (0xF0 : Byte) ≤ Fin.ofNat (0xF0 + r / 262144) ∧
            (Fin.ofNat (0xF0 + r / 262144) : Byte) ≤ 0xF4 := by
          simp [Fin.le_def, Fin.ofNat]
          omega
        have a4 : (if (Fin.ofNat (0xF0 + r / 262144) : Byte) = 0xF0 then (0x90 : Byte) else 0x80) ≤
              Fin.ofNat (0x80 + r / 4096 % 64) ∧
            (Fin.ofNat (0x80 + r / 4096 % 64) : Byte) ≤
              (if (Fin.ofNat (0xF0 + r / 262144) : Byte) = 0xF4 then (0x8F : Byte) else 0xBF) ∧
            (0x80 : Byte) ≤ Fin.ofNat (0x80 + r / 64 % 64) ∧
            (Fin.ofNat (0x80 + r / 64 % 64) : Byte) ≤ 0xBF ∧
            (0x80 : Byte) ≤ Fin.ofNat (0x80 + r % 64) ∧
            (Fin.ofNat (0x80 + r % 64) : Byte) ≤ 0xBF := by
          split_ifs with e1 e2 e2 <;>
            simp [Fin.le_def, Fin.ofNat, Fin.ext_iff] at * <;> omega
        simp [h1, h2, h3, utf8.validFrom, utf8.runeLen, a0, a1, a2, a3, a4]

/-- The bytes of a text are valid UTF-8. -/
theorem bytes_valid (s : String) : utf8.ValidString (bytes s) = true := by
  unfold utf8.ValidString bytes
  induction s.data with
  | nil => rfl
  | cons c cs ih =>
    rw [List.flatMap_cons, validFrom_appendRune c.toNat (char_range c)]
    exact ih

/-- On the strings of the main development, which are texts, the codec is the identity:
there the record list that `exportToFile` serialises is read back as it is. -/
theorem stringValue_text (s : String) : json.stringValue (bytes s) = bytes s :=
  stringValue_valid (bytes s) (bytes_valid s)

theorem appendRune_inj (r r2 : Nat) (hr : r < 0x110000) (hr2 : r2 < 0x110000)
    (x y : GoString) (h : utf8.AppendRune r ++ x = utf8.AppendRune r2 ++ y) :
    r = r2 ∧ x = y := by
  unfold utf8.AppendRune at h
  split_ifs at h <;>
    simp [Fin.ext_iff, Fin.ofNat] at h <;>
    first
    | omega
    | exact ⟨by omega, h.2⟩
    | exact ⟨by omega, h.2.2⟩
    | exact ⟨by omega, h.2.2.2⟩
    | exact ⟨by omega, h.2.2.2.2⟩

theorem appendRune_ne_nil (r : Nat) (x : GoString) : utf8.AppendRune r ++ x ≠ [] := by
  intro h
  have := congrArg List.length h
  unfold utf8.AppendRune at this
  split_ifs at this <;> simp at this

theorem char_lt (c : Char) : c.toNat < 0x110000 := by
  rcases char_range c with h | h <;> omega

theorem bytes_inj_data (s : List Char) :
    ∀ t : List Char, s.flatMap (fun c => utf8.AppendRune c.toNat) =
      t.flatMap (fun c => utf8.AppendRune c.toNat) → s = t := by
  induction s with
  | nil =>
    intro t h
    cases t with
    | nil => rfl
    | cons c cs =>
      simp only [List.flatMap_nil, List.flatMap_cons] at h
      exact absurd h.symm (appendRune_ne_nil _ _)
  | cons a as ih =>
    intro t h
    cases t with
    | nil =>
      simp only [List.flatMap_nil, List.flatMap_cons] at h
      exact absurd h (appendRune_ne_nil _ _)
    | cons c cs =>
      simp only [List.flatMap_cons] at h
      obtain ⟨h1, h2⟩ := appendRune_inj _ _ (char_lt a) (char_lt c) _ _ h
      have hac : a = c := Char.ext (UInt32.ext h1)
      rw [hac, ih cs h2]

/-- Different texts are stored as different bytes. -/
theorem bytes_inj (s t : String) (h : bytes s = bytes t) : s = t := by
  have := bytes_inj_data s.data t.data h
  cases s
  cases t
  simp_all

theorem raw_index_sim (cards : List Flashcard) :
    ∀ (i : Nat) (m : TermIndex) (m2 : Raw.TermIndex), (∀ k, m2 (bytes k) = m k) →
      ∀ k, Raw.importFromFile.index (cards.map Raw.ofFlashcard) i m2 (bytes k) =
        importFromFile.index cards i m k := by
  induction cards with
  | nil => intro i m m2 h k; exact h k
  | cons f rest ih =>
    intro i m m2 h k
    simp only [List.map_cons, Raw.importFromFile.index, importFromFile.index]
    apply ih
    intro k2
    by_cases hk : k2 = f.Term
    · simp [hk, Raw.ofFlashcard]
    · have hb : ¬ bytes k2 = bytes f.Term := fun e => hk (bytes_inj _ _ e)
      simp [hk, hb, Raw.ofFlashcard, h k2]

theorem raw_merge_sim (m : TermIndex) (m2 : Raw.TermIndex) (h : ∀ k, m2 (bytes k) = m k)
    (rs : List Flashcard) :
    ∀ d : Deck, Raw.importFromFile.merge m2 (rs.map Raw.ofFlashcard) (Raw.ofDeck d) =
      (importFromFile.merge m rs d).map Raw.ofDeck := by
  induction rs with
  | nil => intro d; rfl
  | cons r rs ih =>
    intro d
    have hm : m2 (Raw.ofFlashcard r).Term = m r.Term := h r.Term
    simp only [List.map_cons, Raw.importFromFile.merge, importFromFile.merge, hm]
    cases m r.Term with
    | none =>
      simp only []
      rw [← ih]
      simp [Raw.ofDeck]
    | some idx =>
      simp only []
      have hget : (Raw.ofDeck d).flashcards[idx]? = (d.flashcards[idx]?).map Raw.ofFlashcard := by
        simp [Raw.ofDeck]
      rw [hget]
      cases d.flashcards[idx]? with
      | none => rfl
      | some c =>
        simp only [Option.map_some']
        rw [← ih]
        simp [Raw.ofDeck, Raw.ofFlashcard, List.map_set]

/-- The byte-string embedding of `importFromFile` agrees with the main one on texts. -/
theorem raw_import_sim (d : Deck) (file : FileContent) :
    Raw.importFromFile (Raw.ofDeck d) (Raw.ofFile file) =
      (importFromFile d file).map (fun p => (p.1, Raw.ofDeck p.2)) := by
  cases file with
  | missing => simp [Raw.importFromFile, importFromFile, Raw.ofFile, Raw.ofDeck,
      Raw.printlnAndLog, printlnAndLog, Raw.ofEvent]
  | malformed err => simp [Raw.importFromFile, importFromFile, Raw.ofFile]
  | records rs =>
    have hidx : ∀ k, Raw.importFromFile.index (Raw.ofDeck d).flashcards 0 (fun _ => none)
        (bytes k) = importFromFile.index d.flashcards 0 (fun _ => none) k :=
      raw_index_sim d.flashcards 0 (fun _ => none) (fun _ => none) (fun _ => rfl)
    simp only [Raw.importFromFile, importFromFile, Raw.ofFile]
    rw [raw_merge_sim _ _ hidx rs d]
    cases importFromFile.merge (importFromFile.index d.flashcards 0 (fun _ => none)) rs d with
    | none => rfl
    | some d1 =>
      simp [Raw.ofDeck, Raw.printlnAndLog, printlnAndLog, Raw.ofEvent]

/-- The byte-string embedding of `exportToFile` agrees with the main one on texts: texts
pass through the codec as they are. -/
theorem raw_export_sim (d : Deck) (w : Option GoError) :
    Raw.exportToFile (Raw.ofDeck d) w =
      (((exportToFile d w).1.1, Raw.ofDeck (exportToFile d w).1.2),
        (exportToFile d w).2.map (fun rs => rs.map Raw.ofFlashcard)) := by
  cases w with
  | some err => rfl
  | none =>
    have hm : (d.flashcards.map Raw.ofFlashcard).map Raw.Marshal =
        d.flashcards.map Raw.ofFlashcard := by
      rw [List.map_map]
      apply List.map_congr_left
      intro c _
      simp [Raw.Marshal, Raw.ofFlashcard, stringValue_text]
    simp [Raw.exportToFile, exportToFile, Raw.ofDeck, Raw.printlnAndLog, printlnAndLog,
      Raw.ofEvent, hm]

theorem raw_merge_fresh (rs : List Raw.Flashcard) :
    ∀ d : Raw.Deck, Raw.importFromFile.merge (fun _ => none) rs d =
      some { d with flashcards := d.flashcards ++ rs,
                    numCards := d.numCards + (rs.length : Int) } := by
  induction rs with
  | nil => intro d; simp [Raw.importFromFile.merge]
  | cons r rs ih =>
    intro d
    simp only [Raw.importFromFile.merge]
    rw [ih]
    simp only [List.append_assoc, List.singleton_append, List.length_cons, Nat.cast_add,
      Nat.cast_one, Option.some.injEq, Raw.Deck.mk.injEq, true_and, and_true]
    omega

theorem raw_import_fresh (stdin : List GoString) (pending : GoString)
    (rs : List Raw.Flashcard) :
    Raw.importFromFile (Raw.NewDeck stdin pending) (Raw.FileContent.records rs) =
      some (none,
        { flashcards := rs, numCards := (rs.length : Int),
          log := [bytes (toString rs.length ++ " cards have been loaded")],
          reader := stdin, pending := pending,
          trace := [Raw.Event.printed (bytes (toString rs.length ++ " cards have been loaded"))] })
      := by
  simp [Raw.importFromFile, Raw.NewDeck, Raw.importFromFile.index, raw_merge_fresh,
    Raw.printlnAndLog]

theorem marshal_valid (cards : List Raw.Flashcard)
    (h : ∀ c ∈ cards, utf8.ValidString c.Term = true ∧ utf8.ValidString c.Definition = true) :
    cards.map Raw.Marshal = cards := by
  induction cards with
  | nil => rfl
  | cons c cs ih =>
    have hc := h c (by simp)
    rw [List.map_cons, ih (fun x hx => h x (by simp [hx]))]
    congr 1
    cases c
    simp only [Raw.Marshal, Raw.Flashcard.mk.injEq, and_true]
    exact ⟨stringValue_valid _ hc.1, stringValue_valid _ hc.2⟩

/-- C6, as amended: export followed by import into a freshly created deck.  For every deck
`D`, `exportToFile` succeeds when the write does, and the file it writes holds, in order, one
record for each card of `D`, with the term and the definition as the JSON codec gives them
back and the mistake count as it is.  Importing that file into a fresh deck gives exactly
these records as its cards, in the same order, and a `numCards` equal to their number.  When
every term and every definition of `D` is valid UTF-8 the cards are those of `D` exactly. -/
theorem export_then_import_round_trip (D : Raw.Deck) (stdin : List GoString)
    (pending : GoString) :
    ∃ (recs : List Raw.Flashcard) (D2 : Raw.Deck),
      (Raw.exportToFile D none).1.1 = none ∧
      (Raw.exportToFile D none).2 = some recs ∧
      recs = D.flashcards.map Raw.Marshal ∧
      Raw.importFromFile (Raw.NewDeck stdin pending) (Raw.FileContent.records recs) =
        some (none, D2) ∧
      D2.flashcards = recs ∧
      D2.flashcards.length = D.flashcards.length ∧
      D2.numCards = (D2.flashcards.length : Int) ∧
      (∀ (i : Nat) (c : Raw.Flashcard), D.flashcards[i]? = some c →
        D2.flashcards[i]? =
          some ⟨json.stringValue c.Term, json.stringValue c.Definition, c.Mistakes⟩) ∧
      ((∀ c ∈ D.flashcards,
          utf8.ValidString c.Term = true ∧ utf8.ValidString c.Definition = true) →
        D2.flashcards = D.flashcards) := by
  refine ⟨D.flashcards.map Raw.Marshal, _, rfl, rfl, rfl,
    raw_import_fresh stdin pending _, rfl, by simp, rfl, ?_, ?_⟩
  · intro i c hc
    simp [hc, Raw.Marshal]
  · intro h
    exact marshal_valid D.flashcards h

/-- C6 as amended, at a concrete deck of valid UTF-8: the cards `café` and `b`, with their
definitions and counts, come back as they are. -/
theorem export_then_import_round_trip_witness :
    Raw.importFromFile (Raw.NewDeck [] [])
        (Raw.FileContent.records
          [⟨[0x63, 0x61, 0x66, 0xC3, 0xA9], [0x78], 3⟩, ⟨[0x62], [0x79], -1⟩]) =
      some (none,
        ⟨[⟨[0x63, 0x61, 0x66, 0xC3, 0xA9], [0x78], 3⟩, ⟨[0x62], [0x79], -1⟩], 2,
          [bytes "2 cards have been loaded"], [], [],
          [Raw.Event.printed (bytes "2 cards have been loaded")]⟩) ∧
    (Raw.exportToFile
        ⟨[⟨[0x63, 0x61, 0x66, 0xC3, 0xA9], [0x78], 3⟩, ⟨[0x62], [0x79], -1⟩], 2, [], [], [],
          []⟩ none).2 =
      some [⟨[0x63, 0x61, 0x66, 0xC3, 0xA9], [0x78], 3⟩, ⟨[0x62], [0x79], -1⟩] ∧
    ∃ (recs : List Raw.Flashcard) (D2 : Raw.Deck),
      (Raw.exportToFile
        ⟨[⟨[0x63, 0x61, 0x66, 0xC3, 0xA9], [0x78], 3⟩, ⟨[0x62], [0x79], -1⟩], 2, [], [], [],
          []⟩ none).2 = some recs ∧
      Raw.importFromFile (Raw.NewDeck [] []) (Raw.FileContent.records recs) = some (none, D2) ∧
      D2.flashcards = [⟨[0x63, 0x61, 0x66, 0xC3, 0xA9], [0x78], 3⟩, ⟨[0x62], [0x79], -1⟩] := by
  refine ⟨by decide, by decide, ?_⟩
  obtain ⟨recs, D2, _, h2, _, h4, _, _, _, _, h9⟩ := export_then_import_round_trip
    ⟨[⟨[0x63, 0x61, 0x66, 0xC3, 0xA9], [0x78], 3⟩, ⟨[0x62], [0x79], -1⟩], 2, [], [], [], []⟩
    [] []
  exact ⟨recs, D2, h2, h4, h9 (by decide)⟩

/-- C6 as stated fails on a deck that holds a string which is not valid UTF-8.  The term
`caf` followed by the byte `E9` (the letter e with acute accent in Latin-1), as typed on a
terminal that does not send UTF-8, is exported with `U+FFFD` in place of that byte, and the
card that comes back has a term of six bytes instead of four. -/
theorem round_trip_invalid_utf8_counterexample :
    utf8.ValidString [0x63, 0x61, 0x66, 0xE9] = false ∧
    Raw.exportToFile ⟨[⟨[0x63, 0x61, 0x66, 0xE9], [0x78], 0⟩], 1, [], [], [], []⟩ none =
      ((none,
          ⟨[⟨[0x63, 0x61, 0x66, 0xE9], [0x78], 0⟩], 1, [bytes "1 cards have been saved.\n"],
            [], [], [Raw.Event.printed (bytes "1 cards have been saved.\n")]⟩),
        some [⟨[0x63, 0x61, 0x66, 0xEF, 0xBF, 0xBD], [0x78], 0⟩]) ∧
    Raw.importFromFile (Raw.NewDeck [] [])
        (Raw.FileContent.records [⟨[0x63, 0x61, 0x66, 0xEF, 0xBF, 0xBD], [0x78], 0⟩]) =
      some (none,
        ⟨[⟨[0x63, 0x61, 0x66, 0xEF, 0xBF, 0xBD], [0x78], 0⟩], 1,
          [bytes "1 cards have been loaded"], [], [],
          [Raw.Event.printed (bytes "1 cards have been loaded")]⟩) ∧
    ([⟨[0x63, 0x61, 0x66, 0xEF, 0xBF, 0xBD], [0x78], 0⟩] : List Raw.Flashcard) ≠
      [⟨[0x63, 0x61, 0x66, 0xE9], [0x78], 0⟩] := by
  refine ⟨by decide, by decide, by decide, by decide⟩

/-! ### checkAnswer and askFlashcardAnswers -/

theorem wrapInt_succ (x : Int) (h1 : minInt ≤ x) (h2 : x + 1 ≤ maxInt) :
    wrapInt (x + 1) = x + 1 := by
  unfold wrapInt
  unfold minInt at h1
  unfold maxInt at h2
  norm_num at h1 h2 ⊢
  omega

theorem scan_bound (definition : String) (cards : List Flashcard) :
    ∀ (i j : Nat), hasDuplicatedDefinition.scan definition cards i = (true, j) →
      i ≤ j ∧ j < i + cards.length := by
  induction cards with
  | nil => intro i j h; simp [hasDuplicatedDefinition.scan] at h
  | cons f rest ih =>
    intro i j h
    unfold hasDuplicatedDefinition.scan at h
    by_cases hf : definition = f.Definition
    · simp only [hf, if_true, Prod.mk.injEq, true_and] at h
      simp only [List.length_cons]
      omega
    · simp only [hf, if_false] at h
      have := ih (i + 1) j h
      simp only [List.length_cons]
      omega

/-- One quiz round on a valid index with a line to read: no panic, no error, and the cards
afterwards are `answered`. -/
theorem checkAnswer_round (d : Deck) (idx : Nat) (card : Flashcard) (a : String)
    (r : List String) (hc : d.flashcards[idx]? = some card) (hr : d.reader = a :: r) :
    ∃ d1 : Deck, checkAnswer d idx = some ((1, none), d1) ∧
      d1.flashcards = answered d.flashcards idx card a ∧ d1.numCards = d.numCards ∧
      d1.reader = r := by
  unfold checkAnswer answered
  simp only [hc, ReadInputLineAndLog, printlnAndLog, hr]
  by_cases hans : TrimSpace a = card.Definition
  · simp only [hans, if_true]
    exact ⟨_, rfl, rfl, rfl, rfl⟩
  · simp only [hans, if_false]
    rcases hdup : hasDuplicatedDefinition
      { flashcards := d.flashcards.set idx
          { Term := card.Term, Definition := card.Definition,
            Mistakes := wrapInt (card.Mistakes + 1) },
        numCards := d.numCards,
        log := d.log ++ ["Print the definition of \"" ++ card.Term ++ "\":"] ++ [TrimSpace a],
        reader := r, pending := d.pending,
        trace := d.trace ++
          [Event.printed ("Print the definition of \"" ++ card.Term ++ "\":")] ++ [Event.read a] }
      (TrimSpace a) with ⟨b, j⟩
    cases b with
    | false => exact ⟨_, rfl, rfl, rfl, rfl⟩
    | true =>
      have hj := (scan_bound _ _ 0 j hdup).2
      simp only [Nat.zero_add] at hj
      simp only [List.getElem?_eq_getElem hj]
      exact ⟨_, rfl, rfl, rfl, rfl⟩

theorem sumMistakes_set (cards : List Flashcard) :
    ∀ (idx : Nat) (c x : Flashcard), cards[idx]? = some c →
      sumMistakes (cards.set idx x) = sumMistakes cards - c.Mistakes + x.Mistakes := by
  induction cards with
  | nil => intro idx c x h; simp at h
  | cons f rest ih =>
    intro idx c x h
    cases idx with
    | zero =>
      simp at h
      subst h
      simp only [List.set_cons_zero, sumMistakes]
      omega
    | succ n =>
      simp at h
      simp only [List.set_cons_succ, sumMistakes, ih n c x h]
      omega

theorem wrongAnswers_congr (cards cards2 : List Flashcard) (rnd : Nat → Nat)
    (h : cards2.map Flashcard.Definition = cards.map Flashcard.Definition)
    (answers : List String) :
    ∀ i, wrongAnswers cards2 rnd i answers = wrongAnswers cards rnd i answers := by
  have hlen : cards2.length = cards.length := by
    have := congrArg List.length h
    simpa using this
  have hget : ∀ n : Nat,
      (cards2[n]?).map Flashcard.Definition = (cards[n]?).map Flashcard.Definition := by
    intro n
    rw [← List.getElem?_map, ← List.getElem?_map, h]
  induction answers with
  | nil => intro i; rfl
  | cons a rest ih =>
    intro i
    unfold wrongAnswers
    rw [ih (i + 1), hlen]
    congr 1
    have := hget (rnd i % cards.length)
    cases h1 : cards2[rnd i % cards.length]? with
    | none =>
      cases h2 : cards[rnd i % cards.length]? with
      | none => rfl
      | some c => rw [h1, h2] at this; simp at this
    | some c2 =>
      cases h2 : cards[rnd i % cards.length]? with
      | none => rw [h1, h2] at this; simp at this
      | some c =>
        rw [h1, h2] at this
        simp only [Option.map_some', Option.some.injEq] at this
        simp only [this]

theorem wrongAnswers_le (cards : List Flashcard) (rnd : Nat → Nat) (answers : List String) :
    ∀ i, wrongAnswers cards rnd i answers ≤ answers.length := by
  induction answers with
  | nil => intro i; simp [wrongAnswers]
  | cons a rest ih =>
    intro i
    unfold wrongAnswers
    have := ih (i + 1)
    simp only [List.length_cons]
    cases cards[rnd i % cards.length]? with
    | none => simp only []; omega
    | some c =>
      simp only []
      split <;> omega

theorem map_set_same {β : Type} (f : Flashcard → β) (cards : List Flashcard) :
    ∀ (idx : Nat) (c x : Flashcard), cards[idx]? = some c → f x = f c →
      (cards.set idx x).map f = cards.map f := by
  induction cards with
  | nil => intro idx c x h; simp at h
  | cons g rest ih =>
    intro idx c x h hx
    cases idx with
    | zero =>
      simp at h
      subst h
      simp [hx]
    | succ n =>
      simp at h
      simp only [List.set_cons_succ, List.map_cons, ih n c x h hx]

theorem answered_terms (cards : List Flashcard) (idx : Nat) (card : Flashcard) (a : String)
    (hc : cards[idx]? = some card) :
    (answered cards idx card a).map Flashcard.Term = cards.map Flashcard.Term := by
  unfold answered
  split
  · rfl
  · exact map_set_same Flashcard.Term cards idx card _ hc rfl

theorem answered_definitions (cards : List Flashcard) (idx : Nat) (card : Flashcard)
    (a : String) (hc : cards[idx]? = some card) :
    (answered cards idx card a).map Flashcard.Definition = cards.map Flashcard.Definition := by
  unfold answered
  split
  · rfl
  · exact map_set_same Flashcard.Definition cards idx card _ hc rfl

theorem answered_length (cards : List Flashcard) (idx : Nat) (card : Flashcard) (a : String) :
    (answered cards idx card a).length = cards.length := by
  unfold answered
  split <;> simp

/-- The rounds of `askFlashcardAnswers` on a deck that counts its cards, with one line to read
for each round and no counter reaching the largest `int`. -/
theorem rounds_spec (rnd : Nat → Nat) (answers : List String) :
    ∀ (i : Nat) (d : Deck) (rest : List String),
      d.numCards = (d.flashcards.length : Int) → d.flashcards ≠ [] →
      d.reader = answers ++ rest →
      (∀ c ∈ d.flashcards, minInt ≤ c.Mistakes ∧
        c.Mistakes + (wrongAnswers d.flashcards rnd i answers : Int) ≤ maxInt) →
      ∃ d1 : Deck, askFlashcardAnswers.rounds rnd i answers.length d = some ((1, none), d1) ∧
        sumMistakes d1.flashcards =
          sumMistakes d.flashcards + (wrongAnswers d.flashcards rnd i answers : Int) ∧
        d1.flashcards.map Flashcard.Term = d.flashcards.map Flashcard.Term ∧
        d1.flashcards.map Flashcard.Definition = d.flashcards.map Flashcard.Definition ∧
        d1.numCards = d.numCards ∧ d1.reader = rest := by
  induction answers with
  | nil =>
    intro i d rest _ _ hr _
    exact ⟨d, rfl, by simp [wrongAnswers], rfl, rfl, rfl, by simpa using hr⟩
  | cons a rest0 ih =>
    intro i d rest hwf hne hr hb
    have hpos : 0 < d.flashcards.length := List.length_pos.2 hne
    have hidx : rnd i % d.flashcards.length < d.flashcards.length := Nat.mod_lt _ hpos
    have hc : d.flashcards[rnd i % d.flashcards.length]? =
        some d.flashcards[rnd i % d.flashcards.length] := List.getElem?_eq_getElem hidx
    generalize hcard : d.flashcards[rnd i % d.flashcards.length] = card at hc
    have hIntn : Intn (rnd i) d.numCards = some (rnd i % d.flashcards.length) := by
      unfold Intn
      rw [hwf]
      have : ¬ ((d.flashcards.length : Int) ≤ 0) := by omega
      simp [this]
    obtain ⟨d1, hd1, hcards1, hnum1, hread1⟩ :=
      checkAnswer_round d _ card a (rest0 ++ rest) hc (by simpa using hr)
    have hterms := answered_terms d.flashcards _ card a hc
    have hdefs := answered_definitions d.flashcards _ card a hc
    have hlen := answered_length d.flashcards (rnd i % d.flashcards.length) card a
    have hw : wrongAnswers d.flashcards rnd i (a :: rest0) =
        (if TrimSpace a = card.Definition then 0 else 1) +
          wrongAnswers d.flashcards rnd (i + 1) rest0 := by
      simp only [wrongAnswers, hc]
    have hwc := wrongAnswers_congr d.flashcards d1.flashcards rnd
      (by rw [hcards1]; exact hdefs) rest0 (i + 1)
    have hcardmem : card ∈ d.flashcards := List.mem_iff_getElem?.2 ⟨_, hc⟩
    -- the deck after the round satisfies the hypotheses again
    have hb1 : ∀ c ∈ d1.flashcards, minInt ≤ c.Mistakes ∧
        c.Mistakes + (wrongAnswers d1.flashcards rnd (i + 1) rest0 : Int) ≤ maxInt := by
      intro c hcm
      rw [hwc]
      rw [hcards1] at hcm
      unfold answered at hcm
      by_cases hans : TrimSpace a = card.Definition
      · simp only [hans, if_true] at hcm
        have := hb c hcm
        rw [hw] at this
        simp only [hans, if_true] at this
        omega
      · simp only [hans, if_false] at hcm
        rcases List.mem_or_eq_of_mem_set hcm with hold | hnew
        · have := hb c hold
          rw [hw] at this
          simp only [hans, if_false] at this
          omega
        · have := hb card hcardmem
          rw [hw] at this
          simp only [hans, if_false] at this
          have hwrap : wrapInt (card.Mistakes + 1) = card.Mistakes + 1 :=
            wrapInt_succ _ this.1 (by omega)
          rw [hnew]
          simp only [hwrap]
          omega
    have hsum1 : sumMistakes d1.flashcards =
        sumMistakes d.flashcards + ((if TrimSpace a = card.Definition then 0 else 1 : Nat) : Int) := by
      rw [hcards1]
      unfold answered
      by_cases hans : TrimSpace a = card.Definition
      · simp [hans]
      · simp only [hans, if_false]
        rw [sumMistakes_set d.flashcards _ card _ hc]
        have := hb card hcardmem
        rw [hw] at this
        simp only [hans, if_false] at this
        have hwrap : wrapInt (card.Mistakes + 1) = card.Mistakes + 1 :=
          wrapInt_succ _ this.1 (by omega)
        simp only [hwrap]
        omega
    have hne1 : d1.flashcards ≠ [] := by
      intro h
      have hl : d1.flashcards.length = d.flashcards.length := by rw [hcards1, hlen]
      rw [h] at hl
      exact hne (List.length_eq_zero.1 hl.symm)
    obtain ⟨d2, hd2, hsum2, hterm2, hdef2, hnum2, hread2⟩ :=
      ih (i + 1) d1 rest (by rw [hnum1, hcards1, hlen, hwf]) hne1 hread1 hb1
    refine ⟨d2, ?_, ?_, ?_, ?_, ?_, hread2⟩
    · simp only [List.length_cons, askFlashcardAnswers.rounds, hIntn, hd1]
      exact hd2
    · rw [hsum2, hsum1, hwc, hw]
      push_cast
      omega
    · rw [hterm2, hcards1, hterms]
    · rw [hdef2, hcards1, hdefs]
    · rw [hnum2, hnum1]

/-- C7, as amended: on a non-empty deck that counts its cards, where every counter is an
`int` that stays at or below the largest `int` when the wrong answers are added, and the input
holds the count `N` and then one answer for each of the `N` rounds, `askFlashcardAnswers`
returns `(1, nil)`; the sum of the counters grows by exactly the number of rounds whose answer
differs from the definition of the card picked, which is at most `N`; no term and no
definition changes. -/
theorem ask_mistakes_grow_by_wrong_answers (rnd : Nat → Nat) (d : Deck) (nline : String)
    (answers rest : List String) (numAsk : Int)
    (hwf : d.numCards = (d.flashcards.length : Int)) (hne : d.flashcards ≠ [])
    (hr : d.reader = nline :: (answers ++ rest))
    (hn : Atoi (TrimSpace nline) = Except.ok numAsk)
    (hlen : answers.length = numAsk.toNat)
    (hb : ∀ c ∈ d.flashcards, minInt ≤ c.Mistakes ∧
      c.Mistakes + (wrongAnswers d.flashcards rnd 0 answers : Int) ≤ maxInt) :
    ∃ d1 : Deck, askFlashcardAnswers rnd d = some ((1, none), d1) ∧
      sumMistakes d1.flashcards - sumMistakes d.flashcards =
        (wrongAnswers d.flashcards rnd 0 answers : Int) ∧
      wrongAnswers d.flashcards rnd 0 answers ≤ answers.length ∧
      d1.flashcards.map Flashcard.Term = d.flashcards.map Flashcard.Term ∧
      d1.flashcards.map Flashcard.Definition = d.flashcards.map Flashcard.Definition := by
  have hnz : ¬ d.numCards = 0 := by
    rw [hwf]
    have := List.length_pos.2 hne
    omega
  obtain ⟨d1, h1, h2, h3, h4, _, _⟩ := rounds_spec rnd answers 0
    { flashcards := d.flashcards, numCards := d.numCards,
      log := d.log ++ ["How many times to ask?"] ++ [TrimSpace nline],
      reader := answers ++ rest, pending := d.pending,
      trace := d.trace ++ [Event.printed "How many times to ask?"] ++ [Event.read nline] }
    rest hwf hne rfl hb
  refine ⟨d1, ?_, ?_, wrongAnswers_le _ _ _ 0, h3, h4⟩
  · unfold askFlashcardAnswers
    simp only [ReadInputLineAndLog, printlnAndLog, hr, hn, hnz, if_false, ← hlen]
    exact h1
  · rw [h2]
    simp

/-- C7 as amended, at a concrete deck: three rounds on the cards `a`, `b` with the answers
`x`, `x`, `no`, of which the second and the third are wrong. -/
theorem ask_mistakes_grow_by_wrong_answers_witness :
    ∃ d1 : Deck,
      askFlashcardAnswers (fun i => i) ⟨[⟨"a", "x", 0⟩, ⟨"b", "y", 4⟩], 2, [], ["3", "x", "x", "no"], "", []⟩
        = some ((1, none), d1) ∧
      sumMistakes d1.flashcards - sumMistakes [⟨"a", "x", 0⟩, ⟨"b", "y", 4⟩] =
        (wrongAnswers [⟨"a", "x", 0⟩, ⟨"b", "y", 4⟩] (fun i => i) 0 ["x", "x", "no"] : Int) ∧
      wrongAnswers [⟨"a", "x", 0⟩, ⟨"b", "y", 4⟩] (fun i => i) 0 ["x", "x", "no"] ≤ 3 ∧
      d1.flashcards.map Flashcard.Term = ["a", "b"] ∧
      d1.flashcards.map Flashcard.Definition = ["x", "y"] :=
  ask_mistakes_grow_by_wrong_answers (fun i => i)
    ⟨[⟨"a", "x", 0⟩, ⟨"b", "y", 4⟩], 2, [], ["3", "x", "x", "no"], "", []⟩ "3" ["x", "x", "no"] [] 3
    rfl (by decide) rfl rfl rfl (by decide)

/-- C7 as stated fails where a counter holds the largest `int`: one round with a wrong answer
returns `(1, nil)`, and the counter wraps to the smallest `int`, so the sum of the counters
falls by `2^64 - 1` instead of growing by 1. -/
theorem ask_mistakes_counterexample :
    askFlashcardAnswers (fun _ => 0) ⟨[⟨"a", "x", 9223372036854775807⟩], 1, [], ["1", "z"], "", []⟩ =
      some ((1, none),
        ⟨[⟨"a", "x", -9223372036854775808⟩], 1,
          ["How many times to ask?", "1", "Print the definition of \"a\":", "z",
            "Wrong. The right answer is \"x\""], [], "",
          [Event.printed "How many times to ask?", Event.read "1",
            Event.printed "Print the definition of \"a\":", Event.read "z",
            Event.printed "Wrong. The right answer is \"x\""]⟩) ∧
    wrongAnswers [⟨"a", "x", 9223372036854775807⟩] (fun _ => 0) 0 ["z"] = 1 ∧
    sumMistakes [⟨"a", "x", -9223372036854775808⟩] -
      sumMistakes [⟨"a", "x", 9223372036854775807⟩] = -18446744073709551615 := by
  refine ⟨by decide, by decide, by decide⟩

/-! ### findHardestCards -/

theorem scan_append (cards : List Flashcard) (fc : Flashcard) :
    findHardestCards.scan (cards ++ [fc]) =
      findHardestCards.step (findHardestCards.scan cards) fc := by
  simp [findHardestCards.scan, List.foldl_append]

/-- The result of the scan of `findHardestCards` on any list of cards. -/
theorem scan_result (cards : List Flashcard) :
    (∀ c ∈ cards, 0 < c.Mistakes → c.Mistakes ≤ (findHardestCards.scan cards).2) ∧
    (((findHardestCards.scan cards).2 = 0 ∧ ∀ c ∈ cards, c.Mistakes ≤ 0) ∨
      (0 < (findHardestCards.scan cards).2 ∧
        ∃ c ∈ cards, c.Mistakes = (findHardestCards.scan cards).2)) ∧
    (findHardestCards.scan cards).1 =
      (cards.filter (fun c => decide (0 < c.Mistakes ∧
        c.Mistakes = (findHardestCards.scan cards).2))).map Flashcard.Term := by
  induction cards using List.reverseRecOn with
  | nil => simp [findHardestCards.scan]
  | append_singleton cards fc ih =>
    obtain ⟨h1, h2, h3⟩ := ih
    rw [scan_append]
    generalize findHardestCards.scan cards = acc at h1 h2 h3
    obtain ⟨hard, mx⟩ := acc
    simp only at h1 h2 h3
    have hmx : 0 ≤ mx := by
      rcases h2 with h2 | h2
      · omega
      · omega
    unfold findHardestCards.step
    by_cases hcond : 0 < fc.Mistakes ∧ mx ≤ fc.Mistakes
    · by_cases hlt : mx < fc.Mistakes
      · rw [if_pos hcond, if_pos hlt]
        dsimp only
        refine ⟨?_, ?_, ?_⟩
        · intro c hc hpos
          rcases List.mem_append.1 hc with hc | hc
          · have := h1 c hc hpos
            omega
          · simp only [List.mem_singleton] at hc
            rw [hc]
        · right
          exact ⟨hcond.1, fc, by simp, rfl⟩
        · have hnone : cards.filter (fun c => decide (0 < c.Mistakes ∧
              c.Mistakes = fc.Mistakes)) = [] := by
            rw [List.filter_eq_nil_iff]
            intro c hc
            simp only [decide_eq_true_eq, not_and]
            intro hpos heq
            have := h1 c hc hpos
            omega
          rw [List.filter_append, hnone]
          simp [List.filter_cons, hcond.1]
      · have heq : fc.Mistakes = mx := by omega
        rw [if_pos hcond, if_neg hlt]
        dsimp only
        refine ⟨?_, ?_, ?_⟩
        · intro c hc hpos
          rcases List.mem_append.1 hc with hc | hc
          · exact h1 c hc hpos
          · simp only [List.mem_singleton] at hc
            rw [hc]
            omega
        · right
          exact ⟨by omega, fc, by simp, heq⟩
        · have hfc : decide (0 < fc.Mistakes ∧ fc.Mistakes = mx) = true :=
            decide_eq_true ⟨hcond.1, heq⟩
          rw [List.filter_append, List.map_append, ← h3]
          simp only [List.filter_cons, List.filter_nil, hfc, if_true, List.map_cons,
            List.map_nil]
    · rw [if_neg hcond]
      dsimp only
      refine ⟨?_, ?_, ?_⟩
      · intro c hc hpos
        rcases List.mem_append.1 hc with hc | hc
        · exact h1 c hc hpos
        · simp only [List.mem_singleton] at hc
          rw [hc] at hpos ⊢
          have : ¬ mx ≤ fc.Mistakes := fun h => hcond ⟨hpos, h⟩
          omega
      · rcases h2 with ⟨h2a, h2b⟩ | ⟨h2a, c, hc, h2b⟩
        · left
          refine ⟨h2a, ?_⟩
          intro c hc
          rcases List.mem_append.1 hc with hc | hc
          · exact h2b c hc
          · simp only [List.mem_singleton] at hc
            rw [hc]
            by_contra hpos
            exact hcond ⟨by omega, by omega⟩
        · right
          exact ⟨h2a, c, by simp [hc], h2b⟩
      · have hfc : decide (0 < fc.Mistakes ∧ fc.Mistakes = mx) = false := by
          apply decide_eq_false
          intro h5
          exact hcond ⟨h5.1, by omega⟩
        rw [List.filter_append, List.map_append, ← h3]
        simp only [List.filter_cons, List.filter_nil, hfc, List.map_nil, List.append_nil]
        simp

/-- C8: the scan of `findHardestCards` ends with `maxMistakes` the greatest mistake count
among the cards with a positive count (0 when there is none) and with `hardestCards` the
terms of exactly the cards whose count is positive and equal to that maximum, in deck
order. -/
theorem findHardestCards_scan_spec (d : Deck) :
    (∀ c ∈ d.flashcards, 0 < c.Mistakes → c.Mistakes ≤ (findHardestCards.scan d.flashcards).2) ∧
    (((findHardestCards.scan d.flashcards).2 = 0 ∧ ∀ c ∈ d.flashcards, c.Mistakes ≤ 0) ∨
      (0 < (findHardestCards.scan d.flashcards).2 ∧
        ∃ c ∈ d.flashcards, c.Mistakes = (findHardestCards.scan d.flashcards).2)) ∧
    (findHardestCards.scan d.flashcards).1 =
      (d.flashcards.filter (fun c => decide (0 < c.Mistakes ∧
        c.Mistakes = (findHardestCards.scan d.flashcards).2))).map Flashcard.Term :=
  scan_result d.flashcards

/-- C8, the example of the specification: mistakes `A:3, B:1, C:3, D:0` give the terms
`A`, `C` and the count 3; a deck without mistakes gives no term and the count 0. -/
theorem findHardestCards_scan_example :
    findHardestCards.scan
        [⟨"A", "a", 3⟩, ⟨"B", "b", 1⟩, ⟨"C", "c", 3⟩, ⟨"D", "d", 0⟩] = (["A", "C"], 3) ∧
    findHardestCards.scan [⟨"A", "a", 0⟩, ⟨"B", "b", 0⟩] = ([], 0) := by
  decide

/-! ### resetStats -/

/-- C9, as amended: `resetStats` is a total function that sets every counter to 0, prints its
confirmation and enters it in the transcript, and changes nothing else.  The card at every
position keeps its term and its definition and has 0 mistakes afterwards; the number of cards,
`numCards` and the input not yet read are unchanged; standard output and the transcript each
gain exactly the confirmation line.  A second application changes no card any more: the deck
after it is the deck after the first with the confirmation line printed and entered once
more. -/
theorem resetStats_zeroes_counters_only (d : Deck) :
    (resetStats d).flashcards.length = d.flashcards.length ∧
    (∀ (i : Nat) (c : Flashcard), d.flashcards[i]? = some c →
      (resetStats d).flashcards[i]? = some ⟨c.Term, c.Definition, 0⟩) ∧
    (∀ c ∈ (resetStats d).flashcards, c.Mistakes = 0) ∧
    (resetStats d).flashcards.map Flashcard.Term = d.flashcards.map Flashcard.Term ∧
    (resetStats d).flashcards.map Flashcard.Definition =
      d.flashcards.map Flashcard.Definition ∧
    (resetStats d).numCards = d.numCards ∧
    (resetStats d).reader = d.reader ∧
    (resetStats d).pending = d.pending ∧
    (resetStats d).log = d.log ++ ["Card statistics have been reset."] ∧
    (resetStats d).trace = d.trace ++ [Event.printed "Card statistics have been reset."] ∧
    resetStats (resetStats d) =
      { resetStats d with
        log := (resetStats d).log ++ ["Card statistics have been reset."],
        trace := (resetStats d).trace ++
          [Event.printed "Card statistics have been reset."] } := by
  refine ⟨?_, ?_, ?_, ?_, ?_, rfl, rfl, rfl, rfl, rfl, ?_⟩
  · simp [resetStats, printlnAndLog]
  · intro i c hc
    simp [resetStats, printlnAndLog, hc]
  · intro c hc
    simp only [resetStats, printlnAndLog, List.mem_map] at hc
    obtain ⟨c0, _, rfl⟩ := hc
    rfl
  · simp [resetStats, printlnAndLog, Function.comp_def]
  · simp [resetStats, printlnAndLog, Function.comp_def]
  · simp [resetStats, printlnAndLog, Function.comp_def]

/-- C9 as amended, at a concrete deck. -/
theorem resetStats_example :
    resetStats ⟨[⟨"a", "x", 3⟩, ⟨"b", "y", -1⟩], 2, ["old"], ["next"], "", []⟩ =
      ⟨[⟨"a", "x", 0⟩, ⟨"b", "y", 0⟩], 2, ["old", "Card statistics have been reset."],
        ["next"], "", [Event.printed "Card statistics have been reset."]⟩ ∧
    resetStats (resetStats ⟨[⟨"a", "x", 3⟩, ⟨"b", "y", -1⟩], 2, ["old"], ["next"], "", []⟩) =
      ⟨[⟨"a", "x", 0⟩, ⟨"b", "y", 0⟩], 2,
        ["old", "Card statistics have been reset.", "Card statistics have been reset."],
        ["next"], "",
        [Event.printed "Card statistics have been reset.",
          Event.printed "Card statistics have been reset."]⟩ ∧
    (∀ c ∈ (resetStats
        ⟨[⟨"a", "x", 3⟩, ⟨"b", "y", -1⟩], 2, ["old"], ["next"], "", []⟩).flashcards,
      c.Mistakes = 0) := by
  refine ⟨by decide, by decide, ?_⟩
  exact (resetStats_zeroes_counters_only
    ⟨[⟨"a", "x", 3⟩, ⟨"b", "y", -1⟩], 2, ["old"], ["next"], "", []⟩).2.2.1

/-- C9 as stated fails on every deck, the freshly created one included: `resetStats` does
change something besides the counters, namely the transcript and standard output, and the
deck after two applications is not the deck after one. -/
theorem resetStats_twice_counterexample :
    (resetStats (NewDeck [] "")).flashcards = (NewDeck [] "").flashcards ∧
    (resetStats (NewDeck [] "")).log ≠ (NewDeck [] "").log ∧
    resetStats (resetStats (NewDeck [] "")) ≠ resetStats (NewDeck [] "") := by
  refine ⟨by decide, by decide, by decide⟩

/-! ### The uniqueness invariant under addFlashcard and removeFlashcard -/

/-- The cards after `removeFlashcard`: the old cards, or the old cards without one of them. -/
theorem removeFlashcard_cards (d : Deck) :
    (removeFlashcard d).2.flashcards = d.flashcards ∨
      ∃ pre c post, d.flashcards = pre ++ c :: post ∧
        (removeFlashcard d).2.flashcards = pre ++ post := by
  cases hr : d.reader with
  | nil =>
    left
    simp [removeFlashcard, ReadInputLineAndLog, printlnAndLog, hr]
  | cons line rest =>
    by_cases h : ∃ c ∈ d.flashcards, c.Term = TrimSpace line
    · right
      obtain ⟨pre, c, post, h1, _, _, h4⟩ := find_first (TrimSpace line) d.flashcards 0 h
      refine ⟨pre, c, post, h1, ?_⟩
      unfold removeFlashcard
      simp only [ReadInputLineAndLog, printlnAndLog, hr, h4]
      simp [h1]
    · left
      have hno : ∀ c ∈ d.flashcards, c.Term ≠ TrimSpace line :=
        fun c hc hct => h ⟨c, hc, hct⟩
      unfold removeFlashcard
      simp only [ReadInputLineAndLog, printlnAndLog, hr,
        find_none (TrimSpace line) d.flashcards 0 hno]

/-- C10: uniqueness is kept by the interactive card store.  When no two cards share a term
and no two share a definition, the same holds of the cards after `addFlashcard`, whatever the
input (it succeeds or fails), and of the cards after `removeFlashcard`, whatever the input
(found, not found or unreadable). -/
theorem unique_cards_preserved (d : Deck) (h : UniqueCards d.flashcards) :
    UniqueCards (addFlashcard d).2.flashcards ∧
    UniqueCards (removeFlashcard d).2.flashcards := by
  obtain ⟨ht, hd⟩ := h
  constructor
  · rcases addFlashcard_cards d with ⟨h1, _⟩ | ⟨term, definition, h1, _, h3⟩
    · rw [h1]
      exact ⟨ht, hd⟩
    · rw [h1]
      unfold UniqueCards
      simp only [List.map_append, List.map_cons, List.map_nil]
      constructor
      · rw [List.nodup_append]
        refine ⟨ht, by simp, ?_⟩
        intro a ha hb
        simp only [List.mem_singleton] at hb
        obtain ⟨c, hc, hct⟩ := List.mem_map.1 ha
        exact (h3 c hc).1 (hct.trans hb)
      · rw [List.nodup_append]
        refine ⟨hd, by simp, ?_⟩
        intro a ha hb
        simp only [List.mem_singleton] at hb
        obtain ⟨c, hc, hct⟩ := List.mem_map.1 ha
        exact (h3 c hc).2 (hct.trans hb)
  · rcases removeFlashcard_cards d with h1 | ⟨pre, c, post, h1, h2⟩
    · rw [h1]
      exact ⟨ht, hd⟩
    · rw [h2]
      rw [h1] at ht hd
      have hsub : List.Sublist (pre ++ post) (pre ++ c :: post) :=
        List.Sublist.append_left (List.sublist_cons_self c post) pre
      exact ⟨ht.sublist (hsub.map _), hd.sublist (hsub.map _)⟩

/-- C10 at a concrete deck with distinct terms and distinct definitions. -/
theorem unique_cards_preserved_witness :
    UniqueCards
      (addFlashcard ⟨[⟨"sky", "blue", 0⟩], 1, [], ["sky", "sea", "blue", "green"], "", []⟩).2.flashcards ∧
    UniqueCards
      (removeFlashcard
        ⟨[⟨"sky", "blue", 0⟩], 1, [], ["sky", "sea", "blue", "green"], "", []⟩).2.flashcards :=
  unique_cards_preserved ⟨[⟨"sky", "blue", 0⟩], 1, [], ["sky", "sea", "blue", "green"], "", []⟩
    ⟨by decide, by decide⟩

/-! ### hasDuplicatedDefinition -/

theorem scan_spec (s : String) (cards : List Flashcard) :
    ∀ k : Nat,
      ((∀ c ∈ cards, c.Definition ≠ s) ∧ hasDuplicatedDefinition.scan s cards k = (false, 0)) ∨
      ∃ pre c post, cards = pre ++ c :: post ∧ c.Definition = s ∧
        (∀ x ∈ pre, x.Definition ≠ s) ∧
        hasDuplicatedDefinition.scan s cards k = (true, k + pre.length) := by
  induction cards with
  | nil => intro k; left; simp [hasDuplicatedDefinition.scan]
  | cons f rest ih =>
    intro k
    by_cases hf : s = f.Definition
    · right
      exact ⟨[], f, rest, rfl, hf.symm, by simp, by simp [hasDuplicatedDefinition.scan, hf]⟩
    · rcases ih (k + 1) with ⟨h1, h2⟩ | ⟨pre, c, post, h1, h2, h3, h4⟩
      · left
        refine ⟨?_, by simp only [hasDuplicatedDefinition.scan, hf, if_false, h2]⟩
        intro c hc
        rcases List.mem_cons.1 hc with rfl | hc
        · exact fun e => hf e.symm
        · exact h1 c hc
      · right
        refine ⟨f :: pre, c, post, by simp [h1], h2, ?_, ?_⟩
        · intro x hx
          rcases List.mem_cons.1 hx with rfl | hx
          · exact fun e => hf e.symm
          · exact h3 x hx
        · simp only [hasDuplicatedDefinition.scan, hf, if_false, h4, List.length_cons]
          congr 1
          omega

theorem get_before_split {α : Type} (pre post : List α) (c : α) (j : Nat)
    (hj : j < pre.length) : (pre ++ c :: post)[j]? = pre[j]? :=
  List.getElem?_append_left hj

/-- The index of the first element with `p`, found by its position, is unique. -/
theorem first_match_index {α : Type} (p : α → Prop) (pre post : List α) (c : α) (i : Nat)
    (x : α) (hc : p c) (hpre : ∀ y ∈ pre, ¬ p y)
    (hx : (pre ++ c :: post)[i]? = some x) (hpx : p x)
    (hfirst : ∀ (j : Nat) (y : α), j < i → (pre ++ c :: post)[j]? = some y → ¬ p y) :
    i = pre.length ∧ x = c := by
  rcases Nat.lt_trichotomy i pre.length with hlt | heq | hgt
  · rw [get_before_split pre post c i hlt] at hx
    exact absurd hpx (hpre x (List.mem_iff_getElem?.2 ⟨i, hx⟩))
  · subst heq
    rw [get_at_split] at hx
    exact ⟨rfl, (Option.some.inj hx).symm⟩
  · exact absurd hc (hfirst pre.length c hgt (get_at_split pre post c))

/-- C18: `hasDuplicatedDefinition(s)` returns `(true, i)` for the smallest index `i` whose
card has the definition `s`, when there is such a card, and `(false, 0)` exactly when no card
has the definition `s`. -/
theorem hasDuplicatedDefinition_first_match (d : Deck) (s : String) :
    (∀ (i : Nat) (c : Flashcard), d.flashcards[i]? = some c → c.Definition = s →
      (∀ (j : Nat) (c2 : Flashcard), j < i → d.flashcards[j]? = some c2 → c2.Definition ≠ s) →
      hasDuplicatedDefinition d s = (true, i)) ∧
    ((∃ c ∈ d.flashcards, c.Definition = s) →
      ∃ (i : Nat) (c : Flashcard), d.flashcards[i]? = some c ∧ c.Definition = s ∧
        (∀ (j : Nat) (c2 : Flashcard), j < i → d.flashcards[j]? = some c2 →
          c2.Definition ≠ s) ∧
        hasDuplicatedDefinition d s = (true, i)) ∧
    (hasDuplicatedDefinition d s = (false, 0) ↔ ∀ c ∈ d.flashcards, c.Definition ≠ s) := by
  unfold hasDuplicatedDefinition
  refine ⟨?_, ?_, ?_⟩
  · intro i c hi hc hfirst
    rcases scan_spec s d.flashcards 0 with ⟨h1, _⟩ | ⟨pre, c0, post, h1, h2, h3, h4⟩
    · exact absurd hc (h1 c (List.mem_iff_getElem?.2 ⟨i, hi⟩))
    · rw [h1] at hi hfirst
      obtain ⟨e, _⟩ := first_match_index (fun x : Flashcard => x.Definition = s) pre post c0 i c
        h2 h3 hi hc hfirst
      rw [h4, e]
      simp
  · rintro ⟨c, hc, hcs⟩
    rcases scan_spec s d.flashcards 0 with ⟨h1, _⟩ | ⟨pre, c0, post, h1, h2, h3, h4⟩
    · exact absurd hcs (h1 c hc)
    · refine ⟨pre.length, c0, by rw [h1]; exact get_at_split pre post c0, h2, ?_, ?_⟩
      · intro j c2 hj hc2
        rw [h1, get_before_split pre post c0 j hj] at hc2
        exact h3 c2 (List.mem_iff_getElem?.2 ⟨j, hc2⟩)
      · rw [h4]
        simp
  · constructor
    · intro h
      rcases scan_spec s d.flashcards 0 with ⟨h1, _⟩ | ⟨pre, c0, post, _, _, _, h4⟩
      · exact h1
      · rw [h4] at h
        simp at h
    · intro h
      rcases scan_spec s d.flashcards 0 with ⟨_, h2⟩ | ⟨pre, c0, post, h1, h2, _, _⟩
      · exact h2
      · exact absurd h2 (h c0 (by rw [h1]; simp))

/-- C18 at a concrete deck with the definition `x` on two cards: the first of them is
reported; a definition on no card gives `(false, 0)`. -/
theorem hasDuplicatedDefinition_example :
    hasDuplicatedDefinition ⟨[⟨"a", "w", 0⟩, ⟨"b", "x", 0⟩, ⟨"c", "x", 0⟩], 3, [], [], "", []⟩ "x" =
      (true, 1) ∧
    hasDuplicatedDefinition ⟨[⟨"a", "w", 0⟩, ⟨"b", "x", 0⟩, ⟨"c", "x", 0⟩], 3, [], [], "", []⟩ "q" =
      (false, 0) := by
  decide

/-! ### checkAnswer: one round in full -/

theorem scan_congr (s : String) (cards : List Flashcard) :
    ∀ (cards2 : List Flashcard) (k : Nat),
      cards2.map Flashcard.Definition = cards.map Flashcard.Definition →
      hasDuplicatedDefinition.scan s cards2 k = hasDuplicatedDefinition.scan s cards k := by
  induction cards with
  | nil =>
    intro cards2 k h
    have : cards2 = [] := by simpa using h
    rw [this]
  | cons f rest ih =>
    intro cards2 k h
    cases cards2 with
    | nil => simp at h
    | cons g rest2 =>
      simp only [List.map_cons, List.cons.injEq] at h
      simp only [hasDuplicatedDefinition.scan, h.1, ih rest2 (k + 1) h.2]

theorem scan_first (s : String) (pre : List Flashcard) :
    ∀ (X : Flashcard) (post : List Flashcard) (k : Nat), X.Definition = s →
      (∀ x ∈ pre, x.Definition ≠ s) →
      hasDuplicatedDefinition.scan s (pre ++ X :: post) k = (true, k + pre.length) := by
  induction pre with
  | nil =>
    intro X post k hX _
    simp [hasDuplicatedDefinition.scan, hX]
  | cons f rest ih =>
    intro X post k hX hpre
    have hf : ¬ s = f.Definition := fun e => hpre f (by simp) e.symm
    simp only [List.cons_append, hasDuplicatedDefinition.scan, hf, if_false, List.append_eq]
    rw [ih X post (k + 1) hX (fun x hx => hpre x (by simp [hx]))]
    simp only [List.length_cons]
    congr 1
    omega

theorem scan_none (s : String) (cards : List Flashcard) :
    ∀ k : Nat, (∀ c ∈ cards, c.Definition ≠ s) →
      hasDuplicatedDefinition.scan s cards k = (false, 0) := by
  induction cards with
  | nil => intro k _; rfl
  | cons f rest ih =>
    intro k h
    have hf : ¬ s = f.Definition := fun e => h f (by simp) e.symm
    simp only [hasDuplicatedDefinition.scan, hf, if_false]
    exact ih (k + 1) (fun c hc => h c (by simp [hc]))

/-- A round answered with the definition of the card asked. -/
theorem checkAnswer_correct (d : Deck) (idx : Nat) (card : Flashcard) (line : String)
    (r : List String) (hc : d.flashcards[idx]? = some card) (hr : d.reader = line :: r)
    (h : TrimSpace line = card.Definition) :
    checkAnswer d idx =
      some ((1, none),
        ⟨d.flashcards, d.numCards,
          d.log ++ ["Print the definition of \"" ++ card.Term ++ "\":", TrimSpace line,
            "Correct!"], r, d.pending,
          d.trace ++ [Event.printed ("Print the definition of \"" ++ card.Term ++ "\":"),
            Event.read line, Event.printed "Correct!"]⟩) := by
  unfold checkAnswer
  simp only [hc, ReadInputLineAndLog, printlnAndLog, hr, h, if_true]
  simp

/-- A round answered wrongly with a string that is the definition of no card. -/
theorem checkAnswer_wrong_no_match (d : Deck) (idx : Nat) (card : Flashcard) (line : String)
    (r : List String) (hc : d.flashcards[idx]? = some card) (hr : d.reader = line :: r)
    (h : TrimSpace line ≠ card.Definition)
    (hno : ∀ c ∈ d.flashcards, c.Definition ≠ TrimSpace line) :
    checkAnswer d idx =
      some ((1, none),
        ⟨d.flashcards.set idx ⟨card.Term, card.Definition, wrapInt (card.Mistakes + 1)⟩,
          d.numCards,
          d.log ++ ["Print the definition of \"" ++ card.Term ++ "\":", TrimSpace line,
            "Wrong. The right answer is \"" ++ card.Definition ++ "\""], r, d.pending,
          d.trace ++ [Event.printed ("Print the definition of \"" ++ card.Term ++ "\":"),
            Event.read line,
            Event.printed ("Wrong. The right answer is \"" ++ card.Definition ++ "\"")]⟩) := by
  have hscan : hasDuplicatedDefinition.scan (TrimSpace line)
      (d.flashcards.set idx ⟨card.Term, card.Definition, wrapInt (card.Mistakes + 1)⟩) 0 =
      (false, 0) := by
    rw [scan_congr (TrimSpace line) d.flashcards _ 0
      (map_set_same Flashcard.Definition d.flashcards idx card
        ⟨card.Term, card.Definition, wrapInt (card.Mistakes + 1)⟩ hc rfl)]
    exact scan_none _ _ 0 hno
  unfold checkAnswer
  simp only [hc, ReadInputLineAndLog, printlnAndLog, hr, h, if_false, hasDuplicatedDefinition,
    hscan]
  simp

/-- A round answered wrongly with a string that is the definition of some card; `X` is the
first such card. -/
theorem checkAnswer_wrong_match (d : Deck) (idx : Nat) (card : Flashcard) (line : String)
    (r : List String) (pre post : List Flashcard) (X : Flashcard)
    (hc : d.flashcards[idx]? = some card) (hr : d.reader = line :: r)
    (h : TrimSpace line ≠ card.Definition)
    (hsplit : d.flashcards = pre ++ X :: post) (hX : X.Definition = TrimSpace line)
    (hpre : ∀ x ∈ pre, x.Definition ≠ TrimSpace line) :
    pre.length ≠ idx ∧
    checkAnswer d idx =
      some ((1, none),
        ⟨d.flashcards.set idx ⟨card.Term, card.Definition, wrapInt (card.Mistakes + 1)⟩,
          d.numCards,
          d.log ++ ["Print the definition of \"" ++ card.Term ++ "\":", TrimSpace line,
            "Wrong. The right answer is \"" ++ card.Definition ++
              "\", but your definition is correct for \"" ++ X.Term ++ "\"."], r, d.pending,
          d.trace ++ [Event.printed ("Print the definition of \"" ++ card.Term ++ "\":"),
            Event.read line,
            Event.printed ("Wrong. The right answer is \"" ++ card.Definition ++
              "\", but your definition is correct for \"" ++ X.Term ++ "\".")]⟩) := by
  have hXat : d.flashcards[pre.length]? = some X := by
    rw [hsplit]
    exact get_at_split pre post X
  have hne : pre.length ≠ idx := by
    intro e
    rw [e, hc] at hXat
    have : card = X := Option.some.inj hXat
    rw [this] at h
    exact h hX.symm
  refine ⟨hne, ?_⟩
  have hscan : hasDuplicatedDefinition.scan (TrimSpace line)
      (d.flashcards.set idx ⟨card.Term, card.Definition, wrapInt (card.Mistakes + 1)⟩) 0 =
      (true, pre.length) := by
    rw [scan_congr (TrimSpace line) d.flashcards _ 0
      (map_set_same Flashcard.Definition d.flashcards idx card
        ⟨card.Term, card.Definition, wrapInt (card.Mistakes + 1)⟩ hc rfl), hsplit,
      scan_first (TrimSpace line) pre X post 0 hX hpre]
    simp
  have hget : (d.flashcards.set idx
      ⟨card.Term, card.Definition, wrapInt (card.Mistakes + 1)⟩)[pre.length]? = some X := by
    rw [List.getElem?_set_ne (fun e => hne e.symm)]
    exact hXat
  unfold checkAnswer
  simp only [hc, ReadInputLineAndLog, printlnAndLog, hr, h, if_false, hasDuplicatedDefinition,
    hscan, hget]
  simp [String.append_assoc]

/-- C15, as amended: one quiz round on a valid index with a line to read returns `(1, nil)`.
An answer equal to the definition of the card leaves the cards unchanged.  Any other answer
replaces the card at `idx` by the same term and definition with the counter after `++`, which
is the counter plus 1 when the counter is an `int` below the largest `int` and the smallest
`int` when it is the largest; the number of cards and every other card are unchanged. -/
theorem checkAnswer_changes_one_counter (d : Deck) (idx : Nat) (card : Flashcard)
    (line : String) (r : List String) (hc : d.flashcards[idx]? = some card)
    (hr : d.reader = line :: r) :
    ∃ d1 : Deck, checkAnswer d idx = some ((1, none), d1) ∧ d1.numCards = d.numCards ∧
      (TrimSpace line = card.Definition → d1.flashcards = d.flashcards) ∧
      (TrimSpace line ≠ card.Definition →
        d1.flashcards.length = d.flashcards.length ∧
        d1.flashcards[idx]? =
          some ⟨card.Term, card.Definition, wrapInt (card.Mistakes + 1)⟩ ∧
        (∀ j : Nat, j ≠ idx → d1.flashcards[j]? = d.flashcards[j]?) ∧
        (minInt ≤ card.Mistakes → card.Mistakes < maxInt →
          wrapInt (card.Mistakes + 1) = card.Mistakes + 1) ∧
        (card.Mistakes = maxInt → wrapInt (card.Mistakes + 1) = minInt)) := by
  obtain ⟨d1, h1, h2, h3, _⟩ := checkAnswer_round d idx card line r hc hr
  have hlt : idx < d.flashcards.length := (List.getElem?_eq_some.1 hc).1
  refine ⟨d1, h1, h3, ?_, ?_⟩
  · intro h
    rw [h2]
    simp [answered, h]
  · intro h
    rw [h2]
    simp only [answered, h, if_false]
    refine ⟨by simp, List.getElem?_set_self hlt, ?_, ?_, ?_⟩
    · intro j hj
      exact List.getElem?_set_ne (fun e => hj e.symm)
    · intro hlo hhi
      exact wrapInt_succ _ hlo (by unfold maxInt at hhi ⊢; omega)
    · intro hmax
      rw [hmax]
      decide

/-- C15 as amended, at a concrete deck: the second card is asked and answered wrongly. -/
theorem checkAnswer_changes_one_counter_witness :
    ∃ d1 : Deck,
      checkAnswer ⟨[⟨"a", "x", 0⟩, ⟨"b", "y", 4⟩], 2, [], ["x"], "", []⟩ 1 = some ((1, none), d1) ∧
      d1.numCards = 2 ∧
      (TrimSpace "x" = "y" → d1.flashcards = [⟨"a", "x", 0⟩, ⟨"b", "y", 4⟩]) ∧
      (TrimSpace "x" ≠ "y" →
        d1.flashcards.length = 2 ∧
        d1.flashcards[1]? = some ⟨"b", "y", wrapInt (4 + 1)⟩ ∧
        (∀ j : Nat, j ≠ 1 →
          d1.flashcards[j]? = ([⟨"a", "x", 0⟩, ⟨"b", "y", 4⟩] : List Flashcard)[j]?) ∧
        (minInt ≤ 4 → 4 < maxInt → wrapInt (4 + 1) = 4 + 1) ∧
        ((4 : Int) = maxInt → wrapInt (4 + 1) = minInt)) :=
  checkAnswer_changes_one_counter ⟨[⟨"a", "x", 0⟩, ⟨"b", "y", 4⟩], 2, [], ["x"], "", []⟩ 1
    ⟨"b", "y", 4⟩ "x" [] rfl rfl

/-- C15 as stated fails where the counter holds the largest `int`: after a wrong answer the
counter is the smallest `int`, not the old counter plus 1. -/
theorem checkAnswer_counter_wraps_counterexample :
    checkAnswer ⟨[⟨"a", "x", 9223372036854775807⟩], 1, [], ["z"], "", []⟩ 0 =
      some ((1, none),
        ⟨[⟨"a", "x", -9223372036854775808⟩], 1,
          ["Print the definition of \"a\":", "z", "Wrong. The right answer is \"x\""], [], "",
          [Event.printed "Print the definition of \"a\":", Event.read "z",
            Event.printed "Wrong. The right answer is \"x\""]⟩) ∧
    (-9223372036854775808 : Int) ≠ 9223372036854775807 + 1 := by
  refine ⟨by decide, by decide⟩

/-- The note is never empty: the report with the note differs from the report without. -/
theorem wrongMessage_note_ne (fd term : String) :
    wrongMessage fd ++ correctForNote term ≠ wrongMessage fd := by
  intro h
  have h1 := congrArg String.length h
  simp only [String.length_append, correctForNote] at h1
  have h3 : ("\"." : String).length = 2 := by decide
  omega

/-- C19: after a wrong answer `a` on a valid index, `checkAnswer` reports the right answer
without a note when no card has the definition `a`; when some card has it, the report ends
with the note naming the first card `X` in deck order whose definition is `a`, and `X` is not
the card asked (its index differs from `idx`).  The two reports differ, so the note appears
exactly when some card has the definition `a`.  Nothing is assumed about repeated
definitions. -/
theorem checkAnswer_note_names_first_match (d : Deck) (idx : Nat) (card : Flashcard)
    (line : String) (r : List String) (hc : d.flashcards[idx]? = some card)
    (hr : d.reader = line :: r) (hwrong : TrimSpace line ≠ card.Definition) :
    ((∀ c ∈ d.flashcards, c.Definition ≠ TrimSpace line) →
      ∃ d1 : Deck, checkAnswer d idx = some ((1, none), d1) ∧
        d1.log = d.log ++ ["Print the definition of \"" ++ card.Term ++ "\":", TrimSpace line,
          wrongMessage card.Definition]) ∧
    ((∃ c ∈ d.flashcards, c.Definition = TrimSpace line) →
      ∃ (pre : List Flashcard) (X : Flashcard) (post : List Flashcard) (d1 : Deck),
        d.flashcards = pre ++ X :: post ∧ X.Definition = TrimSpace line ∧
        (∀ x ∈ pre, x.Definition ≠ TrimSpace line) ∧ pre.length ≠ idx ∧
        checkAnswer d idx = some ((1, none), d1) ∧
        d1.log = d.log ++ ["Print the definition of \"" ++ card.Term ++ "\":", TrimSpace line,
          wrongMessage card.Definition ++ correctForNote X.Term]) ∧
    (∀ term : String,
      wrongMessage card.Definition ++ correctForNote term ≠ wrongMessage card.Definition) := by
  refine ⟨?_, ?_, fun term => wrongMessage_note_ne _ term⟩
  · intro hno
    exact ⟨_, checkAnswer_wrong_no_match d idx card line r hc hr hwrong hno, rfl⟩
  · intro hex
    rcases scan_spec (TrimSpace line) d.flashcards 0 with ⟨h1, _⟩ | ⟨pre, X, post, h1, h2, h3, _⟩
    · obtain ⟨c, hc1, hc2⟩ := hex
      exact absurd hc2 (h1 c hc1)
    · obtain ⟨hne, hres⟩ :=
        checkAnswer_wrong_match d idx card line r pre post X hc hr hwrong h1 h2 h3
      refine ⟨pre, X, post, _, h1, h2, h3, hne, hres, ?_⟩
      have e : ("\", but your definition is correct for \"" : String) =
          "\"" ++ ", but your definition is correct for \"" := by decide
      simp only [wrongMessage, correctForNote, e, String.append_assoc]

/-- C19 at a concrete deck in which the cards `b` and `c` share the definition `x`: the card
`a` is asked (index 0) and answered with `x`; the note names `b`, the first of the two. -/
theorem checkAnswer_note_names_first_match_witness :
    (((∀ c ∈ ([⟨"a", "w", 0⟩, ⟨"b", "x", 0⟩, ⟨"c", "x", 0⟩] : List Flashcard),
        c.Definition ≠ TrimSpace "x") →
      ∃ d1 : Deck,
        checkAnswer ⟨[⟨"a", "w", 0⟩, ⟨"b", "x", 0⟩, ⟨"c", "x", 0⟩], 3, [], ["x"], "", []⟩ 0 =
          some ((1, none), d1) ∧
        d1.log = [] ++ ["Print the definition of \"" ++ "a" ++ "\":", TrimSpace "x",
          wrongMessage "w"]) ∧
    ((∃ c ∈ ([⟨"a", "w", 0⟩, ⟨"b", "x", 0⟩, ⟨"c", "x", 0⟩] : List Flashcard),
        c.Definition = TrimSpace "x") →
      ∃ (pre : List Flashcard) (X : Flashcard) (post : List Flashcard) (d1 : Deck),
        [⟨"a", "w", 0⟩, ⟨"b", "x", 0⟩, ⟨"c", "x", 0⟩] = pre ++ X :: post ∧
        X.Definition = TrimSpace "x" ∧
        (∀ x ∈ pre, x.Definition ≠ TrimSpace "x") ∧ pre.length ≠ 0 ∧
        checkAnswer ⟨[⟨"a", "w", 0⟩, ⟨"b", "x", 0⟩, ⟨"c", "x", 0⟩], 3, [], ["x"], "", []⟩ 0 =
          some ((1, none), d1) ∧
        d1.log = [] ++ ["Print the definition of \"" ++ "a" ++ "\":", TrimSpace "x",
          wrongMessage "w" ++ correctForNote X.Term]) ∧
    (∀ term : String, wrongMessage "w" ++ correctForNote term ≠ wrongMessage "w")) ∧
    checkAnswer ⟨[⟨"a", "w", 0⟩, ⟨"b", "x", 0⟩, ⟨"c", "x", 0⟩], 3, [], ["x"], "", []⟩ 0 =
      some ((1, none),
        ⟨[⟨"a", "w", 1⟩, ⟨"b", "x", 0⟩, ⟨"c", "x", 0⟩], 3,
          ["Print the definition of \"a\":", "x",
            "Wrong. The right answer is \"w\", but your definition is correct for \"b\"."],
          [], "",
          [Event.printed "Print the definition of \"a\":", Event.read "x",
            Event.printed
              "Wrong. The right answer is \"w\", but your definition is correct for \"b\"."]⟩) :=
  ⟨checkAnswer_note_names_first_match
    ⟨[⟨"a", "w", 0⟩, ⟨"b", "x", 0⟩, ⟨"c", "x", 0⟩], 3, [], ["x"], "", []⟩ 0 ⟨"a", "w", 0⟩ "x" []
    rfl rfl (by decide), by decide⟩

/-! ### findHardestCards: the report -/

theorem hardestOf_eq_filter (cards : List Flashcard) :
    cards.filter (fun c => decide (0 < c.Mistakes ∧
      c.Mistakes = (findHardestCards.scan cards).2)) = hardestOf cards := by
  obtain ⟨h1, h2, _⟩ := scan_result cards
  unfold hardestOf
  apply List.filter_congr
  intro c hc
  apply decide_eq_decide.2
  constructor
  · rintro ⟨hpos, heq⟩
    refine ⟨hpos, ?_⟩
    intro c2 hc2
    by_cases hp : 0 < c2.Mistakes
    · have := h1 c2 hc2 hp
      omega
    · omega
  · rintro ⟨hpos, hmax⟩
    refine ⟨hpos, ?_⟩
    have hle := h1 c hc hpos
    rcases h2 with ⟨h0, _⟩ | ⟨_, c3, hc3, h3⟩
    · omega
    · have := hmax c3 hc3
      omega

theorem hardestOf_nil_iff (cards : List Flashcard) :
    hardestOf cards = [] ↔ ∀ c ∈ cards, c.Mistakes ≤ 0 := by
  constructor
  · intro h
    obtain ⟨h1, h2, _⟩ := scan_result cards
    rcases h2 with ⟨_, h0⟩ | ⟨hpos, c3, hc3, h3⟩
    · exact h0
    · exfalso
      have hmem : c3 ∈ cards.filter (fun c => decide (0 < c.Mistakes ∧
          c.Mistakes = (findHardestCards.scan cards).2)) := by
        rw [List.mem_filter]
        exact ⟨hc3, decide_eq_true ⟨by omega, h3⟩⟩
      rw [hardestOf_eq_filter, h] at hmem
      simp at hmem
  · intro h
    unfold hardestOf
    rw [List.filter_eq_nil_iff]
    intro c hc
    have := h c hc
    simp only [decide_eq_true_eq, not_and]
    intro hpos
    omega

theorem hardestOf_mistakes (cards : List Flashcard) (c : Flashcard) (hc : c ∈ hardestOf cards) :
    c.Mistakes = (findHardestCards.scan cards).2 := by
  rw [← hardestOf_eq_filter, List.mem_filter] at hc
  exact (of_decide_eq_true hc.2).2

theorem append_ne_of_take_ne (a b t u : String) (n : Nat) (ha : n ≤ a.data.length)
    (hb : n ≤ b.data.length) (h : a.data.take n ≠ b.data.take n) : a ++ t ≠ b ++ u := by
  intro e
  have h1 := congrArg (fun s : String => s.data.take n) e
  simp only [String.data_append, List.take_append_of_le_length ha,
    List.take_append_of_le_length hb] at h1
  exact h h1

theorem report_messages_differ (term : String) (n : Int) (terms : List String) (m : Int) :
    noErrorsMessage ≠ hardestCardMessage term n ∧
    noErrorsMessage ≠ hardestCardsMessage terms m ∧
    hardestCardMessage term n ≠ hardestCardsMessage terms m := by
  unfold noErrorsMessage hardestCardMessage hardestCardsMessage
  simp only [String.append_assoc]
  refine ⟨?_, ?_, ?_⟩
  · have := append_ne_of_take_ne "There are no cards with errors." "The hardest card is \"" ""
      (term ++ ("\". You have " ++ (toString n ++ " errors answering it."))) 4
      (by decide) (by decide) (by decide)
    simpa using this
  · have := append_ne_of_take_ne "There are no cards with errors." "The hardest cards are \"" ""
      (String.intercalate "\", \"" terms ++
        ("\". You have " ++ (toString m ++ " errors answering it."))) 4
      (by decide) (by decide) (by decide)
    simpa using this
  · exact append_ne_of_take_ne "The hardest card is \"" "The hardest cards are \"" _ _ 17
      (by decide) (by decide) (by decide)

/-- C11: `findHardestCards` prints one report and changes nothing but the transcript.  The
report is "There are no cards with errors." exactly when no card has a positive mistake
count; it is the singular report naming the card and its count exactly when one card alone
attains the positive maximum; otherwise it names all tied cards, in deck order, joined by the
delimiter, with the count they share.  The three reports are different strings. -/
theorem findHardestCards_report (d : Deck) :
    (findHardestCards d).flashcards = d.flashcards ∧
    (findHardestCards d).numCards = d.numCards ∧
    (findHardestCards d).reader = d.reader ∧
    (hardestOf d.flashcards = [] ↔ ∀ c ∈ d.flashcards, c.Mistakes ≤ 0) ∧
    (hardestOf d.flashcards = [] → (findHardestCards d).log = d.log ++ [noErrorsMessage]) ∧
    (∀ c : Flashcard, hardestOf d.flashcards = [c] →
      (findHardestCards d).log = d.log ++ [hardestCardMessage c.Term c.Mistakes]) ∧
    (∀ (c1 c2 : Flashcard) (rest : List Flashcard), hardestOf d.flashcards = c1 :: c2 :: rest →
      (findHardestCards d).log =
        d.log ++ [hardestCardsMessage ((c1 :: c2 :: rest).map Flashcard.Term) c1.Mistakes] ∧
      ∀ c ∈ c1 :: c2 :: rest, c.Mistakes = c1.Mistakes) ∧
    (∀ (term : String) (n : Int) (terms : List String) (m : Int),
      noErrorsMessage ≠ hardestCardMessage term n ∧
      noErrorsMessage ≠ hardestCardsMessage terms m ∧
      hardestCardMessage term n ≠ hardestCardsMessage terms m) := by
  have hscan1 : (findHardestCards.scan d.flashcards).1 =
      (hardestOf d.flashcards).map Flashcard.Term := by
    rw [(scan_result d.flashcards).2.2, hardestOf_eq_filter]
  have hm := hardestOf_mistakes d.flashcards
  refine ⟨?_, ?_, ?_, hardestOf_nil_iff d.flashcards, ?_, ?_, ?_,
    fun term n terms m => report_messages_differ term n terms m⟩
  · unfold findHardestCards
    split <;> rfl
  · unfold findHardestCards
    split <;> rfl
  · unfold findHardestCards
    split <;> rfl
  · intro h
    rw [h] at hscan1
    unfold findHardestCards
    rcases hs : findHardestCards.scan d.flashcards with ⟨hard, mx⟩
    rw [hs] at hscan1
    simp only [List.map_nil] at hscan1
    subst hscan1
    rfl
  · intro c h
    rw [h] at hscan1 hm
    have hmc := hm c (by simp)
    unfold findHardestCards
    rcases hs : findHardestCards.scan d.flashcards with ⟨hard, mx⟩
    rw [hs] at hscan1 hmc
    simp only [List.map_cons, List.map_nil] at hscan1 hmc
    subst hscan1
    subst hmc
    rfl
  · intro c1 c2 rest h
    rw [h] at hscan1 hm
    have hmc := hm c1 (by simp)
    refine ⟨?_, fun c hc => (hm c hc).trans hmc.symm⟩
    unfold findHardestCards
    rcases hs : findHardestCards.scan d.flashcards with ⟨hard, mx⟩
    rw [hs] at hscan1 hmc
    simp only [List.map_cons] at hscan1 hmc
    subst hscan1
    subst hmc
    rfl

/-- C11, the examples of the specification: mistakes `A:3, B:1, C:3, D:0` report `A` and `C`
tied at 3; a deck without mistakes reports that no card has errors; one hardest card gives
the singular report. -/
theorem findHardestCards_report_example :
    (findHardestCards
        ⟨[⟨"A", "a", 3⟩, ⟨"B", "b", 1⟩, ⟨"C", "c", 3⟩, ⟨"D", "d", 0⟩], 4, [], [], "", []⟩).log =
      ["The hardest cards are \"A\", \"C\". You have 3 errors answering it."] ∧
    (findHardestCards ⟨[⟨"A", "a", 0⟩, ⟨"B", "b", 0⟩], 2, [], [], "", []⟩).log =
      ["There are no cards with errors."] ∧
    (findHardestCards ⟨[⟨"A", "a", 2⟩, ⟨"B", "b", 5⟩], 2, [], [], "", []⟩).log =
      ["The hardest card is \"B\". You have 5 errors answering it."] := by
  refine ⟨by decide, by decide, by decide⟩

/-! ### What every operation does to the count, the cards and the unread input -/

theorem readTerm_frame (lines : List String) :
    ∀ d : Deck, (addFlashcard.readTerm d lines).2.flashcards = d.flashcards ∧
      (addFlashcard.readTerm d lines).2.numCards = d.numCards ∧
      (addFlashcard.readTerm d lines).2.reader.length ≤ lines.length := by
  induction lines with
  | nil => intro d; simp [addFlashcard.readTerm]
  | cons l ls ih =>
    intro d
    unfold addFlashcard.readTerm
    simp only []
    split
    · obtain ⟨h1, h2, h3⟩ := ih (printlnAndLog
        { flashcards := d.flashcards, numCards := d.numCards, log := d.log ++ [TrimSpace l],
          reader := ls, pending := d.pending, trace := d.trace ++ [Event.read l] }
        ("The card \"" ++ TrimSpace l ++ "\" already exists. Try again:"))
      refine ⟨h1, h2, ?_⟩
      simp only [List.length_cons]
      omega
    · simp

theorem readDefinition_frame (lines : List String) :
    ∀ d : Deck, (addFlashcard.readDefinition d lines).2.flashcards = d.flashcards ∧
      (addFlashcard.readDefinition d lines).2.numCards = d.numCards ∧
      (addFlashcard.readDefinition d lines).2.reader.length ≤ lines.length := by
  induction lines with
  | nil => intro d; simp [addFlashcard.readDefinition]
  | cons l ls ih =>
    intro d
    unfold addFlashcard.readDefinition
    simp only []
    split
    · obtain ⟨h1, h2, h3⟩ := ih (printlnAndLog
        { flashcards := d.flashcards, numCards := d.numCards, log := d.log ++ [TrimSpace l],
          reader := ls, pending := d.pending, trace := d.trace ++ [Event.read l] }
        ("The definition \"" ++ TrimSpace l ++ "\" already exists. Try again:"))
      refine ⟨h1, h2, ?_⟩
      simp only [List.length_cons]
      omega
    · simp

theorem addFlashcard_reader (d : Deck) :
    (addFlashcard d).2.reader.length ≤ d.reader.length := by
  have h1 := readTerm_frame d.reader (printlnAndLog d "The card:")
  unfold addFlashcard
  have e0 : (printlnAndLog d "The card:").reader = d.reader := rfl
  simp only [e0]
  rcases hres : addFlashcard.readTerm (printlnAndLog d "The card:") d.reader
    with ⟨⟨t, e⟩, d1⟩
  rw [hres] at h1
  cases e with
  | some err => exact h1.2.2
  | none =>
    simp only []
    have h2 := readDefinition_frame d1.reader (printlnAndLog d1 "The definition of the card:")
    have e1 : (printlnAndLog d1 "The definition of the card:").reader = d1.reader := rfl
    simp only [e1]
    rcases hres2 : addFlashcard.readDefinition
      (printlnAndLog d1 "The definition of the card:") d1.reader with ⟨⟨t2, e2⟩, d3⟩
    rw [hres2] at h2
    have h3 := h1.2.2
    have h4 := h2.2.2
    simp only at h3 h4
    cases e2 with
    | some err => simp only []; omega
    | none => simp only [printlnAndLog]; omega

/-- The cards, the count and the unread input after `removeFlashcard`. -/
theorem removeFlashcard_frame (d : Deck) :
    (removeFlashcard d).2.reader.length ≤ d.reader.length ∧
    (((removeFlashcard d).2.flashcards = d.flashcards ∧
        (removeFlashcard d).2.numCards = d.numCards) ∨
      ∃ pre c post, d.flashcards = pre ++ c :: post ∧
        (removeFlashcard d).2.flashcards = pre ++ post ∧
        (removeFlashcard d).2.numCards = d.numCards - 1) := by
  cases hr : d.reader with
  | nil =>
    simp [removeFlashcard, ReadInputLineAndLog, printlnAndLog, hr]
  | cons line rest =>
    by_cases h : ∃ c ∈ d.flashcards, c.Term = TrimSpace line
    · obtain ⟨pre, c, post, h1, _, _, h4⟩ := find_first (TrimSpace line) d.flashcards 0 h
      unfold removeFlashcard
      simp only [ReadInputLineAndLog, printlnAndLog, hr, h4]
      refine ⟨by simp, Or.inr ⟨pre, c, post, h1, ?_, ?_⟩⟩
      · simp [h1]
      · simp
    · have hno : ∀ c ∈ d.flashcards, c.Term ≠ TrimSpace line :=
        fun c hc hct => h ⟨c, hc, hct⟩
      unfold removeFlashcard
      simp only [ReadInputLineAndLog, printlnAndLog, hr,
        find_none (TrimSpace line) d.flashcards 0 hno]
      simp

theorem findHardestCards_frame (d : Deck) :
    (findHardestCards d).flashcards = d.flashcards ∧
    (findHardestCards d).numCards = d.numCards ∧
    (findHardestCards d).reader = d.reader := by
  unfold findHardestCards
  split <;> exact ⟨rfl, rfl, rfl⟩

theorem readInputLine_frame (d : Deck) :
    (ReadInputLineAndLog d).2.flashcards = d.flashcards ∧
    (ReadInputLineAndLog d).2.numCards = d.numCards ∧
    (ReadInputLineAndLog d).2.reader.length ≤ d.reader.length := by
  cases hr : d.reader with
  | nil => simp [ReadInputLineAndLog, hr]
  | cons l r => simp [ReadInputLineAndLog, hr]

/-- One quiz round on an index within bounds never panics, whatever the input; it keeps the
number of cards and the count, reads at most one line, and keeps `CountersBounded`. -/
theorem checkAnswer_total (d : Deck) (idx : Nat) (hidx : idx < d.flashcards.length) :
    ∃ (r : Int × Option GoError) (d1 : Deck), checkAnswer d idx = some (r, d1) ∧
      d1.flashcards.length = d.flashcards.length ∧ d1.numCards = d.numCards ∧
      d1.reader.length ≤ d.reader.length ∧
      (CountersBounded d → CountersBounded d1) := by
  have hc : d.flashcards[idx]? = some d.flashcards[idx] := List.getElem?_eq_getElem hidx
  generalize d.flashcards[idx] = card at hc
  cases hr : d.reader with
  | nil =>
    refine ⟨(0, some GoError.EOF),
      (ReadInputLineAndLog
        (printlnAndLog d ("Print the definition of \"" ++ card.Term ++ "\":"))).2,
      ?_, ?_, ?_, ?_, ?_⟩
    · unfold checkAnswer
      simp only [hc, ReadInputLineAndLog, printlnAndLog, hr]
    · simp [ReadInputLineAndLog, printlnAndLog, hr]
    · simp [ReadInputLineAndLog, printlnAndLog, hr]
    · simp [ReadInputLineAndLog, printlnAndLog, hr]
    · intro h
      simpa [ReadInputLineAndLog, printlnAndLog, hr, CountersBounded] using h
  | cons line rest =>
    obtain ⟨d1, h1, h2, h3, h4⟩ := checkAnswer_round d idx card line rest hc hr
    refine ⟨(1, none), d1, h1, by rw [h2, answered_length], h3, by rw [h4]; simp, ?_⟩
    rintro ⟨hlen, hb⟩
    rw [hr] at hlen hb
    simp only [List.length_cons, Nat.cast_add, Nat.cast_one] at hlen hb
    refine ⟨by rw [h4]; omega, ?_⟩
    intro c hcm
    rw [h4]
    rw [h2] at hcm
    unfold answered at hcm
    by_cases hans : TrimSpace line = card.Definition
    · simp only [hans, if_true] at hcm
      have := hb c hcm
      omega
    · simp only [hans, if_false] at hcm
      rcases List.mem_or_eq_of_mem_set hcm with hold | hnew
      · have := hb c hold
        omega
      · have hcard := hb card (List.mem_iff_getElem?.2 ⟨_, hc⟩)
        have hwrap : wrapInt (card.Mistakes + 1) = card.Mistakes + 1 :=
          wrapInt_succ _ (by unfold minInt; omega) (by omega)
        rw [hnew]
        simp only [hwrap]
        omega

/-- The rounds of `askFlashcardAnswers` never panic on a non-empty deck that counts its cards,
whatever the input and the draws. -/
theorem rounds_total (rnd : Nat → Nat) (k : Nat) :
    ∀ (i : Nat) (d : Deck), d.numCards = (d.flashcards.length : Int) → d.flashcards ≠ [] →
      ∃ (r : Int × Option GoError) (d1 : Deck),
        askFlashcardAnswers.rounds rnd i k d = some (r, d1) ∧
        d1.flashcards.length = d.flashcards.length ∧ d1.numCards = d.numCards ∧
        d1.reader.length ≤ d.reader.length ∧
        (CountersBounded d → CountersBounded d1) := by
  induction k with
  | zero =>
    intro i d _ _
    exact ⟨(1, none), d, rfl, rfl, rfl, Nat.le_refl _, fun h => h⟩
  | succ k ih =>
    intro i d hwf hne
    have hpos : 0 < d.flashcards.length := List.length_pos.2 hne
    have hidx : rnd i % d.flashcards.length < d.flashcards.length := Nat.mod_lt _ hpos
    have hIntn : Intn (rnd i) d.numCards = some (rnd i % d.flashcards.length) := by
      unfold Intn
      rw [hwf]
      have : ¬ ((d.flashcards.length : Int) ≤ 0) := by omega
      simp [this]
    obtain ⟨r, d1, h1, h2, h3, h4, h5⟩ := checkAnswer_total d _ hidx
    obtain ⟨⟨n, e⟩, rfl⟩ : ∃ p : Int × Option GoError, p = r := ⟨r, rfl⟩
    cases e with
    | some err =>
      refine ⟨(0, some err), d1, ?_, h2, h3, h4, h5⟩
      simp only [askFlashcardAnswers.rounds, hIntn, h1]
    | none =>
      have hne1 : d1.flashcards ≠ [] := by
        intro h
        rw [h] at h2
        exact hne (List.length_eq_zero.1 h2.symm)
      obtain ⟨r2, d2, g1, g2, g3, g4, g5⟩ := ih (i + 1) d1 (by rw [h3, h2, hwf]) hne1
      refine ⟨r2, d2, ?_, by rw [g2, h2], by rw [g3, h3], by omega, fun h => g5 (h5 h)⟩
      simp only [askFlashcardAnswers.rounds, hIntn, h1]
      exact g1

/-- `askFlashcardAnswers` never panics on a deck that counts its cards, whatever the input and
the draws; it keeps the number of cards and the count. -/
theorem ask_total (rnd : Nat → Nat) (d : Deck)
    (hwf : d.numCards = (d.flashcards.length : Int)) :
    ∃ (r : Int × Option GoError) (d1 : Deck), askFlashcardAnswers rnd d = some (r, d1) ∧
      d1.flashcards.length = d.flashcards.length ∧ d1.numCards = d.numCards ∧
      d1.reader.length ≤ d.reader.length ∧
      (CountersBounded d → CountersBounded d1) := by
  cases hr : d.reader with
  | nil =>
    refine ⟨(0, some GoError.EOF),
      (ReadInputLineAndLog (printlnAndLog d "How many times to ask?")).2, ?_,
      by simp [ReadInputLineAndLog, printlnAndLog, hr],
      by simp [ReadInputLineAndLog, printlnAndLog, hr],
      by simp [ReadInputLineAndLog, printlnAndLog, hr], ?_⟩
    · unfold askFlashcardAnswers
      simp only [ReadInputLineAndLog, printlnAndLog, hr]
    · intro h
      simpa [ReadInputLineAndLog, printlnAndLog, hr, CountersBounded] using h
  | cons line rest =>
    have hb1 : CountersBounded d →
        CountersBounded ⟨d.flashcards, d.numCards,
          d.log ++ ["How many times to ask?"] ++ [TrimSpace line], rest, d.pending,
          d.trace ++ [Event.printed "How many times to ask?"] ++ [Event.read line]⟩ := by
      rintro ⟨hlen, hb⟩
      rw [hr] at hlen hb
      simp only [List.length_cons, Nat.cast_add, Nat.cast_one] at hlen hb
      refine ⟨by simp only []; omega, ?_⟩
      intro c hc
      have := hb c hc
      simp only []
      omega
    unfold askFlashcardAnswers
    simp only [ReadInputLineAndLog, printlnAndLog, hr]
    cases hn : Atoi (TrimSpace line) with
    | error err =>
      exact ⟨(0, some err), _, rfl, rfl, rfl, by simp, hb1⟩
    | ok numAsk =>
      simp only []
      by_cases hz : d.numCards = 0
      · simp only [hz, if_true]
        refine ⟨(0, none), _, rfl, rfl, by simp [hz], by simp, ?_⟩
        intro h
        have := hb1 h
        rw [hz] at this
        exact this
      · simp only [hz, if_false]
        have hne : d.flashcards ≠ [] := by
          intro h
          rw [h] at hwf
          exact hz (by simpa using hwf)
        obtain ⟨r, d1, h1, h2, h3, h4, h5⟩ := rounds_total rnd numAsk.toNat 0
          ⟨d.flashcards, d.numCards, d.log ++ ["How many times to ask?"] ++ [TrimSpace line],
            rest, d.pending,
            d.trace ++ [Event.printed "How many times to ask?"] ++ [Event.read line]⟩ hwf hne
        exact ⟨r, d1, h1, h2, h3, by simp only [List.length_cons]; simp only at h4; omega,
          fun h => h5 (hb1 h)⟩

/-! ### The card count in reachable states -/

theorem reachable_counts (d : Deck) (h : Reachable d) :
    d.numCards = (d.flashcards.length : Int) := by
  induction h with
  | init stdin pending => rfl
  | @add d _ ih =>
    rcases addFlashcard_cards d with ⟨h1, h2⟩ | ⟨t, df, h1, h2, _⟩
    · rw [h1, h2, ih]
    · rw [h1, h2, ih]
      simp
  | @remove d _ ih =>
    rcases (removeFlashcard_frame d).2 with ⟨h1, h2⟩ | ⟨pre, c, post, h0, h1, h2⟩
    · rw [h1, h2, ih]
    · rw [h1, h2, ih, h0]
      simp
      omega
  | @importFile d file e d1 _ himp ih =>
    cases file with
    | missing =>
      simp only [importFromFile, Option.some.injEq, Prod.mk.injEq] at himp
      rw [← himp.2]
      exact ih
    | malformed err =>
      simp only [importFromFile, Option.some.injEq, Prod.mk.injEq] at himp
      rw [← himp.2]
      exact ih
    | records rs =>
      rw [importFromFile_records d rs] at himp
      simp only [Option.some.injEq, Prod.mk.injEq] at himp
      rw [← himp.2]
      simp only [List.length_append, overwriteDefinitions_length, ih]
      simp
  | @ask d rnd r d1 _ hask ih =>
    obtain ⟨r2, d2, h1, h2, h3, _, _⟩ := ask_total rnd d ih
    rw [h1] at hask
    simp only [Option.some.injEq, Prod.mk.injEq] at hask
    rw [← hask.2, h2, h3, ih]
  | @reset d _ ih =>
    simp [resetStats, printlnAndLog, ih]
  | @exportFile d w _ ih =>
    cases w with
    | none => exact ih
    | some err => exact ih
  | @hardest d _ ih =>
    obtain ⟨h1, h2, _⟩ := findHardestCards_frame d
    rw [h1, h2, ih]
  | @check d idx r d1 _ hchk ih =>
    have hidx : idx < d.flashcards.length := by
      by_contra hge
      have hnone : d.flashcards[idx]? = none := List.getElem?_eq_none (by omega)
      simp [checkAnswer, hnone] at hchk
    obtain ⟨r2, d2, h1, h2, h3, _, _⟩ := checkAnswer_total d idx hidx
    rw [h1] at hchk
    simp only [Option.some.injEq, Prod.mk.injEq] at hchk
    rw [← hchk.2, h2, h3, ih]
  | @readLine d _ ih =>
    obtain ⟨h1, h2, _⟩ := readInputLine_frame d
    rw [h1, h2, ih]
  | @println d str _ ih => exact ih

/-- C14: in every deck state reachable from `NewDeck()`, `numCards` equals
`len(flashcards)`; hence the count in the report of `exportToFile` is the number of records
it serialised. -/
theorem reachable_count_is_length (d : Deck) (h : Reachable d) :
    d.numCards = (d.flashcards.length : Int) ∧
    ∃ recs : List Flashcard, (exportToFile d none).2 = some recs ∧
      (exportToFile d none).1.1 = none ∧
      (exportToFile d none).1.2.log =
        d.log ++ [toString (recs.length : Int) ++ " cards have been saved.\n"] := by
  have hc := reachable_counts d h
  refine ⟨hc, d.flashcards, rfl, rfl, ?_⟩
  simp [exportToFile, printlnAndLog, hc]

/-- C14 at a concrete run: two cards are added and one is removed. -/
theorem reachable_count_is_length_witness :
    (removeFlashcard (addFlashcard (addFlashcard
        (NewDeck ["a", "x", "b", "y", "a"] "")).2).2).2.numCards =
      ((removeFlashcard (addFlashcard (addFlashcard
        (NewDeck ["a", "x", "b", "y", "a"] "")).2).2).2.flashcards.length : Int) ∧
    ∃ recs : List Flashcard,
      (exportToFile (removeFlashcard (addFlashcard (addFlashcard
        (NewDeck ["a", "x", "b", "y", "a"] "")).2).2).2 none).2 = some recs ∧
      (exportToFile (removeFlashcard (addFlashcard (addFlashcard
        (NewDeck ["a", "x", "b", "y", "a"] "")).2).2).2 none).1.1 = none ∧
      (exportToFile (removeFlashcard (addFlashcard (addFlashcard
        (NewDeck ["a", "x", "b", "y", "a"] "")).2).2).2 none).1.2.log =
        (removeFlashcard (addFlashcard (addFlashcard
          (NewDeck ["a", "x", "b", "y", "a"] "")).2).2).2.log ++
          [toString (recs.length : Int) ++ " cards have been saved.\n"] :=
  reachable_count_is_length _
    (Reachable.remove (Reachable.add (Reachable.add
      (Reachable.init ["a", "x", "b", "y", "a"] ""))))

/-! ### Quiz indexing -/

/-- C20: in every reachable deck state `askFlashcardAnswers` never panics, whatever the
input and the draws.  On a non-empty deck the bound handed to `Intn` is positive and every
index it can return is within the bounds of `flashcards`.  On the empty deck every parsed
count leads to the informational message without any round.  On a non-empty deck a count of
zero or less performs no round. -/
theorem quiz_indexing_safe (d : Deck) (h : Reachable d) (rnd : Nat → Nat) :
    (∃ (r : Int × Option GoError) (d1 : Deck), askFlashcardAnswers rnd d = some (r, d1)) ∧
    (d.flashcards ≠ [] → 0 < d.numCards ∧
      ∀ raw : Nat, ∃ idx : Nat, Intn raw d.numCards = some idx ∧ idx < d.flashcards.length ∧
        ∃ (r : Int × Option GoError) (d1 : Deck), checkAnswer d idx = some (r, d1)) ∧
    (d.flashcards = [] → ∀ (line : String) (rest : List String) (numAsk : Int),
      d.reader = line :: rest → Atoi (TrimSpace line) = Except.ok numAsk →
      askFlashcardAnswers rnd d =
        some ((0, none),
          ⟨[], 0,
            d.log ++ ["How many times to ask?", TrimSpace line,
              "There are not currently no flashcards. First add some and try again."],
            rest, d.pending,
            d.trace ++ [Event.printed "How many times to ask?", Event.read line,
              Event.printed
                "There are not currently no flashcards. First add some and try again."]⟩)) ∧
    (d.flashcards ≠ [] → ∀ (line : String) (rest : List String) (numAsk : Int),
      d.reader = line :: rest → Atoi (TrimSpace line) = Except.ok numAsk → numAsk ≤ 0 →
      askFlashcardAnswers rnd d =
        some ((1, none),
          ⟨d.flashcards, d.numCards, d.log ++ ["How many times to ask?", TrimSpace line],
            rest, d.pending,
            d.trace ++ [Event.printed "How many times to ask?", Event.read line]⟩)) := by
  have hwf := reachable_counts d h
  refine ⟨?_, ?_, ?_, ?_⟩
  · obtain ⟨r, d1, h1, _⟩ := ask_total rnd d hwf
    exact ⟨r, d1, h1⟩
  · intro hne
    have hpos : 0 < d.flashcards.length := List.length_pos.2 hne
    refine ⟨by rw [hwf]; omega, ?_⟩
    intro raw
    have hidx : raw % d.flashcards.length < d.flashcards.length := Nat.mod_lt _ hpos
    refine ⟨raw % d.flashcards.length, ?_, hidx, ?_⟩
    · unfold Intn
      rw [hwf]
      have : ¬ ((d.flashcards.length : Int) ≤ 0) := by omega
      simp [this]
    · obtain ⟨r, d1, h1, _⟩ := checkAnswer_total d _ hidx
      exact ⟨r, d1, h1⟩
  · intro hempty line rest numAsk hr hn
    have hz : d.numCards = 0 := by rw [hwf, hempty]; rfl
    unfold askFlashcardAnswers
    simp only [ReadInputLineAndLog, printlnAndLog, hr, hn, hz, if_true, hempty]
    simp
  · intro hne line rest numAsk hr hn hle
    have hnz : ¬ d.numCards = 0 := by
      rw [hwf]
      have := List.length_pos.2 hne
      omega
    have h0 : numAsk.toNat = 0 := by omega
    unfold askFlashcardAnswers
    simp only [ReadInputLineAndLog, printlnAndLog, hr, hn, hnz, if_false, h0,
      askFlashcardAnswers.rounds]
    simp

/-- C20 at concrete runs: on the empty deck and on a deck with one card asked `-3` times. -/
theorem quiz_indexing_safe_witness :
    askFlashcardAnswers (fun i => i) (NewDeck ["5"] "") =
      some ((0, none),
        ⟨[], 0,
          ["How many times to ask?", "5",
            "There are not currently no flashcards. First add some and try again."],
          [], "",
          [Event.printed "How many times to ask?", Event.read "5",
            Event.printed
              "There are not currently no flashcards. First add some and try again."]⟩) ∧
    (∃ (r : Int × Option GoError) (d1 : Deck),
      askFlashcardAnswers (fun i => i) (addFlashcard (NewDeck ["a", "x", "-3"] "")).2 =
        some (r, d1)) :=
  ⟨(quiz_indexing_safe (NewDeck ["5"] "") (Reachable.init ["5"] "") (fun i => i)).2.2.1 rfl "5" [] 5
      rfl rfl,
    (quiz_indexing_safe (addFlashcard (NewDeck ["a", "x", "-3"] "")).2
      (Reachable.add (Reachable.init ["a", "x", "-3"] "")) (fun i => i)).1⟩

/-! ### Import and the uniqueness of terms -/

/-- C13, the code at the failing input: the empty deck has no two cards with the same term;
after importing two records that carry the same new term, both are cards of the deck. -/
theorem importFromFile_repeated_new_term :
    ([] : List Flashcard).map Flashcard.Term = [] ∧
    importFromFile (NewDeck [] "") (FileContent.records [⟨"a", "x", 0⟩, ⟨"a", "y", 0⟩]) =
      some (none, ⟨[⟨"a", "x", 0⟩, ⟨"a", "y", 0⟩], 2, ["2 cards have been loaded"], [], "",
        [Event.printed "2 cards have been loaded"]⟩) ∧
    ¬ (([⟨"a", "x", 0⟩, ⟨"a", "y", 0⟩] : List Flashcard).map Flashcard.Term).Nodup := by
  refine ⟨rfl, by decide, by decide⟩

/-! ### The sign of the mistake counters -/

theorem overwriteDefinitions_mistakes (m : TermIndex) (rs cs : List Flashcard)
    (c1 : Flashcard) (h : c1 ∈ overwriteDefinitions m rs cs) :
    ∃ c ∈ cs, c1.Mistakes = c.Mistakes := by
  obtain ⟨i, hi⟩ := List.mem_iff_getElem?.1 h
  have hlt : i < cs.length := by
    have := (List.getElem?_eq_some.1 hi).1
    rwa [overwriteDefinitions_length] at this
  obtain ⟨c2, h1, _, h3, _⟩ :=
    overwriteDefinitions_get m rs cs i cs[i] (List.getElem?_eq_getElem hlt)
  rw [hi] at h1
  have e : c1 = c2 := Option.some.inj h1
  exact ⟨cs[i], List.getElem_mem _, by rw [e, h3]⟩

theorem bounded_invariant (d : Deck) (h : ReachableBounded d) :
    d.numCards = (d.flashcards.length : Int) ∧ CountersBounded d := by
  induction h with
  | init stdin pending hlen =>
    refine ⟨rfl, hlen, ?_⟩
    intro c hc
    simp [NewDeck] at hc
  | @add d _ ih =>
    obtain ⟨hwf, hlen, hb⟩ := ih
    have hr := addFlashcard_reader d
    rcases addFlashcard_cards d with ⟨h1, h2⟩ | ⟨t, df, h1, h2, _⟩
    · refine ⟨by rw [h1, h2, hwf], by omega, ?_⟩
      intro c hc
      rw [h1] at hc
      have := hb c hc
      omega
    · refine ⟨by rw [h1, h2, hwf]; simp, by omega, ?_⟩
      intro c hc
      rw [h1] at hc
      rcases List.mem_append.1 hc with hc | hc
      · have := hb c hc
        omega
      · simp only [List.mem_singleton] at hc
        rw [hc]
        simp only []
        omega
  | @remove d _ ih =>
    obtain ⟨hwf, hlen, hb⟩ := ih
    obtain ⟨hr, hcards⟩ := removeFlashcard_frame d
    rcases hcards with ⟨h1, h2⟩ | ⟨pre, c0, post, h0, h1, h2⟩
    · refine ⟨by rw [h1, h2, hwf], by omega, ?_⟩
      intro c hc
      rw [h1] at hc
      have := hb c hc
      omega
    · refine ⟨by rw [h1, h2, hwf, h0]; simp; omega, by omega, ?_⟩
      intro c hc
      rw [h1] at hc
      have hmem : c ∈ d.flashcards := by
        rw [h0]
        rcases List.mem_append.1 hc with hc | hc
        · exact List.mem_append.2 (Or.inl hc)
        · exact List.mem_append.2 (Or.inr (List.mem_cons_of_mem _ hc))
      have := hb c hmem
      omega
  | @importFile d file e d1 _ hrec himp ih =>
    obtain ⟨hwf, hlen, hb⟩ := ih
    cases file with
    | missing =>
      simp only [importFromFile, Option.some.injEq, Prod.mk.injEq] at himp
      rw [← himp.2]
      exact ⟨hwf, hlen, hb⟩
    | malformed err =>
      simp only [importFromFile, Option.some.injEq, Prod.mk.injEq] at himp
      rw [← himp.2]
      exact ⟨hwf, hlen, hb⟩
    | records rs =>
      rw [importFromFile_records d rs] at himp
      simp only [Option.some.injEq, Prod.mk.injEq] at himp
      rw [← himp.2]
      refine ⟨?_, hlen, ?_⟩
      · simp only [List.length_append, overwriteDefinitions_length, hwf]
        simp
      · intro c hc
        simp only at hc ⊢
        rcases List.mem_append.1 hc with hc | hc
        · obtain ⟨c0, hc0, e⟩ := overwriteDefinitions_mistakes _ rs d.flashcards c hc
          rw [e]
          exact hb c0 hc0
        · exact hrec rs rfl c (List.mem_filter.1 hc).1
  | @ask d rnd r d1 _ hask ih =>
    obtain ⟨hwf, hcb⟩ := ih
    obtain ⟨r2, d2, h1, h2, h3, _, h5⟩ := ask_total rnd d hwf
    rw [h1] at hask
    simp only [Option.some.injEq, Prod.mk.injEq] at hask
    rw [← hask.2]
    exact ⟨by rw [h2, h3, hwf], h5 hcb⟩
  | @reset d _ ih =>
    obtain ⟨hwf, hlen, _⟩ := ih
    refine ⟨by simp [resetStats, printlnAndLog, hwf], hlen, ?_⟩
    intro c hc
    simp only [resetStats, printlnAndLog, List.mem_map] at hc
    obtain ⟨c0, _, rfl⟩ := hc
    simp only [resetStats, printlnAndLog]
    exact ⟨Int.le_refl 0, by omega⟩
  | @readLine d _ ih =>
    obtain ⟨hwf, hlen, hb⟩ := ih
    obtain ⟨h1, h2, h3⟩ := readInputLine_frame d
    refine ⟨by rw [h1, h2, hwf], by omega, ?_⟩
    intro c hc
    rw [h1] at hc
    have := hb c hc
    omega
  | @println d str _ ih => exact ih

/-- C17, as amended: in every deck state reachable from the empty deck by add, remove, ask,
reset-stats and import, where the input has at most `2^63 - 1` lines and every imported
record has a mistake count `m` with `0 <= m` and `m` plus the number of input lines still
unread at most `2^63 - 1`, every card has a mistake count `>= 0`. -/
theorem bounded_counters_nonnegative (d : Deck) (h : ReachableBounded d) :
    ∀ c ∈ d.flashcards, 0 ≤ c.Mistakes :=
  fun c hc => ((bounded_invariant d h).2.2 c hc).1

/-- C17 as amended, at a concrete run: a record with the count 3 is imported and the card is
then answered wrongly once. -/
theorem bounded_counters_nonnegative_witness :
    0 ≤ (⟨"a", "x", 4⟩ : Flashcard).Mistakes :=
  bounded_counters_nonnegative ⟨[⟨"a", "x", 4⟩], 1,
      ["1 cards have been loaded", "How many times to ask?", "1",
        "Print the definition of \"a\":", "z", "Wrong. The right answer is \"x\""], [], "",
      [Event.printed "1 cards have been loaded", Event.printed "How many times to ask?",
        Event.read "1", Event.printed "Print the definition of \"a\":", Event.read "z",
        Event.printed "Wrong. The right answer is \"x\""]⟩
    (ReachableBounded.ask (fun i => i) (1, none) _
      (ReachableBounded.importFile (FileContent.records [⟨"a", "x", 3⟩]) none
        ⟨[⟨"a", "x", 3⟩], 1, ["1 cards have been loaded"], ["1", "z"], "",
          [Event.printed "1 cards have been loaded"]⟩
        (ReachableBounded.init ["1", "z"] "" (by decide))
        (by
          intro rs hrs
          cases hrs
          decide)
        (by decide))
      (by decide))
    ⟨"a", "x", 4⟩ (by decide)

/-- C17 as stated fails on two runs from the empty deck.  An import of a record with the
count `-5` gives a card with the count `-5`.  An import of a record with the largest `int`
followed by one wrong answer gives a card with the smallest `int`. -/
theorem negative_counter_counterexample :
    importFromFile (NewDeck [] "") (FileContent.records [⟨"a", "x", -5⟩]) =
      some (none, ⟨[⟨"a", "x", -5⟩], 1, ["1 cards have been loaded"], [], "",
        [Event.printed "1 cards have been loaded"]⟩) ∧
    Reachable ⟨[⟨"a", "x", -5⟩], 1, ["1 cards have been loaded"], [], "",
      [Event.printed "1 cards have been loaded"]⟩ ∧
    ¬ (∀ c ∈ ([⟨"a", "x", -5⟩] : List Flashcard), 0 ≤ c.Mistakes) ∧
    importFromFile (NewDeck ["1", "z"] "")
        (FileContent.records [⟨"a", "x", 9223372036854775807⟩]) =
      some (none,
        ⟨[⟨"a", "x", 9223372036854775807⟩], 1, ["1 cards have been loaded"], ["1", "z"], "",
          [Event.printed "1 cards have been loaded"]⟩) ∧
    askFlashcardAnswers (fun _ => 0)
        ⟨[⟨"a", "x", 9223372036854775807⟩], 1, ["1 cards have been loaded"], ["1", "z"], "",
          [Event.printed "1 cards have been loaded"]⟩ =
      some ((1, none),
        ⟨[⟨"a", "x", -9223372036854775808⟩], 1,
          ["1 cards have been loaded", "How many times to ask?", "1",
            "Print the definition of \"a\":", "z", "Wrong. The right answer is \"x\""],
          [], "",
          [Event.printed "1 cards have been loaded", Event.printed "How many times to ask?",
            Event.read "1", Event.printed "Print the definition of \"a\":", Event.read "z",
            Event.printed "Wrong. The right answer is \"x\""]⟩) := by
  refine ⟨by decide, ?_, by decide, by decide, by decide⟩
  exact Reachable.importFile (FileContent.records [⟨"a", "x", -5⟩]) none _
    (Reachable.init [] "") (by decide)

/-! ### The transcript -/

theorem logged_refl (d : Deck) : Logged d d :=
  ⟨[], by simp, by simp, by simp, Or.inl rfl⟩

theorem logged_trans {d d1 d2 : Deck} (h1 : Logged d d1) (h2 : Logged d1 d2) : Logged d d2 := by
  obtain ⟨e1, ha, hb, hc, hp⟩ := h1
  obtain ⟨e2, ha2, hb2, hc2, hp2⟩ := h2
  refine ⟨e1 ++ e2, by rw [ha2, ha, List.append_assoc],
    by rw [hb2, hb, List.filterMap_append, List.append_assoc],
    by rw [hc, hc2, List.filterMap_append, List.append_assoc], ?_⟩
  rcases hp2 with hp2 | hp2
  · rcases hp with hp | ⟨hr, hp⟩
    · exact Or.inl (hp2.trans hp)
    · right
      rw [hr] at hc2
      have hnil : d2.reader = [] := (List.append_eq_nil.1 hc2.symm).2
      exact ⟨hnil, hp2.trans hp⟩
  · exact Or.inr hp2

theorem logged_println (d : Deck) (str : String) : Logged d (printlnAndLog d str) :=
  ⟨[Event.printed str], rfl, rfl, by simp [printlnAndLog, Event.consumed], Or.inl rfl⟩

theorem logged_read (d : Deck) : Logged d (ReadInputLineAndLog d).2 := by
  cases hr : d.reader with
  | nil =>
    refine ⟨[Event.readEOF d.pending], ?_, ?_, ?_, Or.inr ⟨?_, ?_⟩⟩ <;>
      simp [ReadInputLineAndLog, hr, Event.entry, Event.consumed]
  | cons line rest =>
    refine ⟨[Event.read line], ?_, ?_, ?_, Or.inl ?_⟩ <;>
      simp [ReadInputLineAndLog, hr, Event.entry, Event.consumed]

/-- A step that makes no call and touches neither the transcript nor the input. -/
theorem logged_silent (d d1 : Deck) (hl : d1.log = d.log) (hr : d1.reader = d.reader)
    (ho : d1.trace = d.trace) (hp : d1.pending = d.pending) : Logged d d1 :=
  ⟨[], by simp [ho], by simp [hl], by simp [hr], Or.inl hp⟩

/-- The failed read of a loop of `addFlashcard`: the pending input is used up. -/
theorem logged_exhausted (d : Deck) (hr : d.reader = []) :
    Logged d
      { d with reader := [], pending := "", trace := d.trace ++ [Event.readEOF d.pending] } :=
  ⟨[Event.readEOF d.pending], rfl, by simp [Event.entry], by simp [hr, Event.consumed],
    Or.inr ⟨rfl, rfl⟩⟩

/-- The successful read of a loop of `addFlashcard`. -/
theorem logged_line (d : Deck) (l : String) (ls : List String) (hr : d.reader = l :: ls) :
    Logged d
      ⟨d.flashcards, d.numCards, d.log ++ [TrimSpace l], ls, d.pending,
        d.trace ++ [Event.read l]⟩ :=
  ⟨[Event.read l], rfl, by simp [Event.entry], by simp [hr, Event.consumed], Or.inl rfl⟩

theorem logged_readTerm (lines : List String) :
    ∀ d : Deck, d.reader = lines → Logged d (addFlashcard.readTerm d lines).2 := by
  induction lines with
  | nil =>
    intro d hr
    exact logged_exhausted d hr
  | cons l ls ih =>
    intro d hr
    have h1 := logged_line d l ls hr
    unfold addFlashcard.readTerm
    simp only []
    split
    · exact logged_trans h1 (logged_trans (logged_println _ _) (ih _ rfl))
    · exact h1

theorem logged_readDefinition (lines : List String) :
    ∀ d : Deck, d.reader = lines → Logged d (addFlashcard.readDefinition d lines).2 := by
  induction lines with
  | nil =>
    intro d hr
    exact logged_exhausted d hr
  | cons l ls ih =>
    intro d hr
    have h1 := logged_line d l ls hr
    unfold addFlashcard.readDefinition
    simp only []
    split
    · exact logged_trans h1 (logged_trans (logged_println _ _) (ih _ rfl))
    · exact h1

theorem logged_add (d : Deck) : Logged d (addFlashcard d).2 := by
  have h0 := logged_println d "The card:"
  have h1 := logged_readTerm (printlnAndLog d "The card:").reader (printlnAndLog d "The card:") rfl
  unfold addFlashcard
  simp only []
  rcases hres : addFlashcard.readTerm (printlnAndLog d "The card:")
    (printlnAndLog d "The card:").reader with ⟨⟨t, e⟩, d1⟩
  rw [hres] at h1
  cases e with
  | some err => exact logged_trans h0 h1
  | none =>
    simp only []
    have h2 := logged_println d1 "The definition of the card:"
    have h3 := logged_readDefinition (printlnAndLog d1 "The definition of the card:").reader
      (printlnAndLog d1 "The definition of the card:") rfl
    rcases hres2 : addFlashcard.readDefinition (printlnAndLog d1 "The definition of the card:")
      (printlnAndLog d1 "The definition of the card:").reader with ⟨⟨t2, e2⟩, d3⟩
    rw [hres2] at h3
    have h03 : Logged d d3 := logged_trans h0 (logged_trans h1 (logged_trans h2 h3))
    cases e2 with
    | some err => exact h03
    | none =>
      exact logged_trans h03
        (logged_trans (logged_silent d3 ⟨d3.flashcards ++ [⟨t, t2, 0⟩], d3.numCards + 1,
          d3.log, d3.reader, d3.pending, d3.trace⟩ rfl rfl rfl rfl) (logged_println _ _))

theorem logged_remove (d : Deck) : Logged d (removeFlashcard d).2 := by
  have h0 := logged_println d "Which card?"
  have h1 := logged_read (printlnAndLog d "Which card?")
  unfold removeFlashcard
  simp only []
  rcases hres : ReadInputLineAndLog (printlnAndLog d "Which card?") with ⟨⟨t, e⟩, d1⟩
  rw [hres] at h1
  have h01 : Logged d d1 := logged_trans h0 h1
  cases e with
  | some err => exact h01
  | none =>
    simp only []
    cases removeFlashcard.find t d1.flashcards 0 with
    | none => exact logged_trans h01 (logged_println _ _)
    | some idx =>
      exact logged_trans h01
        (logged_trans (logged_silent d1 ⟨d1.flashcards.take idx ++ d1.flashcards.drop (idx + 1),
          d1.numCards - 1, d1.log, d1.reader, d1.pending, d1.trace⟩ rfl rfl rfl rfl)
          (logged_println _ _))

theorem logged_round (d d1 : Deck) (line : String) (rest : List String) (prompt msg : String)
    (hr : d.reader = line :: rest) (hl : d1.log = d.log ++ [prompt, TrimSpace line, msg])
    (hr1 : d1.reader = rest)
    (ho : d1.trace = d.trace ++ [Event.printed prompt, Event.read line, Event.printed msg])
    (hp : d1.pending = d.pending) : Logged d d1 :=
  ⟨[Event.printed prompt, Event.read line, Event.printed msg], ho,
    by simp [hl, Event.entry], by simp [hr, hr1, Event.consumed], Or.inl hp⟩

theorem logged_checkAnswer (d : Deck) (idx : Nat) (r : Int × Option GoError) (d1 : Deck)
    (h : checkAnswer d idx = some (r, d1)) : Logged d d1 := by
  cases hc : d.flashcards[idx]? with
  | none => simp [checkAnswer, hc] at h
  | some card =>
    cases hr : d.reader with
    | nil =>
      have h1 := logged_read (printlnAndLog d ("Print the definition of \"" ++ card.Term ++ "\":"))
      have e : checkAnswer d idx = some ((0, some GoError.EOF),
          (ReadInputLineAndLog
            (printlnAndLog d ("Print the definition of \"" ++ card.Term ++ "\":"))).2) := by
        unfold checkAnswer
        simp only [hc, ReadInputLineAndLog, printlnAndLog, hr]
      rw [e] at h
      simp only [Option.some.injEq, Prod.mk.injEq] at h
      rw [← h.2]
      exact logged_trans (logged_println _ _) h1
    | cons line rest =>
      by_cases hans : TrimSpace line = card.Definition
      · rw [checkAnswer_correct d idx card line rest hc hr hans] at h
        simp only [Option.some.injEq, Prod.mk.injEq] at h
        rw [← h.2]
        exact logged_round d _ line rest _ _ hr rfl rfl rfl rfl
      · rcases scan_spec (TrimSpace line) d.flashcards 0 with
          ⟨hno, _⟩ | ⟨pre, X, post, h1, h2, h3, _⟩
        · rw [checkAnswer_wrong_no_match d idx card line rest hc hr hans hno] at h
          simp only [Option.some.injEq, Prod.mk.injEq] at h
          rw [← h.2]
          exact logged_round d _ line rest _ _ hr rfl rfl rfl rfl
        · rw [(checkAnswer_wrong_match d idx card line rest pre post X hc hr hans h1 h2 h3).2]
            at h
          simp only [Option.some.injEq, Prod.mk.injEq] at h
          rw [← h.2]
          exact logged_round d _ line rest _ _ hr rfl rfl rfl rfl

theorem logged_rounds (rnd : Nat → Nat) (k : Nat) :
    ∀ (i : Nat) (d : Deck) (r : Int × Option GoError) (d1 : Deck),
      askFlashcardAnswers.rounds rnd i k d = some (r, d1) → Logged d d1 := by
  induction k with
  | zero =>
    intro i d r d1 h
    simp only [askFlashcardAnswers.rounds, Option.some.injEq, Prod.mk.injEq] at h
    rw [← h.2]
    exact logged_refl d
  | succ k ih =>
    intro i d r d1 h
    unfold askFlashcardAnswers.rounds at h
    cases hI : Intn (rnd i) d.numCards with
    | none => simp [hI] at h
    | some idx =>
      simp only [hI] at h
      cases hchk : checkAnswer d idx with
      | none => simp [hchk] at h
      | some res =>
        obtain ⟨⟨n, e⟩, d2⟩ := res
        have h2 := logged_checkAnswer d idx (n, e) d2 hchk
        cases e with
        | some err =>
          simp only [hchk, Option.some.injEq, Prod.mk.injEq] at h
          rw [← h.2]
          exact h2
        | none =>
          simp only [hchk] at h
          exact logged_trans h2 (ih (i + 1) d2 r d1 h)

theorem logged_ask (rnd : Nat → Nat) (d : Deck) (r : Int × Option GoError) (d1 : Deck)
    (h : askFlashcardAnswers rnd d = some (r, d1)) : Logged d d1 := by
  have h0 := logged_println d "How many times to ask?"
  have h1 := logged_read (printlnAndLog d "How many times to ask?")
  unfold askFlashcardAnswers at h
  simp only [] at h
  rcases hres : ReadInputLineAndLog (printlnAndLog d "How many times to ask?")
    with ⟨⟨t, e⟩, d2⟩
  rw [hres] at h h1
  have h02 : Logged d d2 := logged_trans h0 h1
  cases e with
  | some err =>
    simp only [Option.some.injEq, Prod.mk.injEq] at h
    rw [← h.2]
    exact h02
  | none =>
    simp only [] at h
    cases hn : Atoi t with
    | error err =>
      simp only [hn, Option.some.injEq, Prod.mk.injEq] at h
      rw [← h.2]
      exact h02
    | ok numAsk =>
      simp only [hn] at h
      by_cases hz : d2.numCards = 0
      · simp only [hz, if_true, Option.some.injEq, Prod.mk.injEq] at h
        rw [← h.2]
        exact logged_trans h02 (logged_println _ _)
      · simp only [hz, if_false] at h
        exact logged_trans h02 (logged_rounds rnd _ 0 d2 r d1 h)

theorem logged_import (d : Deck) (file : FileContent) (e : Option GoError) (d1 : Deck)
    (h : importFromFile d file = some (e, d1)) : Logged d d1 := by
  cases file with
  | missing =>
    simp only [importFromFile, Option.some.injEq, Prod.mk.injEq] at h
    rw [← h.2]
    exact logged_println _ _
  | malformed err =>
    simp only [importFromFile, Option.some.injEq, Prod.mk.injEq] at h
    rw [← h.2]
    exact logged_refl d
  | records rs =>
    rw [importFromFile_records d rs] at h
    simp only [Option.some.injEq, Prod.mk.injEq] at h
    rw [← h.2]
    exact ⟨[Event.printed (toString rs.length ++ " cards have been loaded")], rfl, rfl,
      by simp [Event.consumed], Or.inl rfl⟩

theorem logged_export (d : Deck) (w : Option GoError) : Logged d (exportToFile d w).1.2 := by
  cases w with
  | none => exact logged_println _ _
  | some err => exact logged_refl d

theorem logged_reset (d : Deck) : Logged d (resetStats d) :=
  ⟨[Event.printed "Card statistics have been reset."], rfl, rfl,
    by simp [resetStats, printlnAndLog, Event.consumed], Or.inl rfl⟩

theorem logged_hardest (d : Deck) : Logged d (findHardestCards d) := by
  unfold findHardestCards
  split <;> exact logged_println _ _

theorem logged_writeToLogFile (env : Env) (d : Deck) : Logged d (writeToLogFile env d).2 := by
  have h0 := logged_println d "File name:"
  have h1 := logged_read (printlnAndLog d "File name:")
  unfold writeToLogFile
  simp only []
  rcases hres : ReadInputLineAndLog (printlnAndLog d "File name:") with ⟨⟨t, e⟩, d1⟩
  rw [hres] at h1
  have h01 : Logged d d1 := logged_trans h0 h1
  cases e with
  | some err => exact h01
  | none =>
    simp only []
    cases env.writeLog d1 t with
    | some err => exact h01
    | none => exact logged_trans h01 (logged_println _ _)

theorem logged_onAdd (env : Env) (d d1 : Deck) (b : Bool)
    (h : main.onAdd env d = some (d1, b)) : Logged d d1 := by
  have h1 := logged_add d
  unfold main.onAdd at h
  rcases hres : addFlashcard d with ⟨⟨n, e⟩, d2⟩
  rw [hres] at h h1
  cases e with
  | some err =>
    simp only [Option.some.injEq, Prod.mk.injEq] at h
    rw [← h.1]
    exact logged_trans h1 (logged_println _ _)
  | none =>
    simp only [Option.some.injEq, Prod.mk.injEq] at h
    rw [← h.1]
    exact h1

theorem logged_onRemove (env : Env) (d d1 : Deck) (b : Bool)
    (h : main.onRemove env d = some (d1, b)) : Logged d d1 := by
  have h1 := logged_remove d
  unfold main.onRemove at h
  rcases hres : removeFlashcard d with ⟨⟨n, e⟩, d2⟩
  rw [hres] at h h1
  cases e with
  | some err =>
    simp only [Option.some.injEq, Prod.mk.injEq] at h
    rw [← h.1]
    exact logged_trans h1 (logged_println _ _)
  | none =>
    simp only [Option.some.injEq, Prod.mk.injEq] at h
    rw [← h.1]
    exact h1

theorem logged_readFilename (env : Env) (d : Deck) :
    Logged d (main.readFilename env d).2 := by
  have h0 := logged_println d "File name:"
  have h1 := logged_read (printlnAndLog d "File name:")
  unfold main.readFilename
  simp only []
  rcases hres : ReadInputLineAndLog (printlnAndLog d "File name:") with ⟨⟨t, e⟩, d2⟩
  rw [hres] at h1
  cases e with
  | some err => exact logged_trans h0 (logged_trans h1 (logged_println _ _))
  | none => exact logged_trans h0 h1

theorem logged_onImport (env : Env) (d d1 : Deck) (b : Bool)
    (h : main.onImport env d = some (d1, b)) : Logged d d1 := by
  have h1 := logged_readFilename env d
  unfold main.onImport at h
  rcases hres : main.readFilename env d with ⟨t, d2⟩
  rw [hres] at h h1
  simp only [] at h h1
  cases himp : importFromFile d2 (env.openFile d2 t) with
  | none => simp [himp] at h
  | some res =>
    obtain ⟨e2, d4⟩ := res
    have h4 := logged_import d2 _ e2 d4 himp
    cases e2 with
    | some err =>
      simp only [himp, Option.some.injEq, Prod.mk.injEq] at h
      rw [← h.1]
      exact logged_trans h1 (logged_trans h4 (logged_println _ _))
    | none =>
      simp only [himp, Option.some.injEq, Prod.mk.injEq] at h
      rw [← h.1]
      exact logged_trans h1 h4

theorem logged_onExport (env : Env) (d d1 : Deck) (b : Bool)
    (h : main.onExport env d = some (d1, b)) : Logged d d1 := by
  have h1 := logged_readFilename env d
  unfold main.onExport at h
  rcases hres : main.readFilename env d with ⟨t, d2⟩
  rw [hres] at h h1
  simp only [] at h h1
  have h4 := logged_export d2 (env.writeFile d2 t)
  rcases hexp : exportToFile d2 (env.writeFile d2 t) with ⟨⟨e2, d4⟩, recs⟩
  rw [hexp] at h h4
  cases e2 with
  | some err =>
    simp only [Option.some.injEq, Prod.mk.injEq] at h
    rw [← h.1]
    exact logged_trans h1 (logged_trans h4 (logged_println _ _))
  | none =>
    simp only [Option.some.injEq, Prod.mk.injEq] at h
    rw [← h.1]
    exact logged_trans h1 h4

theorem logged_onAsk (env : Env) (d d1 : Deck) (b : Bool)
    (h : main.onAsk env d = some (d1, b)) : Logged d d1 := by
  unfold main.onAsk at h
  cases hask : askFlashcardAnswers (env.rnd d) d with
  | none => simp [hask] at h
  | some res =>
    obtain ⟨⟨n, e⟩, d2⟩ := res
    have h1 := logged_ask (env.rnd d) d (n, e) d2 hask
    cases e with
    | some err =>
      simp only [hask, Option.some.injEq, Prod.mk.injEq] at h
      rw [← h.1]
      exact logged_trans h1 (logged_println _ _)
    | none =>
      simp only [hask, Option.some.injEq, Prod.mk.injEq] at h
      rw [← h.1]
      exact h1

theorem logged_onLog (env : Env) (d d1 : Deck) (b : Bool)
    (h : main.onLog env d = some (d1, b)) : Logged d d1 := by
  have h1 := logged_writeToLogFile env d
  unfold main.onLog at h
  rcases hres : writeToLogFile env d with ⟨e, d2⟩
  rw [hres] at h h1
  cases e with
  | some err =>
    simp only [Option.some.injEq, Prod.mk.injEq] at h
    rw [← h.1]
    exact logged_trans h1 (logged_println _ _)
  | none =>
    simp only [Option.some.injEq, Prod.mk.injEq] at h
    rw [← h.1]
    exact h1

theorem logged_onExit (env : Env) (exportTo : String) (d d1 : Deck) (b : Bool)
    (h : main.onExit env exportTo d = some (d1, b)) : Logged d d1 := by
  have h0 := logged_println d "Bye bye!"
  unfold main.onExit at h
  simp only [] at h
  by_cases hx : exportTo = ""
  · simp only [hx, if_true, Option.some.injEq, Prod.mk.injEq] at h
    rw [← h.1]
    exact h0
  · simp only [hx, if_false] at h
    have h4 := logged_export (printlnAndLog d "Bye bye!")
      (env.writeFile (printlnAndLog d "Bye bye!") exportTo)
    rcases hexp : exportToFile (printlnAndLog d "Bye bye!")
      (env.writeFile (printlnAndLog d "Bye bye!") exportTo) with ⟨⟨e2, d4⟩, recs⟩
    rw [hexp] at h h4
    cases e2 with
    | some err =>
      simp only [Option.some.injEq, Prod.mk.injEq] at h
      rw [← h.1]
      exact logged_trans h0 (logged_trans h4 (logged_println _ _))
    | none =>
      simp only [Option.some.injEq, Prod.mk.injEq] at h
      rw [← h.1]
      exact logged_trans h0 h4

theorem logged_command (env : Env) (exportTo action : String) (d d1 : Deck) (b : Bool)
    (h : main.command env exportTo action d = some (d1, b)) : Logged d d1 := by
  unfold main.command at h
  split_ifs at h
  · exact logged_onAdd env d d1 b h
  · exact logged_onRemove env d d1 b h
  · exact logged_onImport env d d1 b h
  · exact logged_onExport env d d1 b h
  · exact logged_onAsk env d d1 b h
  · exact logged_onLog env d d1 b h
  · simp only [Option.some.injEq, Prod.mk.injEq] at h
    rw [← h.1]
    exact logged_hardest d
  · simp only [Option.some.injEq, Prod.mk.injEq] at h
    rw [← h.1]
    exact logged_reset d
  · exact logged_onExit env exportTo d d1 b h
  · simp only [Option.some.injEq, Prod.mk.injEq] at h
    rw [← h.1]
    exact logged_println _ _

theorem textLines_line (w : List Char) (h : '\n' ∉ w) (rest : List Char) :
    textLines (w ++ '\n' :: rest) = w :: textLines rest := by
  induction w with
  | nil => simp [textLines]
  | cons c cs ih =>
    have hc : c ≠ '\n' := fun e => h (by simp [e])
    have hcs : '\n' ∉ cs := fun e => h (by simp [e])
    simp only [List.cons_append, textLines, hc, if_false, List.append_eq, ih hcs]

/-- Strings without a line break, written by `fmt.Println`, are the lines of the output. -/
theorem printed_lines (out : List String) (h : ∀ str ∈ out, '\n' ∉ str.data) :
    textLines (stdoutText out) = out.map String.data := by
  induction out with
  | nil => rfl
  | cons s rest ih =>
    have hs := h s (by simp)
    unfold stdoutText at ih ⊢
    rw [List.flatMap_cons, List.append_assoc, List.singleton_append, textLines_line _ hs,
      ih (fun x hx => h x (by simp [hx]))]
    rfl

/-- C12, as amended: the transcript is append-only, and complete for what is printed and for
the complete lines read.  `printlnAndLog`, the one function that prints, writes its string to
standard output and enters it at the end of the transcript; `ReadInputLineAndLog`, the one
function that reads, enters the trimmed line at the end when there is a complete line, and
when there is none it uses up the pending input and enters nothing.  For each of add, remove,
ask, import, export, reset stats, hardest card and log, as a method and as a command of the
loop with its error report, the transcript before is a prefix of the transcript after, and the
entries added are exactly the strings the operation printed and the complete lines it read,
trimmed, in the order of these calls; the lines read are taken from the front of the input,
and the pending input is left alone or used up after the last complete line.  Each string
printed is written followed by a line break, so where none of them holds a line break they
are the lines of the output. -/
theorem transcript_append_only (env : Env) (d : Deck) :
    (∀ str : String, (printlnAndLog d str).log = d.log ++ [str] ∧
      (printlnAndLog d str).trace = d.trace ++ [Event.printed str] ∧
      (printlnAndLog d str).reader = d.reader ∧
      (printlnAndLog d str).pending = d.pending) ∧
    (∀ (line : String) (rest : List String), d.reader = line :: rest →
      (ReadInputLineAndLog d).2.log = d.log ++ [TrimSpace line] ∧
      (ReadInputLineAndLog d).2.trace = d.trace ++ [Event.read line] ∧
      (ReadInputLineAndLog d).2.reader = rest ∧
      (ReadInputLineAndLog d).2.pending = d.pending) ∧
    (d.reader = [] →
      (ReadInputLineAndLog d).2 =
        { d with pending := "", trace := d.trace ++ [Event.readEOF d.pending] }) ∧
    Logged d (addFlashcard d).2 ∧
    Logged d (removeFlashcard d).2 ∧
    (∀ (rnd : Nat → Nat) (r : Int × Option GoError) (d1 : Deck),
      askFlashcardAnswers rnd d = some (r, d1) → Logged d d1) ∧
    (∀ (file : FileContent) (e : Option GoError) (d1 : Deck),
      importFromFile d file = some (e, d1) → Logged d d1) ∧
    (∀ w : Option GoError, Logged d (exportToFile d w).1.2) ∧
    Logged d (resetStats d) ∧
    Logged d (findHardestCards d) ∧
    Logged d (writeToLogFile env d).2 ∧
    (∀ (exportTo action : String) (d1 : Deck) (b : Bool),
      main.command env exportTo action d = some (d1, b) → Logged d d1) ∧
    ((∀ str ∈ d.trace.filterMap Event.written, '\n' ∉ str.data) →
      textLines (stdoutText (d.trace.filterMap Event.written)) =
        (d.trace.filterMap Event.written).map String.data) := by
  refine ⟨fun str => ⟨rfl, rfl, rfl, rfl⟩, ?_, ?_, logged_add d, logged_remove d,
    fun rnd r d1 h => logged_ask rnd d r d1 h, fun file e d1 h => logged_import d file e d1 h,
    fun w => logged_export d w, logged_reset d, logged_hardest d, logged_writeToLogFile env d,
    fun exportTo action d1 b h => logged_command env exportTo action d d1 b h,
    fun h => printed_lines _ h⟩
  · intro line rest hr
    simp [ReadInputLineAndLog, hr]
  · intro hr
    simp [ReadInputLineAndLog, hr]

/-- C12 as amended, at a concrete run of `main`: every prompt, every report and every complete
line typed is in the transcript, in the order of the calls; what is typed after the last line
break is not. -/
theorem transcript_example :
    main plainEnv "" "" ["add", " a ", "x", "remove", "b", "reset stats", "exit"] "left over" =
      Outcome.returned
        ⟨[⟨"a", "x", 0⟩], 1,
          [actionPrompt,
            "add", "The card:", "a", "The definition of the card:", "x",
            "The pair (\"a\":\"x\") has been added.",
            actionPrompt,
            "remove", "Which card?", "b", "Can\x27t remove \"b\": there is no such card.",
            actionPrompt,
            "reset stats", "Card statistics have been reset.",
            actionPrompt,
            "exit", "Bye bye!"], [], "left over",
          [Event.printed actionPrompt,
            Event.read "add", Event.printed "The card:", Event.read " a ",
            Event.printed "The definition of the card:", Event.read "x",
            Event.printed "The pair (\"a\":\"x\") has been added.",
            Event.printed actionPrompt,
            Event.read "remove", Event.printed "Which card?", Event.read "b",
            Event.printed "Can\x27t remove \"b\": there is no such card.",
            Event.printed actionPrompt,
            Event.read "reset stats", Event.printed "Card statistics have been reset.",
            Event.printed actionPrompt,
            Event.read "exit", Event.printed "Bye bye!"]⟩ ∧
    Logged (NewDeck [" a ", "x"] "left over") (addFlashcard (NewDeck [" a ", "x"] "left over")).2 ∧
    (addFlashcard (NewDeck [" a ", "x"] "left over")).2 =
      ⟨[⟨"a", "x", 0⟩], 1,
        ["The card:", "a", "The definition of the card:", "x",
          "The pair (\"a\":\"x\") has been added."], [], "left over",
        [Event.printed "The card:", Event.read " a ",
          Event.printed "The definition of the card:", Event.read "x",
          Event.printed "The pair (\"a\":\"x\") has been added."]⟩ := by
  refine ⟨by decide, ?_, by decide⟩
  exact (transcript_append_only plainEnv (NewDeck [" a ", "x"] "left over")).2.2.2.1

/-- C12 as stated fails on input that does not end in a line break.  With `abc` typed and the
input closed, `removeFlashcard` prints its prompt and reads: the read returns `abc` with
`io.EOF`, and the only entry added is the prompt, so what the operation read is not in the
transcript.  It fails for `exportToFile` too, whose report ends in a line break of its own:
the one entry added is not a line, and what is printed is the report on one line and an
empty line. -/
theorem transcript_counterexample :
    removeFlashcard ⟨[], 0, [], [], "abc", []⟩ =
      ((false, some GoError.EOF),
        ⟨[], 0, ["Which card?"], [], "", [Event.printed "Which card?", Event.readEOF "abc"]⟩) ∧
    (removeFlashcard ⟨[], 0, [], [], "abc", []⟩).2.log ≠
      (removeFlashcard ⟨[], 0, [], [], "abc", []⟩).2.trace.map Event.text ∧
    TrimSpace "abc" ∉ (removeFlashcard ⟨[], 0, [], [], "abc", []⟩).2.log ∧
    exportToFile (NewDeck [] "") none =
      ((none,
          ⟨[], 0, ["0 cards have been saved.\n"], [], "",
            [Event.printed "0 cards have been saved.\n"]⟩),
        some []) ∧
    (exportToFile (NewDeck [] "") none).1.2.log.map String.data ≠
      textLines (stdoutText
        ((exportToFile (NewDeck [] "") none).1.2.trace.filterMap Event.written)) ∧
    textLines (stdoutText
        ((exportToFile (NewDeck [] "") none).1.2.trace.filterMap Event.written)) =
      ["0 cards have been saved.".data, []] := by
  refine ⟨by decide, by decide, by decide, by decide, by decide, by decide⟩

/-! ### A failed read of user input in the command loop -/

/-- C16, the code at the failing inputs.  With the input `import` and then the end of the
input, `main` reports the failed read of the file name, goes on to `importFromFile` with the
empty name, which reports that the file is not found, prints the prompt of the next turn, and
returns only when the read of the action fails.  With `export` it reports the failed read and
goes on to `exportToFile` with the empty name, whose write fails.  With `add` the failed read
ends the run at once. -/
theorem main_filename_read_failure :
    main plainEnv "" "" ["import"] "" =
      Outcome.returned
        ⟨[], 0,
          [actionPrompt,
            "import", "File name:", "Error reading filename: EOF", "File not found.",
            actionPrompt,
            "Error reading the action: EOF"], [], "",
          [Event.printed actionPrompt,
            Event.read "import", Event.printed "File name:", Event.readEOF "",
            Event.printed "Error reading filename: EOF", Event.printed "File not found.",
            Event.printed actionPrompt, Event.readEOF "",
            Event.printed "Error reading the action: EOF"]⟩ ∧
    main plainEnv "" "" ["export"] "" =
      Outcome.returned
        ⟨[], 0,
          [actionPrompt,
            "export", "File name:", "Error reading filename: EOF",
            "Error exporting flashcards to file: open : no such file or directory"], [], "",
          [Event.printed actionPrompt,
            Event.read "export", Event.printed "File name:", Event.readEOF "",
            Event.printed "Error reading filename: EOF",
            Event.printed
              "Error exporting flashcards to file: open : no such file or directory"]⟩ ∧
    main plainEnv "" "" ["add"] "" =
      Outcome.returned
        ⟨[], 0,
          [actionPrompt,
            "add", "The card:", "Error reading flashcard: EOF"], [], "",
          [Event.printed actionPrompt, Event.read "add", Event.printed "The card:",
            Event.readEOF "", Event.printed "Error reading flashcard: EOF"]⟩ := by
  refine ⟨by decide, by decide, by decide⟩

/-! ### `main` always returns -/

theorem logged_reader_le {d d1 : Deck} (h : Logged d d1) :
    d1.reader.length ≤ d.reader.length := by
  obtain ⟨events, _, _, hr, _⟩ := h
  rw [hr]
  simp

theorem reachable_onAdd (env : Env) (d : Deck) (h : Reachable d) :
    ∃ (d1 : Deck) (b : Bool), main.onAdd env d = some (d1, b) ∧ Reachable d1 := by
  have h1 := Reachable.add h
  unfold main.onAdd
  rcases hres : addFlashcard d with ⟨⟨n, e⟩, d2⟩
  rw [hres] at h1
  cases e with
  | some err => exact ⟨_, _, rfl, Reachable.println _ h1⟩
  | none => exact ⟨_, _, rfl, h1⟩

theorem reachable_onRemove (env : Env) (d : Deck) (h : Reachable d) :
    ∃ (d1 : Deck) (b : Bool), main.onRemove env d = some (d1, b) ∧ Reachable d1 := by
  have h1 := Reachable.remove h
  unfold main.onRemove
  rcases hres : removeFlashcard d with ⟨⟨n, e⟩, d2⟩
  rw [hres] at h1
  cases e with
  | some err => exact ⟨_, _, rfl, Reachable.println _ h1⟩
  | none => exact ⟨_, _, rfl, h1⟩

theorem reachable_readFilename (env : Env) (d : Deck) (h : Reachable d) :
    Reachable (main.readFilename env d).2 := by
  have h1 := Reachable.readLine (Reachable.println "File name:" h)
  unfold main.readFilename
  simp only []
  rcases hres : ReadInputLineAndLog (printlnAndLog d "File name:") with ⟨⟨t, e⟩, d2⟩
  rw [hres] at h1
  cases e with
  | some err => exact Reachable.println _ h1
  | none => exact h1

/-- `importFromFile` never panics. -/
theorem importFromFile_total (d : Deck) (file : FileContent) :
    ∃ (e : Option GoError) (d1 : Deck), importFromFile d file = some (e, d1) := by
  cases file with
  | missing => exact ⟨_, _, rfl⟩
  | malformed err => exact ⟨_, _, rfl⟩
  | records rs => exact ⟨_, _, importFromFile_records d rs⟩

theorem reachable_onImport (env : Env) (d : Deck) (h : Reachable d) :
    ∃ (d1 : Deck) (b : Bool), main.onImport env d = some (d1, b) ∧ Reachable d1 := by
  have h1 := reachable_readFilename env d h
  unfold main.onImport
  rcases hres : main.readFilename env d with ⟨t, d2⟩
  rw [hres] at h1
  simp only [] at h1 ⊢
  obtain ⟨e, d3, himp⟩ := importFromFile_total d2 (env.openFile d2 t)
  have h3 := Reachable.importFile _ e d3 h1 himp
  rw [himp]
  cases e with
  | some err => exact ⟨_, _, rfl, Reachable.println _ h3⟩
  | none => exact ⟨_, _, rfl, h3⟩

theorem reachable_onExport (env : Env) (d : Deck) (h : Reachable d) :
    ∃ (d1 : Deck) (b : Bool), main.onExport env d = some (d1, b) ∧ Reachable d1 := by
  have h1 := reachable_readFilename env d h
  unfold main.onExport
  rcases hres : main.readFilename env d with ⟨t, d2⟩
  rw [hres] at h1
  simp only [] at h1 ⊢
  have h3 := Reachable.exportFile (env.writeFile d2 t) h1
  rcases hexp : exportToFile d2 (env.writeFile d2 t) with ⟨⟨e2, d4⟩, recs⟩
  rw [hexp] at h3
  cases e2 with
  | some err => exact ⟨_, _, rfl, Reachable.println _ h3⟩
  | none => exact ⟨_, _, rfl, h3⟩

theorem reachable_onAsk (env : Env) (d : Deck) (h : Reachable d) :
    ∃ (d1 : Deck) (b : Bool), main.onAsk env d = some (d1, b) ∧ Reachable d1 := by
  obtain ⟨⟨n, e⟩, d2, hask, _⟩ := ask_total (env.rnd d) d (reachable_counts d h)
  have h1 := Reachable.ask (env.rnd d) (n, e) d2 h hask
  unfold main.onAsk
  rw [hask]
  cases e with
  | some err => exact ⟨_, _, rfl, Reachable.println _ h1⟩
  | none => exact ⟨_, _, rfl, h1⟩

theorem reachable_onLog (env : Env) (d : Deck) (h : Reachable d) :
    ∃ (d1 : Deck) (b : Bool), main.onLog env d = some (d1, b) ∧ Reachable d1 := by
  have h1 : Reachable (writeToLogFile env d).2 := by
    have h2 := Reachable.readLine (Reachable.println "File name:" h)
    unfold writeToLogFile
    simp only []
    rcases hres : ReadInputLineAndLog (printlnAndLog d "File name:") with ⟨⟨t, e⟩, d2⟩
    rw [hres] at h2
    cases e with
    | some err => exact h2
    | none =>
      simp only []
      cases env.writeLog d2 t with
      | some err => exact h2
      | none => exact Reachable.println _ h2
  unfold main.onLog
  rcases hres : writeToLogFile env d with ⟨e, d2⟩
  rw [hres] at h1
  cases e with
  | some err => exact ⟨_, _, rfl, Reachable.println _ h1⟩
  | none => exact ⟨_, _, rfl, h1⟩

theorem reachable_onExit (env : Env) (exportTo : String) (d : Deck) (h : Reachable d) :
    ∃ (d1 : Deck) (b : Bool), main.onExit env exportTo d = some (d1, b) ∧ Reachable d1 := by
  have h0 := Reachable.println "Bye bye!" h
  unfold main.onExit
  simp only []
  by_cases hx : exportTo = ""
  · simp only [hx, if_true]
    exact ⟨_, _, rfl, h0⟩
  · simp only [hx, if_false]
    have h3 := Reachable.exportFile (env.writeFile (printlnAndLog d "Bye bye!") exportTo) h0
    rcases hexp : exportToFile (printlnAndLog d "Bye bye!")
      (env.writeFile (printlnAndLog d "Bye bye!") exportTo) with ⟨⟨e2, d4⟩, recs⟩
    rw [hexp] at h3
    cases e2 with
    | some err => exact ⟨_, _, rfl, Reachable.println _ h3⟩
    | none => exact ⟨_, _, rfl, h3⟩

theorem reachable_command (env : Env) (exportTo action : String) (d : Deck)
    (h : Reachable d) :
    ∃ (d1 : Deck) (b : Bool), main.command env exportTo action d = some (d1, b) ∧
      Reachable d1 := by
  unfold main.command
  split_ifs
  · exact reachable_onAdd env d h
  · exact reachable_onRemove env d h
  · exact reachable_onImport env d h
  · exact reachable_onExport env d h
  · exact reachable_onAsk env d h
  · exact reachable_onLog env d h
  · exact ⟨_, _, rfl, Reachable.hardest h⟩
  · exact ⟨_, _, rfl, Reachable.reset h⟩
  · exact reachable_onExit env exportTo d h
  · exact ⟨_, _, rfl, Reachable.println _ h⟩

/-- A turn of the loop in a reachable state never panics, ends in a reachable state, and
has consumed input when the loop goes on. -/
theorem reachable_turn (env : Env) (exportTo : String) (d : Deck) (h : Reachable d) :
    ∃ (d1 : Deck) (b : Bool), main.turn env exportTo d = some (d1, b) ∧ Reachable d1 ∧
      (b = true → d1.reader.length < d.reader.length) := by
  have h1 := Reachable.readLine (Reachable.println actionPrompt h)
  unfold main.turn
  simp only []
  cases hr : d.reader with
  | nil =>
    simp only [ReadInputLineAndLog, printlnAndLog, hr] at h1 ⊢
    exact ⟨_, _, rfl, Reachable.println _ h1, by simp⟩
  | cons line rest =>
    simp only [ReadInputLineAndLog, printlnAndLog, hr] at h1 ⊢
    obtain ⟨d1, b, hc, hreach⟩ := reachable_command env exportTo (TrimSpace line) _ h1
    refine ⟨d1, b, hc, hreach, ?_⟩
    intro _
    have := logged_reader_le (logged_command env exportTo _ _ d1 b hc)
    simp only [List.length_cons] at this ⊢
    omega

theorem loop_returns (env : Env) (exportTo : String) (turns : Nat) :
    ∀ d : Deck, Reachable d → d.reader.length < turns →
      ∃ d1 : Deck, main.loop env exportTo turns d = Outcome.returned d1 := by
  induction turns with
  | zero => intro d _ h; omega
  | succ n ih =>
    intro d hreach hlen
    obtain ⟨d1, b, ht, hr1, hdec⟩ := reachable_turn env exportTo d hreach
    unfold main.loop
    rw [ht]
    cases b with
    | false => exact ⟨d1, rfl⟩
    | true =>
      have := hdec rfl
      exact ih d1 hr1 (by omega)

/-- `main` returns for every environment, every pair of flags and every input: it does not
panic, and the turns allotted to its loop are enough. -/
theorem main_returns (env : Env) (importFrom exportTo : String) (stdin : List String)
    (pending : String) :
    ∃ d : Deck, main env importFrom exportTo stdin pending = Outcome.returned d := by
  unfold main
  simp only []
  by_cases hi : importFrom = ""
  · simp only [hi, if_true]
    exact loop_returns env exportTo _ (NewDeck stdin pending) (Reachable.init stdin pending)
      (by simp [NewDeck])
  · simp only [hi, if_false]
    obtain ⟨e, d1, himp⟩ := importFromFile_total (NewDeck stdin pending)
      (env.openFile (NewDeck stdin pending) importFrom)
    have hr := Reachable.importFile _ e d1 (Reachable.init stdin pending) himp
    have hlen := logged_reader_le (logged_import _ _ e d1 himp)
    rw [himp]
    cases e with
    | some err => exact ⟨_, rfl⟩
    | none =>
      exact loop_returns env exportTo _ d1 hr (by simp [NewDeck] at hlen; omega)

/-- After a failed read of the file name, `case "import"` still calls `importFromFile`, and
when the empty name cannot be opened the loop goes on; `case "add"` returns at once. -/
theorem onImport_failed_read (env : Env) (d : Deck) (hr : d.reader = [])
    (hopen : ∀ d2 : Deck, env.openFile d2 "" = FileContent.missing) :
    main.onImport env d =
      some (⟨d.flashcards, d.numCards,
        d.log ++ ["File name:", "Error reading filename: " ++ env.errorText GoError.EOF,
          "File not found."], [], "",
        d.trace ++ [Event.printed "File name:", Event.readEOF d.pending,
          Event.printed ("Error reading filename: " ++ env.errorText GoError.EOF),
          Event.printed "File not found."]⟩, true) ∧
    main.onAdd env d =
      some (⟨d.flashcards, d.numCards,
        d.log ++ ["The card:", "Error reading flashcard: " ++ env.errorText GoError.EOF],
        [], "",
        d.trace ++ [Event.printed "The card:", Event.readEOF d.pending,
          Event.printed ("Error reading flashcard: " ++ env.errorText GoError.EOF)]⟩,
        false) := by
  constructor
  · unfold main.onImport main.readFilename
    simp only [ReadInputLineAndLog, printlnAndLog, hr, hopen, importFromFile]
    simp
  · unfold main.onAdd addFlashcard
    simp only [printlnAndLog, hr, addFlashcard.readTerm]
    simp

end Flashcards
